import Mathlib

/-!
Verification of the kvs key-value store (files src/lib.rs, src/command.rs of
the repository). The store is a Bitcask-style append-only log with an
in-memory index and synchronous compaction.

The embedding is shallow:

* Keys and values are lists of characters (`Str`).
* A log file is a list of `Item`s. `Item.whole c` stands for the bytes of one
  well-formed bincode record of command `c`; `Item.bad` stands for bytes that
  fail to decode (a partial trailing record or a corrupt record). Records are
  self-delimiting and every stored file position points at a record start, so
  a byte offset is modeled by the index of the record in the list.
* The file system is an inode store: `files` maps inode numbers to contents
  and `names` maps directory entries (generation number and extension) to
  inodes. Deleting a name leaves the inode readable through handles that are
  still open, exactly as on the platform the code runs on; `rename` moves a
  name to the same inode. Open handles (the writer and the cached readers)
  are therefore modeled as inode numbers resolved against `files`.
* `get_read_handle` called on a path that `get_write_handle` just created
  yields a handle onto the very same file; the model reuses the inode that
  `createAppend` returned at those places.
* Operations return a pair of a result and the post state, because the Rust
  methods take `&mut self` and leave partial mutations behind when they
  return an error (in particular `remove` appends its record before the
  index lookup that can fail).
-/

namespace KvsModel

/-- Keys and values are UTF-8 strings in the source; modeled as char lists. -/
abbrev Str := List Char

/-- The tagged union of log records (src/command.rs, enum Command). -/
inductive Command where
  | set (key value : Str)
  | remove (key : Str)
deriving DecidableEq

/-- One slot of an on-disk log stream: the bytes of one well-formed record,
or bytes on which `Command::from_reader` fails (partial or corrupt). -/
inductive Item where
  | whole (c : Command)
  | bad
deriving DecidableEq

/-- Error kinds of the store. The source uses anyhow errors; they are told
apart here by the site that raises them. `keyNotFound` is the bail in
`InternalMap::remove`, `readerMissing` is the missing-reader error in `get`,
`codec` is a bincode decode failure, `ioErr` any file-system failure. -/
inductive Err where
  | keyNotFound
  | readerMissing (generation : Nat)
  | ioErr
  | codec
deriving DecidableEq

instance {ε α : Type} [DecidableEq ε] [DecidableEq α] : DecidableEq (Except ε α)
  | Except.ok a, Except.ok b => decidable_of_iff (a = b) (by simp)
  | Except.ok _, Except.error _ => isFalse (fun h => Except.noConfusion h)
  | Except.error _, Except.ok _ => isFalse (fun h => Except.noConfusion h)
  | Except.error e, Except.error f => decidable_of_iff (e = f) (by simp)

/-- The values of the in-memory index (struct LogEntry, src/lib.rs). -/
structure LogEntry where
  generation : Nat
  file_pos : Nat
  estimated_bytes : Nat
deriving DecidableEq

/-- Association-list lookup; models lookups in the HashMaps of the source. -/
def lookupA {α β : Type} [DecidableEq α] : List (α × β) → α → Option β
  | [], _ => none
  | (a, b) :: rest, k => if a = k then some b else lookupA rest k

/-- Association-list insert-or-replace; models HashMap insertion. -/
def insertA {α β : Type} [DecidableEq α] : List (α × β) → α → β → List (α × β)
  | [], k, v => [(k, v)]
  | (a, b) :: rest, k, v => if a = k then (k, v) :: rest else (a, b) :: insertA rest k v

/-- Association-list removal; models HashMap removal. -/
def eraseA {α β : Type} [DecidableEq α] : List (α × β) → α → List (α × β)
  | [], _ => []
  | (a, b) :: rest, k => if a = k then rest else (a, b) :: eraseA rest k

/-- In-memory index type (struct InternalMap wraps one HashMap). -/
abbrev InternalMap := List (Str × LogEntry)

/-- InternalMap::set (src/lib.rs lines 309-335). Returns the wasted-byte
delta together with the new map. An entry of a strictly greater generation
blocks the update and the function returns 0. -/
def mapSet (m : InternalMap) (key : Str) (generation file_pos estimated_bytes : Nat) :
    Nat × InternalMap :=
  match lookupA m key with
  | some old =>
      if old.generation > generation then
        (0, m)
      else
        (old.estimated_bytes, insertA m key ⟨generation, file_pos, estimated_bytes⟩)
  | none => (0, insertA m key ⟨generation, file_pos, estimated_bytes⟩)

/-- InternalMap::remove (src/lib.rs lines 341-350). Fails with KeyNotFound
when the key is absent, otherwise returns the estimated bytes of the removed
entry together with the new map. -/
def mapRemove (m : InternalMap) (key : Str) : Except Err (Nat × InternalMap) :=
  match lookupA m key with
  | some old => Except.ok (old.estimated_bytes, eraseA m key)
  | none => Except.error Err.keyNotFound

/-- File-name extensions used by the store (enum LogFileType). -/
inductive Ext where
  | log
  | tmp
deriving DecidableEq

/-- A directory: inode contents, the next fresh inode, and directory entries
mapping a generation-extension pair to an inode. -/
structure Dir where
  files : Nat → List Item
  nextInode : Nat
  names : List ((Nat × Ext) × Nat)

/-- The full state: the directory plus the struct KvStore fields. `writer`
is the inode the active BufWriter appends to; `readers` caches one reader
inode per generation. -/
structure St where
  files : Nat → List Item
  nextInode : Nat
  names : List ((Nat × Ext) × Nat)
  map : InternalMap
  current_generation : Nat
  writer : Nat
  readers : List (Nat × Nat)
  wasted_bytes : Nat

/-- The directory part of a state, what survives dropping the store. -/
def St.dir (s : St) : Dir := ⟨s.files, s.nextInode, s.names⟩

/-- get_write_handle with create+append semantics: reuse the named file if
present, otherwise create an empty one under a fresh inode. Returns the
handle (inode) and the new state. -/
def createAppend (s : St) (generation : Nat) (ext : Ext) : Nat × St :=
  match lookupA s.names (generation, ext) with
  | some i => (i, s)
  | none =>
      (s.nextInode,
        { s with
          files := fun j => if j = s.nextInode then [] else s.files j,
          names := insertA s.names (generation, ext) s.nextInode,
          nextInode := s.nextInode + 1 })

/-- get_read_handle: open the named file read-only; fails when absent. -/
def openRead (s : St) (generation : Nat) (ext : Ext) : Except Err Nat :=
  match lookupA s.names (generation, ext) with
  | some i => Except.ok i
  | none => Except.error Err.ioErr

/-- Append one record through an open handle (Command::to_writer + flush). -/
def appendItem (s : St) (i : Nat) (it : Item) : St :=
  { s with files := fun j => if j = i then s.files j ++ [it] else s.files j }

/-- Command::from_reader at a given record position of an open stream: a
whole record decodes, anything else (bad bytes or end of stream) is an
error, as bincode deserialize_from reports. -/
def readOne (content : List Item) (pos : Nat) : Except Err Command :=
  match content[pos]? with
  | some (Item.whole c) => Except.ok c
  | some Item.bad => Except.error Err.codec
  | none => Except.error Err.codec

/-- The commands of the longest decodable prefix of a stream; where every
`while let Ok(cmd) = Command::from_reader(..)` loop stops. -/
def wholeRecs : List Item → List Command
  | Item.whole c :: rest => c :: wholeRecs rest
  | _ => []

/-- The longest decodable prefix of a stream, as items. -/
def onlyWholeItems : List Item → List Item
  | Item.whole c :: rest => Item.whole c :: onlyWholeItems rest
  | _ => []

/-- Insert into a sorted list of generation numbers. -/
def insertSorted (a : Nat) : List Nat → List Nat
  | [] => [a]
  | b :: rest => if a ≤ b then a :: b :: rest else b :: insertSorted a rest

/-- Ascending sort of generation numbers (Vec::sort_unstable). -/
def sortNat (l : List Nat) : List Nat := l.foldr insertSorted []

/-- sorted_gen_list on the directory of a store state. Reachable states name
their log files with the canonical decimal numeral of the generation, so the
file-name parsing of the source (modeled separately at the character level
for the name-parsing claim) reduces to listing the generations that carry a
`.log` name. -/
def sortedGens (s : St) : List Nat :=
  sortNat ((s.names.filter fun p => p.1.2 == Ext.log).map fun p => p.1.1)

/-- Threshold for compaction (COMPACTION_BYTES_THRESHOLD, 1 MiB). -/
def COMPACTION_BYTES_THRESHOLD : Nat := 1024 * 1024

/-- A result-and-state fold that stops at the first error, keeping the
partially mutated state, as the ? operator does inside a &mut method. -/
def foldStopE {σ α : Type} (f : σ → α → (Except Err Unit) × σ) :
    σ → List α → (Except Err Unit) × σ
  | st, [] => (Except.ok (), st)
  | st, a :: as =>
      match f st a with
      | (Except.ok _, st2) => foldStopE f st2 as
      | (Except.error e, st2) => (Except.error e, st2)

/-- KvStore::get (src/lib.rs lines 143-162): consult the index; on a hit,
fetch the cached reader of that generation, seek to file_pos and decode one
record; a Set yields its value and a Remove yields None. -/
def getOp (s : St) (key : Str) : Except Err (Option Str) :=
  match lookupA s.map key with
  | none => Except.ok none
  | some e =>
      match lookupA s.readers e.generation with
      | none => Except.error (Err.readerMissing e.generation)
      | some i =>
          match readOne (s.files i) e.file_pos with
          | Except.ok (Command.set _ value) => Except.ok (some value)
          | Except.ok (Command.remove _) => Except.ok none
          | Except.error er => Except.error er

/-- The append-and-index part of KvStore::set: seek the writer to the end,
append the Set record, flush, then update the index and the wasted counter. -/
def setCore (s : St) (key value : Str) : St :=
  let current_pos := (s.files s.writer).length
  let estimated_bytes := key.length + value.length
  let s1 := appendItem s s.writer (Item.whole (Command.set key value))
  let r := mapSet s1.map key s1.current_generation current_pos estimated_bytes
  { s1 with map := r.2, wasted_bytes := s1.wasted_bytes + r.1 }

/-- The append-and-index part of KvStore::remove: the Remove record is
appended and flushed first; the index lookup that can fail with KeyNotFound
comes after, so a failed call leaves the record in the log. -/
def removeCore (s : St) (key : Str) : (Except Err Unit) × St :=
  let s1 := appendItem s s.writer (Item.whole (Command.remove key))
  match mapRemove s1.map key with
  | Except.error e => (Except.error e, s1)
  | Except.ok r =>
      (Except.ok (), { s1 with map := r.2, wasted_bytes := s1.wasted_bytes + r.1 })

/-- Step 2 of compaction, one record of an old generation
(src/lib.rs lines 214-246). `cGen` is the compaction target generation and
`iC` the handle of the compaction writer; the second component of the
accumulator is the already_handled set. -/
def compactRecord (cGen iC : Nat) (acc : St × List Str) (cmd : Command) :
    (Except Err Unit) × (St × List Str) :=
  match cmd with
  | Command.remove key => (Except.ok (), acc.1, key :: acc.2)
  | Command.set key _ =>
      if key ∈ acc.2 then
        (Except.ok (), acc)
      else
        match getOp acc.1 key with
        | Except.error e => (Except.error e, acc)
        | Except.ok none => (Except.ok (), acc.1, key :: acc.2)
        | Except.ok (some value) =>
            let s := acc.1
            let current_pos := (s.files iC).length
            let estimated_bytes := key.length + value.length
            let s1 := appendItem s iC (Item.whole (Command.set key value))
            let r := mapSet s1.map key cGen current_pos estimated_bytes
            (Except.ok (), { s1 with map := r.2 }, key :: acc.2)

/-- Step 2 of compaction, one old generation: open a fresh blessed reader at
offset zero and process every record the decode loop yields. -/
def compactGen (cGen iC : Nat) (acc : St × List Str) (generation : Nat) :
    (Except Err Unit) × (St × List Str) :=
  match openRead acc.1 generation Ext.log with
  | Except.error e => (Except.error e, acc)
  | Except.ok i => foldStopE (compactRecord cGen iC) acc (wholeRecs (acc.1.files i))

/-- Step 4 of compaction, one old generation: fs::remove_file on its blessed
log; fails when the name is absent. -/
def removeLogFile (s : St) (generation : Nat) : (Except Err Unit) × St :=
  match lookupA s.names (generation, Ext.log) with
  | none => (Except.error Err.ioErr, s)
  | some _ => (Except.ok (), { s with names := eraseA s.names (generation, Ext.log) })

/-- KvStore::maybe_run_compaction past the threshold test
(src/lib.rs lines 180-279): snapshot the blessed generations, open the
compaction target as a tmp file and a new write generation, swap the writer,
cache readers for both, rewrite the live keys, bless the target by rename,
reset the wasted counter and delete the old logs. -/
def runCompaction (s : St) : (Except Err Unit) × St :=
  let gen_list := sortedGens s
  let compaction_target_generation := s.current_generation + 1
  let new_writes_generation := s.current_generation + 2
  let p1 := createAppend s compaction_target_generation Ext.tmp
  let p2 := createAppend p1.2 new_writes_generation Ext.log
  let s3 :=
    { p2.2 with
      writer := p2.1,
      readers := insertA (insertA p2.2.readers compaction_target_generation p1.1)
                   new_writes_generation p2.1,
      current_generation := new_writes_generation }
  match foldStopE (compactGen compaction_target_generation p1.1) (s3, []) gen_list with
  | (Except.error e, acc) => (Except.error e, acc.1)
  | (Except.ok _, acc) =>
      let s4 := acc.1
      match lookupA s4.names (compaction_target_generation, Ext.tmp) with
      | none => (Except.error Err.ioErr, s4)
      | some i =>
          let s5 :=
            { s4 with
              names := insertA (eraseA s4.names (compaction_target_generation, Ext.tmp))
                         (compaction_target_generation, Ext.log) i,
              readers := insertA s4.readers compaction_target_generation i,
              wasted_bytes := 0 }
          foldStopE removeLogFile s5 gen_list

/-- KvStore::maybe_run_compaction (src/lib.rs lines 176-280). -/
def maybeRunCompaction (s : St) : (Except Err Unit) × St :=
  if s.wasted_bytes < COMPACTION_BYTES_THRESHOLD then (Except.ok (), s)
  else runCompaction s

/-- KvStore::set (src/lib.rs lines 125-140). -/
def setOp (s : St) (key value : Str) : (Except Err Unit) × St :=
  maybeRunCompaction (setCore s key value)

/-- KvStore::remove (src/lib.rs lines 165-173). -/
def removeOp (s : St) (key : Str) : (Except Err Unit) × St :=
  match removeCore s key with
  | (Except.error e, s1) => (Except.error e, s1)
  | (Except.ok _, s1) => maybeRunCompaction s1

/-- The replay loop of KvStore::load: starting at the current position,
decode records while decoding succeeds, feeding Sets and Removes to the
index with the position of the record start; a decode failure ends the loop
without error, but a Remove of an absent key propagates KeyNotFound. -/
def replayItems (generation : Nat) : St → List Item → Nat → (Except Err Unit) × St
  | s, [], _ => (Except.ok (), s)
  | s, Item.bad :: _, _ => (Except.ok (), s)
  | s, Item.whole cmd :: rest, pos =>
      match cmd with
      | Command.set key value =>
          let estimated_bytes := key.length + value.length
          let r := mapSet s.map key generation pos estimated_bytes
          replayItems generation
            { s with map := r.2, wasted_bytes := s.wasted_bytes + r.1 } rest (pos + 1)
      | Command.remove key =>
          match mapRemove s.map key with
          | Except.error e => (Except.error e, s)
          | Except.ok r =>
              replayItems generation
                { s with map := r.2, wasted_bytes := s.wasted_bytes + r.1 } rest (pos + 1)

/-- KvStore::load (src/lib.rs lines 102-122): open a blessed reader, replay
its records into the index, then cache the reader. -/
def loadGen (s : St) (generation : Nat) : (Except Err Unit) × St :=
  match openRead s generation Ext.log with
  | Except.error e => (Except.error e, s)
  | Except.ok i =>
      match replayItems generation s (s.files i) 0 with
      | (Except.error e, s2) => (Except.error e, s2)
      | (Except.ok _, s2) => (Except.ok (), { s2 with readers := insertA s2.readers generation i })

/-- KvStore::open (src/lib.rs lines 63-99). A missing directory is created
(create_dir_all); with no generations present, generation 1 is created with
an empty log and a cached reader; otherwise the largest generation becomes
the active writer. Every generation is then replayed in ascending order. -/
def openStore (d : Option Dir) : (Except Err Unit) × St :=
  let dir := d.getD { files := fun _ => [], nextInode := 0, names := [] }
  let s0 : St :=
    { files := dir.files, nextInode := dir.nextInode, names := dir.names,
      map := [], current_generation := 0, writer := 0, readers := [], wasted_bytes := 0 }
  match sortedGens s0 with
  | [] =>
      let p := createAppend s0 1 Ext.log
      (Except.ok (),
        { p.2 with current_generation := 1, writer := p.1,
                   readers := insertA p.2.readers 1 p.1 })
  | g :: gs =>
      let current := (g :: gs).getLast (List.cons_ne_nil g gs)
      let p := createAppend s0 current Ext.log
      foldStopE loadGen
        { p.2 with current_generation := current, writer := p.1 } (g :: gs)

/-- A user-level operation of the library API. -/
inductive Op where
  | set (key value : Str)
  | del (key : Str)

/-- Apply one operation, keeping the post state whether or not the call
reported an error (the store object survives a failed call). -/
def applyOp (s : St) : Op → St
  | Op.set key value => (setOp s key value).2
  | Op.del key => (removeOp s key).2

/-- Run a sequence of operations against a store. -/
def runOps (s : St) : List Op → St := List.foldl applyOp s

/-- The empty directory. -/
def freshDir : Dir := { files := fun _ => [], nextInode := 0, names := [] }

/-- A store opened on an empty directory. -/
def freshSt : St := (openStore (some freshDir)).2

/-- The specified result of get after a sequence of operations: the value of
the last Set for the key that is not followed by a later Remove of the key. -/
def specLast (S : List Op) (key : Str) : Option Str :=
  S.foldl
    (fun acc op =>
      match op with
      | Op.set k v => if k = key then some v else acc
      | Op.del k => if k = key then none else acc)
    none

/-- Whether every remove in the sequence succeeds when the sequence is run. -/
def removesSucceed : St → List Op → Bool
  | _, [] => true
  | s, Op.set k v :: rest => removesSucceed (applyOp s (Op.set k v)) rest
  | s, Op.del k :: rest =>
      match removeOp s k with
      | (Except.ok _, s2) => removesSucceed s2 rest
      | (Except.error _, _) => false

/-- True exactly on a Codec error result. -/
def isCodecError : (Except Err Unit) → Bool
  | Except.error Err.codec => true
  | _ => false

/-- No temporary file is present in the directory. -/
def noTmps (s : St) : Prop := ∀ g, lookupA s.names (g, Ext.tmp) = none

/-- No generation holds a blessed log in both states. -/
def logsDisjoint (s t : St) : Prop :=
  ∀ g, (lookupA s.names (g, Ext.log)).isSome = true → lookupA t.names (g, Ext.log) = none

/-- The number of blessed log files in the directory. -/
def logCount (s : St) : Nat := (s.names.filter fun p => p.1.2 == Ext.log).length

/-!
Character-level model of sorted_gen_list (src/lib.rs lines 354-368), for the
claim about file-name parsing. A directory is a list of entries carrying the
file name and whether the entry is a regular file.
-/

/-- Split a file name at its last dot: some (stem, ext) with
name = stem ++ dot ++ ext and no dot inside ext; none without a dot. -/
def splitLastDot : List Char → Option (List Char × List Char)
  | [] => none
  | ch :: rest =>
      match splitLastDot rest with
      | some (st, ex) => some (ch :: st, ex)
      | none => if ch = '.' then some ([], rest) else none

/-- Path::extension of a plain file name: the part after the last dot,
except that a name whose only dot is its first character has no extension. -/
def extensionOf (name : List Char) : Option (List Char) :=
  match splitLastDot name with
  | some (st, ex) => if st = [] then none else some ex
  | none => none

/-- One round of str::trim_end_matches on the reversed name: the reversal of
the suffix dot-l-o-g is g-o-l-dot. -/
def trimRevLog : List Char → List Char
  | 'g' :: 'o' :: 'l' :: '.' :: rest => trimRevLog rest
  | s => s

/-- str::trim_end_matches with the pattern dot-l-o-g: remove every trailing
occurrence of the suffix. -/
def trimEndMatchesLog (s : List Char) : List Char := (trimRevLog s.reverse).reverse

/-- The numeric value of a decimal digit, when the character is one. -/
def charDigit (ch : Char) : Option Nat :=
  if '0' ≤ ch ∧ ch ≤ '9' then some (ch.toNat - '0'.toNat) else none

/-- Accumulating decimal evaluation of a digit string. -/
def digitsValAux : Nat → List Char → Option Nat
  | acc, [] => some acc
  | acc, ch :: rest =>
      match charDigit ch with
      | some d => digitsValAux (acc * 10 + d) rest
      | none => none

/-- The value of a nonempty all-digit string, none otherwise. -/
def digitsVal : List Char → Option Nat
  | [] => none
  | ch :: rest => digitsValAux 0 (ch :: rest)

/-- str::parse for u64: an optional leading plus sign, then one or more
decimal digits, and the value must fit in 64 bits. -/
def parseU64Rust (s : List Char) : Option Nat :=
  let t := match s with
    | '+' :: rest => rest
    | _ => s
  match digitsVal t with
  | some v => if v < 2 ^ 64 then some v else none
  | none => none

/-- The characters of the log extension. -/
def logChars : List Char := ['l', 'o', 'g']

/-- The characters of the dot-log suffix. -/
def dotLogChars : List Char := ['.', 'l', 'o', 'g']

/-- sorted_gen_list at the character level: keep regular files whose
extension is log, trim every trailing dot-log occurrence from the file name,
parse the rest as u64, drop failures, sort ascending. -/
def sortedGenListNames (entries : List (List Char × Bool)) : List Nat :=
  sortNat
    (((entries.filter fun e => e.2 && (extensionOf e.1 == some logChars)).filterMap
      fun e => parseU64Rust (trimEndMatchesLog e.1)))

/-- The canonical decimal numeral of a number. -/
def decimalChars (g : Nat) : List Char := Nat.toDigits 10 g

/-- Modelled from the claim wording: a name contributes g exactly when it is
the decimal numeral of g followed by dot-log, with g an unsigned 64-bit
value. -/
def specNameParse (name : List Char) : Option Nat :=
  let base := name.take (name.length - 4)
  if name = base ++ dotLogChars then
    match digitsVal base with
    | some v => if base = decimalChars v ∧ v < 2 ^ 64 then some v else none
    | none => none
  else none

/-- The generation list the claim describes: regular files of canonical
shape, ascending. -/
def specSortedGenerations (entries : List (List Char × Bool)) : List Nat :=
  sortNat ((entries.filter fun e => e.2).filterMap fun e => specNameParse e.1)

/-- The amended rule: the name must end in dot-log, and after removing every
trailing dot-log occurrence the rest must parse as u64, Rust style. -/
def amendedNameParse (name : List Char) : Option Nat :=
  if name = name.take (name.length - 4) ++ dotLogChars then
    parseU64Rust (trimEndMatchesLog name)
  else none

/-- The generation list under the amended rule. -/
def amendedGenList (entries : List (List Char × Bool)) : List Nat :=
  sortNat ((entries.filter fun e => e.2).filterMap fun e => amendedNameParse e.1)

/-!
State invariant of reachable stores, and reachability itself.
-/

/-- Invariant of a store state. Every field is established when a store is
opened and maintained by every operation, including calls that return an
error and the compaction pass. -/
structure Inv (s : St) : Prop where
  read_ok : ∀ k e, lookupA s.map k = some e →
    ∃ i v, lookupA s.readers e.generation = some i ∧
      readOne (s.files i) e.file_pos = Except.ok (Command.set k v)
  writer_reader : lookupA s.readers s.current_generation = some s.writer
  current_log : lookupA s.names (s.current_generation, Ext.log) = some s.writer
  log_le : ∀ g i, lookupA s.names (g, Ext.log) = some i → g ≤ s.current_generation
  gens_le : ∀ k e, lookupA s.map k = some e → e.generation ≤ s.current_generation
  no_tmp : ∀ g, lookupA s.names (g, Ext.tmp) = none
  log_reader : ∀ g i, lookupA s.names (g, Ext.log) = some i → lookupA s.readers g = some i
  no_bad : ∀ g i, lookupA s.names (g, Ext.log) = some i → Item.bad ∉ s.files i
  log_inj : ∀ g g' i, lookupA s.names (g, Ext.log) = some i →
    lookupA s.names (g', Ext.log) = some i → g = g'
  names_nodup : (s.names.map Prod.fst).Nodup
  readers_nodup : (s.readers.map Prod.fst).Nodup
  map_nodup : (s.map.map Prod.fst).Nodup
  names_lt : ∀ p i, (p, i) ∈ s.names → i < s.nextInode
  readers_lt : ∀ g i, (g, i) ∈ s.readers → i < s.nextInode
  writer_lt : s.writer < s.nextInode
  files_hi : ∀ j, s.nextInode ≤ j → s.files j = []

/-- The store agrees with an abstract key-value map: get never fails and
returns exactly the abstract value. -/
def Agrees (s : St) (A : Str → Option Str) : Prop :=
  ∀ k, getOp s k = Except.ok (A k)

/-- The abstract effect of one operation on the abstract map. -/
def absStep (A : Str → Option Str) : Op → (Str → Option Str)
  | Op.set k v => fun q => if k = q then some v else A q
  | Op.del k => fun q => if k = q then none else A q

/-- The abstract effect of an operation sequence. -/
def absRun (A : Str → Option Str) : List Op → (Str → Option Str)
  | [] => A
  | op :: rest => absRun (absStep A op) rest

/-- The abstract value a store currently holds for a key. Under the
invariant, getOp never fails, so this is the observable content. -/
def getFun (s : St) (k : Str) : Option Str :=
  match getOp s k with
  | Except.ok o => o
  | Except.error _ => none

/-- The replay of a directory succeeds and rebuilds exactly the in-memory
index of the live store: reopening the directory is loss-free. -/
def RInv (s : St) : Prop :=
  (openStore (some s.dir)).1 = Except.ok () ∧
  ∀ k, lookupA ((openStore (some s.dir)).2).map k = lookupA s.map k

/-- States reachable through the public API: a store opened on an empty
directory, any library call on a reachable store (get leaves the state
unchanged in the model, since every read seeks first), and a successful
reopen of the directory of a reachable store. -/
inductive Reach : St → Prop where
  | fresh : Reach freshSt
  | step : ∀ s op, Reach s → Reach (applyOp s op)
  | reopen : ∀ s, Reach s → (openStore (some s.dir)).1 = Except.ok () →
      Reach ((openStore (some s.dir)).2)

/-!
Concrete inputs used by the closed theorems.
-/

/-- The key a. -/
def aKey : Str := ['a']

/-- The key b. -/
def bKey : Str := ['b']

/-- The key k. -/
def kKey : Str := ['k']

/-- The value 1. -/
def val1 : Str := ['1']

/-- The value 2. -/
def val2 : Str := ['2']

/-- A value one byte short of the compaction threshold, so that one key and
this value estimate exactly 1 MiB. -/
def bigVal : Str := List.replicate 1048575 'a'

/-- A directory whose single log holds a whole record, an undecodable
record, and another whole record. -/
def d4 : Dir :=
  { files := fun j =>
      if j = 0 then
        [Item.whole (Command.set aKey val1), Item.bad, Item.whole (Command.set bKey val2)]
      else [],
    nextInode := 1,
    names := [((1, Ext.log), 0)] }

/-- A store state whose index entry for the key a points at a position
holding a Remove record. -/
def c5St : St :=
  { files := fun j => if j = 0 then [Item.whole (Command.remove aKey)] else [],
    nextInode := 1,
    names := [((1, Ext.log), 0)],
    map := [(aKey, ⟨1, 0, 1⟩)],
    current_generation := 1, writer := 0, readers := [(1, 0)], wasted_bytes := 0 }

/-- The c5St state with its reader cache emptied. -/
def c5StNoReader : St := { c5St with readers := [] }

/-- The c5St state with an index position past the end of the log, so that
decoding at the position fails. -/
def c5StBadPos : St := { c5St with map := [(aKey, ⟨1, 7, 1⟩)] }

/-- The file name 1.log.log: not of the canonical decimal-dot-log shape, yet
accepted by the parsing of the source. -/
def name1LogLog : List Char := ['1', '.', 'l', 'o', 'g', '.', 'l', 'o', 'g']

/-- A sequence of two identical large writes; the second one crosses the
compaction threshold. -/
def scenarioOps : List Op := [Op.set kKey bigVal, Op.set kKey bigVal]

/-- The state at the entry of maybe_run_compaction during the second large
write: the record has been appended and the index updated. -/
def scenarioMid : St := setCore (runOps freshSt [Op.set kKey bigVal]) kKey bigVal

/-- The state after the second large write, hence after a full compaction. -/
def scenarioSt : St := runOps freshSt scenarioOps

/-- Invariant of the state threaded through step 2 of compaction, relative
to the state s at which the compaction started. The generation c is the
compaction target, iC the inode of its tmp file, n the new write generation,
iN its inode. Observable get behavior never changes during the rewrite. -/
structure Mid (s : St) (c iC n iN : Nat) (t : St) : Prop where
  names_eq : t.names = insertA (insertA s.names (c, Ext.tmp) iC) (n, Ext.log) iN
  readers_eq : t.readers = insertA (insertA s.readers c iC) n iN
  current_eq : t.current_generation = n
  writer_eq : t.writer = iN
  next_eq : t.nextInode = s.nextInode + 2
  files_ne : ∀ j, j ≠ iC → t.files j = s.files j
  read_ok : ∀ k e, lookupA t.map k = some e →
    ∃ i v, lookupA t.readers e.generation = some i ∧
      readOne (t.files i) e.file_pos = Except.ok (Command.set k v)
  gens_le_c : ∀ k e, lookupA t.map k = some e → e.generation ≤ c
  map_nodup : (t.map.map Prod.fst).Nodup
  tmp_whole : Item.bad ∉ t.files iC
  get_eq : ∀ k, getOp t k = getOp s k

/-- Invariant of the state threaded through the load loop of open, relative
to the pre-close state s whose directory is being opened. done lists the
generations already replayed. -/
structure LoadInv (s : St) (done : List Nat) (t : St) : Prop where
  files_eq : t.files = s.files
  names_eq : t.names = s.names
  next_eq : t.nextInode = s.nextInode
  current_eq : t.current_generation = s.current_generation
  writer_eq : t.writer = s.writer
  readers_char : ∀ g, lookupA t.readers g
    = if g ∈ done then lookupA s.names (g, Ext.log) else none
  readers_nodup : (t.readers.map Prod.fst).Nodup
  map_char : ∀ k e, lookupA t.map k = some e →
    e.generation ∈ done ∧ ∃ i v, lookupA s.names (e.generation, Ext.log) = some i ∧
      readOne (s.files i) e.file_pos = Except.ok (Command.set k v)
  map_nodup : (t.map.map Prod.fst).Nodup

/-- The key a record is about. -/
def cmdKey : Command → Str
  | Command.set k _ => k
  | Command.remove k => k

/-- The abstract effect of one replayed record on an abstract map. -/
def absCmd (A : Str → Option Str) : Command → (Str → Option Str)
  | Command.set k v => fun q => if k = q then some v else A q
  | Command.remove k => fun q => if k = q then none else A q

/-- The abstract effect of a record sequence. -/
def absCmds : (Str → Option Str) → List Command → (Str → Option Str)
  | A, [] => A
  | A, c :: rest => absCmds (absCmd A c) rest

/-- Whether replaying the records from abstract state A meets no Remove of
an absent key, the one failure mode of load. -/
def replayOk : (Str → Option Str) → List Command → Bool
  | _, [] => true
  | A, Command.set k v :: rest => replayOk (absCmd A (Command.set k v)) rest
  | A, Command.remove k :: rest =>
      (A k).isSome && replayOk (absCmd A (Command.remove k)) rest

/-- The inode of the blessed log of a generation (0 when absent; only used
on generations that carry one). -/
def logInode (s : St) (g : Nat) : Nat := (lookupA s.names (g, Ext.log)).getD 0

/-- The records of the blessed logs of the listed generations, in scan
order. -/
def dirGensCmds (s : St) (gens : List Nat) : List Command :=
  (gens.map fun g => wholeRecs (s.files (logInode s g))).flatten

/-- Every record of the directory in replay scan order: ascending
generation, then position in the log. -/
def dirCmds (s : St) : List Command := dirGensCmds s (sortedGens s)

/-- The records on disk denote the abstract map A. -/
def DirSem (s : St) (A : Str → Option Str) : Prop :=
  ∀ k, absCmds (fun _ => none) (dirCmds s) k = A k

/-- Replaying the directory meets no Remove of an absent key. -/
def ROk (s : St) : Prop := replayOk (fun _ => none) (dirCmds s) = true

/-- The index M realizes the abstract map B through the directory of s: a
key is absent exactly when B holds none, and a present entry points, through
the blessed log of its generation, at a Set record carrying B's value. -/
def SemRel (s : St) (M : InternalMap) (B : Str → Option Str) (k : Str) : Prop :=
  match lookupA M k with
  | none => B k = none
  | some e => ∃ i v, B k = some v ∧
      lookupA s.names (e.generation, Ext.log) = some i ∧
      readOne (s.files i) e.file_pos = Except.ok (Command.set k v)

/-- Invariant of the semantic content of the compaction target file during
step 2 of compaction: scanned lists the records already processed, handled
the keys already seen, and the target file holds exactly one Set, carrying
the live value, for every handled live key. -/
structure CSem (s : St) (A : Str → Option Str) (iC : Nat) (scanned : List Command)
    (t : St) (handled : List Str) : Prop where
  hand : ∀ k, k ∈ handled ↔ ∃ c, c ∈ scanned ∧ cmdKey c = k
  fsem : ∀ k, absCmds (fun _ => none) (wholeRecs (t.files iC)) k
    = if k ∈ handled then A k else none
  fsets : ∀ c, c ∈ wholeRecs (t.files iC) → ∃ k2 v2, c = Command.set k2 v2

/-!
Theorems. Counterexamples and witnesses are separate closed theorems.
-/

/-- C2: the claim says a remove of an absent key fails with KeyNotFound and
appends nothing, the absence check preceding the append, so log, index and
wasted counter stay unchanged. The code appends first: on a store opened on
an empty directory, remove of the key a fails with KeyNotFound and leaves
index and wasted counter unchanged, yet the Remove record sits in the active
log, and reopening the directory afterwards fails during replay. The claim
matches the stated design and the documentation of open; the append-first
order of the code is the slip. -/
theorem c2_failed_remove_appends_record :
    (removeOp freshSt aKey).1 = Except.error Err.keyNotFound ∧
    (removeOp freshSt aKey).2.files ((removeOp freshSt aKey).2.writer)
      = [Item.whole (Command.remove aKey)] ∧
    lookupA (removeOp freshSt aKey).2.map aKey = none ∧
    (removeOp freshSt aKey).2.wasted_bytes = 0 ∧
    (openStore (some ((removeOp freshSt aKey).2).dir)).1 = Except.error Err.keyNotFound :=
  ⟨by decide, by decide, by decide, by decide, by decide⟩

/-- C10: opening a path with no directory succeeds: the directory is created
(create_dir_all also creates missing parents, which the model folds into
starting from the empty directory), the store starts at generation 1 with a
single empty log file, its writer and one cached reader on that file, an
empty index, and get returns None for every key. -/
theorem c10_open_missing_path :
    (openStore none).1 = Except.ok () ∧
    (openStore none).2.current_generation = 1 ∧
    (openStore none).2.names = [((1, Ext.log), 0)] ∧
    (openStore none).2.files 0 = [] ∧
    (openStore none).2.readers = [(1, 0)] ∧
    (openStore none).2.writer = 0 ∧
    (openStore none).2.map = [] ∧
    ∀ k, getOp (openStore none).2 k = Except.ok none :=
  ⟨by decide, by decide, by decide, by decide, by decide, by decide, by decide,
   fun _ => rfl⟩

/-- C3 counterexample: the claim quantifies over every sequence of set and
remove operations. After the single operation remove of the key a (which
fails, but still appends a Remove record), reopening the directory does not
succeed: replay hits the Remove of an absent key and open propagates
KeyNotFound. -/
theorem c3_counterexample_reopen_fails :
    (openStore (some ((runOps freshSt [Op.del aKey]).dir))).1
      = Except.error Err.keyNotFound := by
  decide

/-- C4 counterexample: a record that fails to decode in the middle of a log
does not make open fail with a Codec error. On a directory whose only log
holds a whole Set of a, an undecodable record, then a whole Set of b, open
succeeds, replays the first record and ignores the rest: the key b is absent
from the index. -/
theorem c4_counterexample_midfile_failure_not_fatal :
    (openStore (some d4)).1 = Except.ok () ∧
    lookupA (openStore (some d4)).2.map aKey = some ⟨1, 0, 2⟩ ∧
    lookupA (openStore (some d4)).2.map bKey = none :=
  ⟨by decide, by decide, by decide⟩

/-- C5 counterexample: on a state whose index entry for the key a points at
a position holding a Remove record, get returns Ok None instead of failing
with IndexInconsistent. -/
theorem c5_counterexample_remove_record_yields_none :
    getOp c5St aKey = Except.ok none := by
  decide

/-- C9 counterexample: the file name 1.log.log is not the decimal numeral of
any generation followed by one dot-log suffix, yet sorted_gen_list returns
generation 1 for it, because trim_end_matches removes both suffixes; the
list the claim describes is empty. -/
theorem c9_counterexample_repeated_log_suffix :
    sortedGenListNames [(name1LogLog, true)] = [1] ∧
    specSortedGenerations [(name1LogLog, true)] = [] :=
  ⟨by decide, by decide⟩

/-- C8: InternalMap::set inserts a fresh entry and returns 0 when the key is
absent; overwrites and returns the estimated bytes of the prior entry when
the prior generation is at most the incoming one; and leaves the map
unchanged returning 0 when the prior generation is strictly greater. -/
theorem c8_index_set_characterization (m : InternalMap) (key : Str)
    (generation file_pos estimated_bytes : Nat) :
    (lookupA m key = none →
      mapSet m key generation file_pos estimated_bytes
        = (0, insertA m key ⟨generation, file_pos, estimated_bytes⟩)) ∧
    (∀ old, lookupA m key = some old → old.generation ≤ generation →
      mapSet m key generation file_pos estimated_bytes
        = (old.estimated_bytes, insertA m key ⟨generation, file_pos, estimated_bytes⟩)) ∧
    (∀ old, lookupA m key = some old → generation < old.generation →
      mapSet m key generation file_pos estimated_bytes = (0, m)) := by
  refine ⟨fun h => ?_, fun old h hle => ?_, fun old h hgt => ?_⟩
  · simp [mapSet, h]
  · simp [mapSet, h, Nat.not_lt.mpr hle]
  · simp [mapSet, h, hgt]

/-- Witness for c8_index_set_characterization: the three cases at concrete
inputs. -/
theorem c8_index_set_characterization_witness :
    mapSet [] aKey 1 0 3 = (0, [(aKey, ⟨1, 0, 3⟩)]) ∧
    mapSet [(aKey, ⟨1, 2, 3⟩)] aKey 2 5 7 = (3, [(aKey, ⟨2, 5, 7⟩)]) ∧
    mapSet [(aKey, ⟨9, 2, 3⟩)] aKey 2 5 7 = (0, [(aKey, ⟨9, 2, 3⟩)]) :=
  ⟨(c8_index_set_characterization [] aKey 1 0 3).1 (by decide),
   (c8_index_set_characterization [(aKey, ⟨1, 2, 3⟩)] aKey 2 5 7).2.1
     ⟨1, 2, 3⟩ (by decide) (by decide),
   (c8_index_set_characterization [(aKey, ⟨9, 2, 3⟩)] aKey 2 5 7).2.2
     ⟨9, 2, 3⟩ (by decide) (by decide)⟩

/-- C5 amended: get consults the index and returns None on a miss; on a hit
it fails with the missing-reader error when no reader is cached for the
generation of the entry; with a cached reader it decodes one record at the
stored position, a Set yields its value, a Remove yields None rather than an
error, and a decode failure propagates. -/
theorem c5_amended_get_behavior (s : St) (key : Str) :
    (lookupA s.map key = none → getOp s key = Except.ok none) ∧
    (∀ e, lookupA s.map key = some e → lookupA s.readers e.generation = none →
      getOp s key = Except.error (Err.readerMissing e.generation)) ∧
    (∀ e i k2, lookupA s.map key = some e → lookupA s.readers e.generation = some i →
      readOne (s.files i) e.file_pos = Except.ok (Command.remove k2) →
      getOp s key = Except.ok none) ∧
    (∀ e i k2 v, lookupA s.map key = some e → lookupA s.readers e.generation = some i →
      readOne (s.files i) e.file_pos = Except.ok (Command.set k2 v) →
      getOp s key = Except.ok (some v)) ∧
    (∀ e i er, lookupA s.map key = some e → lookupA s.readers e.generation = some i →
      readOne (s.files i) e.file_pos = Except.error er →
      getOp s key = Except.error er) := by
  refine ⟨fun h => ?_, fun e h hr => ?_, fun e i k2 h hr hread => ?_,
    fun e i k2 v h hr hread => ?_, fun e i er h hr hread => ?_⟩
  · simp [getOp, h]
  · simp [getOp, h, hr]
  · simp [getOp, h, hr, hread]
  · simp [getOp, h, hr, hread]
  · simp [getOp, h, hr, hread]

/-- Witness for c5_amended_get_behavior: every case at a concrete state. -/
theorem c5_amended_get_behavior_witness :
    getOp freshSt aKey = Except.ok none ∧
    getOp c5StNoReader aKey = Except.error (Err.readerMissing 1) ∧
    getOp c5St aKey = Except.ok none ∧
    getOp (runOps freshSt [Op.set aKey val1]) aKey = Except.ok (some val1) ∧
    getOp c5StBadPos aKey = Except.error Err.codec :=
  ⟨(c5_amended_get_behavior freshSt aKey).1 (by decide),
   (c5_amended_get_behavior c5StNoReader aKey).2.1 ⟨1, 0, 1⟩ (by decide) (by decide),
   (c5_amended_get_behavior c5St aKey).2.2.1 ⟨1, 0, 1⟩ 0 aKey (by decide) (by decide) (by decide),
   (c5_amended_get_behavior (runOps freshSt [Op.set aKey val1]) aKey).2.2.2.1
     ⟨1, 0, 2⟩ 0 aKey val1 (by decide) (by decide) (by decide),
   (c5_amended_get_behavior c5StBadPos aKey).2.2.2.2
     ⟨1, 7, 1⟩ 0 Err.codec (by decide) (by decide) (by decide)⟩

theorem mapRemove_error_eq {m : InternalMap} {key : Str} {e : Err}
    (h : mapRemove m key = Except.error e) : e = Err.keyNotFound := by
  unfold mapRemove at h
  cases hl : lookupA m key <;> rw [hl] at h <;> simp_all

theorem replayItems_onlyWhole (generation : Nat) :
    ∀ (items : List Item) (s : St) (pos : Nat),
      replayItems generation s items pos = replayItems generation s (onlyWholeItems items) pos
  | [], _, _ => rfl
  | Item.bad :: _, _, _ => rfl
  | Item.whole cmd :: rest, s, pos => by
      cases cmd with
      | set key value =>
          simp only [replayItems, onlyWholeItems]
          exact replayItems_onlyWhole generation rest _ _
      | remove key =>
          simp only [replayItems, onlyWholeItems]
          rcases mapRemove s.map key with e | r
          · rfl
          · exact replayItems_onlyWhole generation rest _ _

theorem replayItems_not_codec (generation : Nat) :
    ∀ (items : List Item) (s : St) (pos : Nat),
      isCodecError (replayItems generation s items pos).1 = false
  | [], _, _ => rfl
  | Item.bad :: _, _, _ => rfl
  | Item.whole cmd :: rest, s, pos => by
      cases cmd with
      | set key value => exact replayItems_not_codec generation rest _ _
      | remove key =>
          simp only [replayItems]
          rcases hm : mapRemove s.map key with e | r
          · rw [mapRemove_error_eq hm]; rfl
          · exact replayItems_not_codec generation rest _ _

theorem foldStopE_not_codec {σ α : Type} (f : σ → α → (Except Err Unit) × σ)
    (hf : ∀ st a, isCodecError (f st a).1 = false) :
    ∀ (l : List α) (st : σ), isCodecError (foldStopE f st l).1 = false
  | [], _ => rfl
  | a :: as, st => by
      simp only [foldStopE]
      rcases hfa : f st a with ⟨r, st2⟩
      cases r with
      | ok u => exact foldStopE_not_codec f hf as st2
      | error e =>
          have := hf st a
          rw [hfa] at this
          exact this

theorem loadGen_not_codec (s : St) (generation : Nat) :
    isCodecError (loadGen s generation).1 = false := by
  unfold loadGen openRead
  cases hn : lookupA s.names (generation, Ext.log) with
  | none => rfl
  | some i =>
      rcases hr : replayItems generation s (s.files i) 0 with ⟨r, s2⟩
      cases r with
      | ok u => simp only [hr]; rfl
      | error e =>
          have h2 := replayItems_not_codec generation (s.files i) s 0
          rw [hr] at h2
          simpa only [hr] using h2

theorem openStore_not_codec (d : Option Dir) : isCodecError (openStore d).1 = false := by
  unfold openStore
  dsimp only
  split
  · rfl
  · exact foldStopE_not_codec loadGen (fun st a => loadGen_not_codec st a) _ _

/-- C4 amended: a partial trailing record ends replay of a generation
cleanly, and so does any record that fails to decode in the middle of a log:
replay behaves exactly as on the longest decodable prefix of the stream (the
whole records before the failure are replayed, everything after is ignored),
and open never reports a Codec error. -/
theorem c4_amended_replay_stops_at_first_failure :
    (∀ (generation : Nat) (s : St) (items : List Item) (pos : Nat),
      replayItems generation s items pos
        = replayItems generation s (onlyWholeItems items) pos) ∧
    (∀ d : Dir, isCodecError (openStore (some d)).1 = false) :=
  ⟨fun generation s items pos => replayItems_onlyWhole generation items s pos,
   fun d => openStore_not_codec (some d)⟩

theorem dot_not_in_logChars : ('.' : Char) ∉ logChars := by decide

theorem splitLastDot_eq_none : ∀ l : List Char, ('.' : Char) ∉ l → splitLastDot l = none
  | [], _ => rfl
  | ch :: rest, h => by
      have hr := splitLastDot_eq_none rest (fun hm => h (List.mem_cons_of_mem ch hm))
      have hch : ch ≠ '.' := fun he => h (he ▸ List.mem_cons_self ch rest)
      simp [splitLastDot, hr, hch]

theorem not_dot_of_splitLastDot_none : ∀ {l : List Char}, splitLastDot l = none →
    ('.' : Char) ∉ l
  | [], _ => by simp
  | ch :: rest, h => by
      unfold splitLastDot at h
      cases hr : splitLastDot rest with
      | some p => rw [hr] at h; simp at h
      | none =>
          rw [hr] at h
          by_cases hch : ch = '.'
          · simp [hch] at h
          · have hrest := not_dot_of_splitLastDot_none hr
            intro hmem
            rcases List.mem_cons.mp hmem with he | hm
            · exact hch he.symm
            · exact hrest hm

theorem splitLastDot_append : ∀ (l ex : List Char), ('.' : Char) ∉ ex →
    splitLastDot (l ++ '.' :: ex) = some (l, ex)
  | [], ex, h => by simp [splitLastDot, splitLastDot_eq_none ex h]
  | a :: l, ex, h => by simp [splitLastDot, splitLastDot_append l ex h]

theorem splitLastDot_some : ∀ {name st ex : List Char},
    splitLastDot name = some (st, ex) → name = st ++ '.' :: ex ∧ ('.' : Char) ∉ ex
  | [], _, _, h => by simp [splitLastDot] at h
  | ch :: rest, st, ex, h => by
      unfold splitLastDot at h
      cases hr : splitLastDot rest with
      | some p =>
          rcases p with ⟨st2, ex2⟩
          rw [hr] at h
          simp at h
          obtain ⟨h1, h2⟩ := h
          obtain ⟨hn, hex⟩ := splitLastDot_some hr
          subst h2
          refine ⟨?_, hex⟩
          rw [← h1, hn]
          rfl
      | none =>
          rw [hr] at h
          by_cases hch : ch = '.'
          · rw [if_pos hch] at h
            simp at h
            obtain ⟨h1, h2⟩ := h
            subst h1
            subst h2
            exact ⟨by simp [hch], not_dot_of_splitLastDot_none hr⟩
          · rw [if_neg hch] at h
            simp at h

theorem extension_log_parse (name : List Char) :
    (if extensionOf name = some logChars then parseU64Rust (trimEndMatchesLog name) else none)
      = amendedNameParse name := by
  by_cases hx : extensionOf name = some logChars
  · rw [if_pos hx]
    unfold extensionOf at hx
    cases hs : splitLastDot name with
    | none => rw [hs] at hx; simp at hx
    | some p =>
        rcases p with ⟨st, ex⟩
        rw [hs] at hx
        by_cases hst : st = []
        · simp [hst] at hx
        · simp [hst] at hx
          subst hx
          obtain ⟨hn, _⟩ := splitLastDot_some hs
          have hname : name = st ++ dotLogChars := hn
          subst hname
          unfold amendedNameParse
          have hlen : (st ++ dotLogChars).length - 4 = st.length := by simp [dotLogChars]
          rw [hlen, List.take_left]
          rw [if_pos rfl]
  · rw [if_neg hx]
    unfold amendedNameParse
    by_cases hc : name = name.take (name.length - 4) ++ dotLogChars
    · by_cases hbase : name.take (name.length - 4) = []
      · rw [if_pos hc]
        have hname : name = dotLogChars := by rw [hc, hbase]; rfl
        rw [hname]
        decide
      · exfalso
        apply hx
        have hsplit : splitLastDot name = some (name.take (name.length - 4), logChars) := by
          conv_lhs => rw [hc]
          exact splitLastDot_append _ logChars dot_not_in_logChars
        simp [extensionOf, hsplit, hbase]
    · rw [if_neg hc]

/-- C9 amended: sorted_generations returns, ascending and with multiplicity,
the values of regular files whose name ends in dot-log and whose name, after
removal of every trailing dot-log occurrence, parses as an unsigned 64-bit
integer Rust style (optional leading plus sign, decimal digits, leading
zeros allowed, value below 2 to the 64). -/
theorem c9_amended_gen_list_characterization (entries : List (List Char × Bool)) :
    sortedGenListNames entries = amendedGenList entries := by
  unfold sortedGenListNames amendedGenList
  congr 1
  rw [List.filterMap_filter, List.filterMap_filter]
  apply List.filterMap_congr
  intro e _
  rcases e with ⟨name, isf⟩
  cases isf with
  | false => simp
  | true =>
      have key := extension_log_parse name
      by_cases hx : extensionOf name = some logChars
      · have hb : (extensionOf name == some logChars) = true := beq_iff_eq.mpr hx
        rw [if_pos hx] at key
        simpa [hb] using key
      · have hb : (extensionOf name == some logChars) = false := by
          simpa using hx
        rw [if_neg hx] at key
        simpa [hb] using key

/-!
Association-list lemmas.
-/

theorem lookupA_insertA_self {α β : Type} [DecidableEq α] :
    ∀ (l : List (α × β)) (k : α) (v : β), lookupA (insertA l k v) k = some v
  | [], k, v => by simp [insertA, lookupA]
  | (a, b) :: rest, k, v => by
      by_cases h : a = k
      · simp [insertA, lookupA, h]
      · simp [insertA, lookupA, h, lookupA_insertA_self rest k v]

theorem lookupA_insertA_ne {α β : Type} [DecidableEq α] :
    ∀ (l : List (α × β)) (k q : α) (v : β), k ≠ q →
      lookupA (insertA l k v) q = lookupA l q
  | [], k, q, v, h => by simp [insertA, lookupA, h]
  | (a, b) :: rest, k, q, v, h => by
      by_cases ha : a = k
      · rw [show insertA ((a, b) :: rest) k v = (k, v) :: rest from by simp [insertA, ha]]
        have haq : a ≠ q := fun hq => h (ha.symm.trans hq)
        simp [lookupA, h, haq]
      · rw [show insertA ((a, b) :: rest) k v = (a, b) :: insertA rest k v from by
          simp [insertA, ha]]
        simp [lookupA, lookupA_insertA_ne rest k q v h]

theorem lookupA_eraseA_ne {α β : Type} [DecidableEq α] :
    ∀ (l : List (α × β)) (k q : α), k ≠ q →
      lookupA (eraseA l k) q = lookupA l q
  | [], _, _, _ => rfl
  | (a, b) :: rest, k, q, h => by
      by_cases ha : a = k
      · have haq : a ≠ q := fun hq => h (ha.symm.trans hq)
        rw [show eraseA ((a, b) :: rest) k = rest from by simp [eraseA, ha]]
        simp [lookupA, haq]
      · rw [show eraseA ((a, b) :: rest) k = (a, b) :: eraseA rest k from by simp [eraseA, ha]]
        simp [lookupA, lookupA_eraseA_ne rest k q h]

theorem keys_not_mem_lookupA {α β : Type} [DecidableEq α] :
    ∀ (l : List (α × β)) (k : α), k ∉ l.map Prod.fst → lookupA l k = none
  | [], _, _ => rfl
  | (a, b) :: rest, k, h => by
      have ha : a ≠ k := fun he => h (by simp [he])
      have hr : k ∉ rest.map Prod.fst := fun hm => h (by simp [hm])
      simp [lookupA, ha, keys_not_mem_lookupA rest k hr]

theorem lookupA_mem {α β : Type} [DecidableEq α] :
    ∀ {l : List (α × β)} {k : α} {v : β}, lookupA l k = some v → (k, v) ∈ l
  | [], _, _, h => by simp [lookupA] at h
  | (a, b) :: rest, k, v, h => by
      by_cases ha : a = k
      · rw [show lookupA ((a, b) :: rest) k = some b from by simp [lookupA, ha]] at h
        have hb : b = v := by simpa using h
        subst hb
        subst ha
        exact List.mem_cons_self _ _
      · simp only [lookupA, if_neg ha] at h
        exact List.mem_cons_of_mem _ (lookupA_mem h)

theorem mem_keys_of_lookupA {α β : Type} [DecidableEq α] {l : List (α × β)} {k : α} {v : β}
    (h : lookupA l k = some v) : k ∈ l.map Prod.fst :=
  List.mem_map.mpr ⟨(k, v), lookupA_mem h, rfl⟩

theorem lookupA_isSome_of_mem {α β : Type} [DecidableEq α] :
    ∀ {l : List (α × β)} {k : α} {v : β}, (k, v) ∈ l → (lookupA l k).isSome = true
  | [], _, _, h => by simp at h
  | (a, b) :: rest, k, v, h => by
      by_cases ha : a = k
      · simp [lookupA, ha]
      · rcases List.mem_cons.mp h with he | hm
        · exact absurd (congrArg Prod.fst he.symm) ha
        · simp only [lookupA, if_neg ha]
          exact lookupA_isSome_of_mem hm

theorem lookupA_eraseA_self {α β : Type} [DecidableEq α] :
    ∀ (l : List (α × β)) (k : α), (l.map Prod.fst).Nodup →
      lookupA (eraseA l k) k = none
  | [], _, _ => rfl
  | (a, b) :: rest, k, h => by
      obtain ⟨hna, hrest⟩ := List.nodup_cons.mp h
      by_cases ha : a = k
      · have hk : k ∉ rest.map Prod.fst := ha ▸ hna
        simp [eraseA, ha, keys_not_mem_lookupA rest k hk]
      · rw [show eraseA ((a, b) :: rest) k = (a, b) :: eraseA rest k from by simp [eraseA, ha]]
        simp [lookupA, ha, lookupA_eraseA_self rest k hrest]

theorem mem_insertA {α β : Type} [DecidableEq α] :
    ∀ {l : List (α × β)} {k x : α} {v w : β}, (x, w) ∈ insertA l k v →
      (x = k ∧ w = v) ∨ (x, w) ∈ l
  | [], k, x, v, w, h => by
      have he : (x, w) = (k, v) := by simpa [insertA] using h
      exact Or.inl ⟨congrArg Prod.fst he, congrArg Prod.snd he⟩
  | (a, b) :: rest, k, x, v, w, h => by
      by_cases ha : a = k
      · rw [show insertA ((a, b) :: rest) k v = (k, v) :: rest from by simp [insertA, ha]] at h
        rcases List.mem_cons.mp h with he | hm
        · exact Or.inl ⟨congrArg Prod.fst he, congrArg Prod.snd he⟩
        · exact Or.inr (List.mem_cons_of_mem _ hm)
      · rw [show insertA ((a, b) :: rest) k v = (a, b) :: insertA rest k v from by
          simp [insertA, ha]] at h
        rcases List.mem_cons.mp h with he | hm
        · exact Or.inr (he ▸ List.mem_cons_self _ _)
        · rcases mem_insertA hm with hk | hr
          · exact Or.inl hk
          · exact Or.inr (List.mem_cons_of_mem _ hr)

theorem mem_eraseA {α β : Type} [DecidableEq α] :
    ∀ {l : List (α × β)} {k : α} {p : α × β}, p ∈ eraseA l k → p ∈ l
  | [], _, _, h => by simp [eraseA] at h
  | (a, b) :: rest, k, p, h => by
      by_cases ha : a = k
      · rw [show eraseA ((a, b) :: rest) k = rest from by simp [eraseA, ha]] at h
        exact List.mem_cons_of_mem _ h
      · rw [show eraseA ((a, b) :: rest) k = (a, b) :: eraseA rest k from by simp [eraseA, ha]] at h
        rcases List.mem_cons.mp h with he | hm
        · exact he ▸ List.mem_cons_self _ _
        · exact List.mem_cons_of_mem _ (mem_eraseA hm)

theorem mem_keys_insertA {α β : Type} [DecidableEq α] {l : List (α × β)} {k x : α} {v : β}
    (h : x ∈ ((insertA l k v).map Prod.fst)) : x = k ∨ x ∈ l.map Prod.fst := by
  rcases List.mem_map.mp h with ⟨⟨x1, w⟩, hmem, hx⟩
  subst hx
  rcases mem_insertA hmem with hk | hr
  · exact Or.inl hk.1
  · exact Or.inr (List.mem_map.mpr ⟨(x1, w), hr, rfl⟩)

theorem mem_keys_eraseA {α β : Type} [DecidableEq α] {l : List (α × β)} {k x : α}
    (h : x ∈ ((eraseA l k).map Prod.fst)) : x ∈ l.map Prod.fst := by
  rcases List.mem_map.mp h with ⟨p, hmem, hx⟩
  exact List.mem_map.mpr ⟨p, mem_eraseA hmem, hx⟩

theorem insertA_keys_nodup {α β : Type} [DecidableEq α] :
    ∀ (l : List (α × β)) (k : α) (v : β), (l.map Prod.fst).Nodup →
      ((insertA l k v).map Prod.fst).Nodup
  | [], k, v, _ => by simp [insertA]
  | (a, b) :: rest, k, v, h => by
      obtain ⟨hna, hrest⟩ := List.nodup_cons.mp h
      by_cases ha : a = k
      · rw [show insertA ((a, b) :: rest) k v = (k, v) :: rest from by simp [insertA, ha]]
        rw [show ((k, v) :: rest).map Prod.fst = k :: rest.map Prod.fst from rfl]
        rw [← ha]
        exact h
      · rw [show insertA ((a, b) :: rest) k v = (a, b) :: insertA rest k v from by
          simp [insertA, ha]]
        simp only [List.map_cons]
        refine List.nodup_cons.mpr ⟨?_, insertA_keys_nodup rest k v hrest⟩
        intro hm
        rcases mem_keys_insertA hm with hk | hr
        · exact ha hk
        · exact hna hr

theorem eraseA_keys_nodup {α β : Type} [DecidableEq α] :
    ∀ (l : List (α × β)) (k : α), (l.map Prod.fst).Nodup →
      ((eraseA l k).map Prod.fst).Nodup
  | [], _, _ => by simp [eraseA]
  | (a, b) :: rest, k, h => by
      obtain ⟨hna, hrest⟩ := List.nodup_cons.mp h
      by_cases ha : a = k
      · rw [show eraseA ((a, b) :: rest) k = rest from by simp [eraseA, ha]]
        exact hrest
      · rw [show eraseA ((a, b) :: rest) k = (a, b) :: eraseA rest k from by simp [eraseA, ha]]
        simp only [List.map_cons]
        exact List.nodup_cons.mpr
          ⟨fun hm => hna (mem_keys_eraseA hm), eraseA_keys_nodup rest k hrest⟩

theorem insertA_of_not_mem {α β : Type} [DecidableEq α] :
    ∀ (l : List (α × β)) (k : α) (v : β), k ∉ l.map Prod.fst →
      insertA l k v = l ++ [(k, v)]
  | [], _, _, _ => rfl
  | (a, b) :: rest, k, v, h => by
      have ha : a ≠ k := fun he => h (by simp [he])
      have hr : k ∉ rest.map Prod.fst := fun hm => h (by simp [hm])
      simp [insertA, ha, insertA_of_not_mem rest k v hr]

theorem lookupA_none_not_mem {α β : Type} [DecidableEq α]
    {l : List (α × β)} {k : α} {v : β} (h : lookupA l k = none) : (k, v) ∉ l := by
  intro hm
  have hs := lookupA_isSome_of_mem hm
  rw [h] at hs
  simp at hs

/-!
Sorting lemmas for sortNat.
-/

theorem insertSorted_perm (a : Nat) :
    ∀ l : List Nat, List.Perm (insertSorted a l) (a :: l)
  | [] => List.Perm.refl _
  | b :: rest => by
      by_cases h : a ≤ b
      · rw [show insertSorted a (b :: rest) = a :: b :: rest from by simp [insertSorted, h]]
      · rw [show insertSorted a (b :: rest) = b :: insertSorted a rest from by
          simp [insertSorted, h]]
        exact List.Perm.trans ((insertSorted_perm a rest).cons b) (List.Perm.swap a b rest)

theorem sortNat_perm : ∀ l : List Nat, List.Perm (sortNat l) l
  | [] => List.Perm.refl _
  | x :: rest =>
      List.Perm.trans (insertSorted_perm x (sortNat rest)) ((sortNat_perm rest).cons x)

theorem mem_sortNat {a : Nat} {l : List Nat} : a ∈ sortNat l ↔ a ∈ l :=
  (sortNat_perm l).mem_iff

theorem insertSorted_sorted (a : Nat) :
    ∀ {l : List Nat}, List.Sorted (· ≤ ·) l → List.Sorted (· ≤ ·) (insertSorted a l)
  | [], _ => by simp [insertSorted]
  | b :: rest, h => by
      obtain ⟨hb, hrest⟩ := List.sorted_cons.mp h
      by_cases hab : a ≤ b
      · rw [show insertSorted a (b :: rest) = a :: b :: rest from by simp [insertSorted, hab]]
        refine List.sorted_cons.mpr ⟨?_, h⟩
        intro x hx
        rcases List.mem_cons.mp hx with he | hm
        · exact he ▸ hab
        · exact le_trans hab (hb x hm)
      · rw [show insertSorted a (b :: rest) = b :: insertSorted a rest from by
          simp [insertSorted, hab]]
        refine List.sorted_cons.mpr ⟨?_, insertSorted_sorted a hrest⟩
        intro x hx
        rcases List.mem_cons.mp ((insertSorted_perm a rest).mem_iff.mp hx) with he | hm
        · exact he ▸ le_of_not_le hab
        · exact hb x hm

theorem sortNat_sorted : ∀ l : List Nat, List.Sorted (· ≤ ·) (sortNat l)
  | [] => by simp [sortNat]
  | x :: rest => insertSorted_sorted x (sortNat_sorted rest)

theorem sorted_le_getLast :
    ∀ (l : List Nat) (h : l ≠ []), List.Sorted (· ≤ ·) l →
      ∀ x ∈ l, x ≤ l.getLast h
  | [], h, _, _, _ => absurd rfl h
  | [b], _, _, x, hx => by
      have he : x = b := by simpa using hx
      simp [he]
  | a :: b :: rest, _, hs, x, hx => by
      obtain ⟨ha, hrest⟩ := List.sorted_cons.mp hs
      rw [List.getLast_cons (List.cons_ne_nil b rest)]
      rcases List.mem_cons.mp hx with he | hm
      · exact he ▸ le_trans (ha b (List.mem_cons_self b rest))
          (sorted_le_getLast (b :: rest) (List.cons_ne_nil b rest) hrest b
            (List.mem_cons_self b rest))
      · exact sorted_le_getLast (b :: rest) (List.cons_ne_nil b rest) hrest x hm


/-!
Record-stream lemmas.
-/

theorem readOne_lt {content : List Item} {pos : Nat} {c : Command}
    (h : readOne content pos = Except.ok c) : pos < content.length := by
  unfold readOne at h
  cases hg : content[pos]? with
  | none => rw [hg] at h; simp at h
  | some it =>
      have := List.getElem?_eq_some.mp hg
      exact this.1

theorem readOne_append_lt (content : List Item) (x : Item) {pos : Nat}
    (h : pos < content.length) : readOne (content ++ [x]) pos = readOne content pos := by
  unfold readOne
  rw [List.getElem?_append_left h]

theorem readOne_append_self (content : List Item) (c : Command) :
    readOne (content ++ [Item.whole c]) content.length = Except.ok c := by
  unfold readOne
  rw [List.getElem?_concat_length]

/-!
Structural lemmas for the primitive state transformers.
-/

theorem appendItem_files_self (s : St) (i : Nat) (it : Item) :
    (appendItem s i it).files i = s.files i ++ [it] := by
  simp [appendItem]

theorem appendItem_files_ne (s : St) (i : Nat) (it : Item) {j : Nat} (h : j ≠ i) :
    (appendItem s i it).files j = s.files j := by
  simp [appendItem, h]

theorem setCore_names (s : St) (k v : Str) : (setCore s k v).names = s.names := rfl

theorem setCore_readers (s : St) (k v : Str) : (setCore s k v).readers = s.readers := rfl

theorem setCore_current (s : St) (k v : Str) :
    (setCore s k v).current_generation = s.current_generation := rfl

theorem setCore_writer (s : St) (k v : Str) : (setCore s k v).writer = s.writer := rfl

theorem setCore_nextInode (s : St) (k v : Str) : (setCore s k v).nextInode = s.nextInode := rfl

theorem setCore_map (s : St) (k v : Str) :
    (setCore s k v).map
      = (mapSet s.map k s.current_generation (s.files s.writer).length
          (k.length + v.length)).2 := rfl

theorem setCore_files_writer (s : St) (k v : Str) :
    (setCore s k v).files s.writer = s.files s.writer ++ [Item.whole (Command.set k v)] :=
  appendItem_files_self s s.writer _

theorem setCore_files_ne (s : St) (k v : Str) {j : Nat} (h : j ≠ s.writer) :
    (setCore s k v).files j = s.files j :=
  appendItem_files_ne s s.writer _ h

/-!
Index-map operation lemmas.
-/

theorem mapSet_snd_cases (m : InternalMap) (key : Str) (g p e : Nat) :
    (mapSet m key g p e).2 = insertA m key ⟨g, p, e⟩ ∨
      ((mapSet m key g p e).2 = m ∧ ∃ old, lookupA m key = some old ∧ g < old.generation) := by
  unfold mapSet
  cases hl : lookupA m key with
  | none => exact Or.inl rfl
  | some old =>
      by_cases hg : old.generation > g
      · exact Or.inr ⟨by simp [hg], old, rfl, hg⟩
      · simp only [hg]
        exact Or.inl (by simp)

theorem lookupA_mapSet_self {m : InternalMap} {key : Str} {g p e : Nat}
    (hg : ∀ old, lookupA m key = some old → old.generation ≤ g) :
    lookupA (mapSet m key g p e).2 key = some ⟨g, p, e⟩ := by
  unfold mapSet
  cases hl : lookupA m key with
  | none => exact lookupA_insertA_self m key _
  | some old =>
      have : ¬ old.generation > g := Nat.not_lt.mpr (hg old hl)
      simp only [this, if_neg, ite_false]
      exact lookupA_insertA_self m key _

theorem lookupA_mapSet_ne (m : InternalMap) (key : Str) (g p e : Nat) {q : Str}
    (h : key ≠ q) : lookupA (mapSet m key g p e).2 q = lookupA m q := by
  rcases mapSet_snd_cases m key g p e with hc | ⟨hc, _⟩
  · rw [hc]; exact lookupA_insertA_ne m key q _ h
  · rw [hc]

theorem mapSet_entry_cases {m : InternalMap} {key : Str} {g p e : Nat} {q : Str}
    {e2 : LogEntry} (h : lookupA (mapSet m key g p e).2 q = some e2) :
    (q = key ∧ e2 = ⟨g, p, e⟩) ∨ lookupA m q = some e2 := by
  by_cases hq : key = q
  · subst hq
    rcases mapSet_snd_cases m key g p e with hc | ⟨hc, _⟩
    · rw [hc, lookupA_insertA_self] at h
      exact Or.inl ⟨rfl, by simpa using h.symm⟩
    · rw [hc] at h
      exact Or.inr h
  · rw [lookupA_mapSet_ne m key g p e hq] at h
    exact Or.inr h

theorem mapSet_nodup (m : InternalMap) (key : Str) (g p e : Nat)
    (h : (m.map Prod.fst).Nodup) : ((mapSet m key g p e).2.map Prod.fst).Nodup := by
  rcases mapSet_snd_cases m key g p e with hc | ⟨hc, _⟩
  · rw [hc]; exact insertA_keys_nodup m key _ h
  · rw [hc]; exact h

theorem mapRemove_ok {m : InternalMap} {key : Str} {r : Nat × InternalMap}
    (h : mapRemove m key = Except.ok r) :
    r.2 = eraseA m key ∧ ∃ old, lookupA m key = some old ∧ r.1 = old.estimated_bytes := by
  unfold mapRemove at h
  cases hl : lookupA m key with
  | none => rw [hl] at h; simp at h
  | some old =>
      rw [hl] at h
      have he : r = (old.estimated_bytes, eraseA m key) := by simpa using h.symm
      exact ⟨by rw [he], old, rfl, by rw [he]⟩

theorem mapRemove_error {m : InternalMap} {key : Str} {e : Err}
    (h : mapRemove m key = Except.error e) : lookupA m key = none := by
  unfold mapRemove at h
  cases hl : lookupA m key with
  | none => rfl
  | some old => rw [hl] at h; simp at h

theorem mapRemove_ok_of_lookup {m : InternalMap} {key : Str} {old : LogEntry}
    (h : lookupA m key = some old) :
    mapRemove m key = Except.ok (old.estimated_bytes, eraseA m key) := by
  unfold mapRemove
  rw [h]

theorem mapRemove_error_of_lookup {m : InternalMap} {key : Str}
    (h : lookupA m key = none) : mapRemove m key = Except.error Err.keyNotFound := by
  unfold mapRemove
  rw [h]

/-!
Behavior of get and of the core mutators under the invariant.
-/

theorem getOp_none {s : St} {k : Str} (h : lookupA s.map k = none) :
    getOp s k = Except.ok none := by
  unfold getOp
  rw [h]

theorem getOp_entry {s : St} (hInv : Inv s) {k : Str} {e : LogEntry}
    (he : lookupA s.map k = some e) :
    ∃ i v, lookupA s.readers e.generation = some i ∧
      readOne (s.files i) e.file_pos = Except.ok (Command.set k v) ∧
      getOp s k = Except.ok (some v) := by
  obtain ⟨i, v, hi, hr⟩ := hInv.read_ok k e he
  refine ⟨i, v, hi, hr, ?_⟩
  simp only [getOp, he, hi, hr]

theorem getOp_isOk {s : St} (hInv : Inv s) (k : Str) :
    getOp s k = Except.ok (getFun s k) := by
  cases he : lookupA s.map k with
  | none =>
      have h1 := getOp_none (s := s) he
      rw [h1]
      unfold getFun
      rw [h1]
  | some e =>
      obtain ⟨i, v, _, _, h1⟩ := getOp_entry hInv he
      rw [h1]
      unfold getFun
      rw [h1]

theorem getOp_congr {s t : St} (k : Str)
    (hm : lookupA t.map k = lookupA s.map k)
    (hre : ∀ e, lookupA s.map k = some e →
      lookupA t.readers e.generation = lookupA s.readers e.generation)
    (hf : ∀ e i, lookupA s.map k = some e → lookupA s.readers e.generation = some i →
      readOne (t.files i) e.file_pos = readOne (s.files i) e.file_pos) :
    getOp t k = getOp s k := by
  cases he : lookupA s.map k with
  | none =>
      have hm2 : lookupA t.map k = none := by rw [hm, he]
      simp only [getOp, he, hm2]
  | some e =>
      have hm2 : lookupA t.map k = some e := by rw [hm, he]
      cases hi : lookupA s.readers e.generation with
      | none =>
          have hr2 : lookupA t.readers e.generation = none := by rw [hre e he, hi]
          simp only [getOp, he, hm2, hi, hr2]
      | some i =>
          have hr2 : lookupA t.readers e.generation = some i := by rw [hre e he, hi]
          simp only [getOp, he, hm2, hi, hr2, hf e i he hi]

theorem setCore_files (s : St) (k v : Str) (j : Nat) :
    (setCore s k v).files j
      = if j = s.writer then s.files j ++ [Item.whole (Command.set k v)] else s.files j := rfl

theorem setCore_inv {s : St} (hInv : Inv s) (k v : Str) : Inv (setCore s k v) := by
  constructor
  case read_ok =>
    intro k2 e2 he2
    rw [setCore_map] at he2
    rcases mapSet_entry_cases he2 with ⟨hq, hev⟩ | hold
    · subst hq
      subst hev
      refine ⟨s.writer, v, ?_, ?_⟩
      · exact hInv.writer_reader
      · rw [setCore_files, if_pos rfl]
        exact readOne_append_self _ _
    · obtain ⟨i, v2, hi, hr⟩ := hInv.read_ok k2 e2 hold
      refine ⟨i, v2, hi, ?_⟩
      rw [setCore_files]
      by_cases hiw : i = s.writer
      · rw [if_pos hiw]
        rw [readOne_append_lt _ _ (readOne_lt hr)]
        exact hr
      · rw [if_neg hiw]
        exact hr
  case writer_reader => exact hInv.writer_reader
  case current_log => exact hInv.current_log
  case log_le => exact hInv.log_le
  case gens_le =>
    intro k2 e2 he2
    rw [setCore_map] at he2
    rcases mapSet_entry_cases he2 with ⟨_, hev⟩ | hold
    · subst hev
      exact le_refl _
    · exact hInv.gens_le k2 e2 hold
  case no_tmp => exact hInv.no_tmp
  case log_reader => exact hInv.log_reader
  case no_bad =>
    intro g i hgi hbad
    rw [setCore_files] at hbad
    by_cases hiw : i = s.writer
    · rw [if_pos hiw] at hbad
      rcases List.mem_append.mp hbad with hb | hb
      · exact hInv.no_bad g i hgi hb
      · simp at hb
    · rw [if_neg hiw] at hbad
      exact hInv.no_bad g i hgi hbad
  case log_inj => exact hInv.log_inj
  case names_nodup => exact hInv.names_nodup
  case readers_nodup => exact hInv.readers_nodup
  case map_nodup =>
    rw [setCore_map]
    exact mapSet_nodup _ _ _ _ _ hInv.map_nodup
  case names_lt => exact hInv.names_lt
  case readers_lt => exact hInv.readers_lt
  case writer_lt => exact hInv.writer_lt
  case files_hi =>
    intro j hj
    have hjw : j ≠ s.writer := fun he => absurd (he ▸ hj) (Nat.not_le.mpr hInv.writer_lt)
    rw [setCore_files, if_neg hjw]
    exact hInv.files_hi j hj

theorem setCore_agrees {s : St} (hInv : Inv s) {A : Str → Option Str} (hA : Agrees s A)
    (k v : Str) : Agrees (setCore s k v) (absStep A (Op.set k v)) := by
  intro q
  by_cases hq : k = q
  · subst hq
    have hself : lookupA (setCore s k v).map k
        = some ⟨s.current_generation, (s.files s.writer).length, k.length + v.length⟩ := by
      rw [setCore_map]
      exact lookupA_mapSet_self (fun old hold => hInv.gens_le k old hold)
    have hrd : readOne ((setCore s k v).files s.writer) (s.files s.writer).length
        = Except.ok (Command.set k v) := by
      rw [setCore_files, if_pos rfl]
      exact readOne_append_self _ _
    have hw : lookupA (setCore s k v).readers s.current_generation = some s.writer :=
      hInv.writer_reader
    simp [getOp, hself, hw, hrd, absStep]
  · have hg : getOp (setCore s k v) q = getOp s q := by
      apply getOp_congr
      · rw [setCore_map]
        exact lookupA_mapSet_ne _ _ _ _ _ hq
      · intro e _
        rfl
      · intro e i he hi
        obtain ⟨i2, v2, hi2, hr2⟩ := hInv.read_ok q e he
        rw [hi] at hi2
        have hii : i2 = i := by simpa using hi2.symm
        subst hii
        rw [setCore_files]
        by_cases hiw : i2 = s.writer
        · rw [if_pos hiw]
          exact readOne_append_lt _ _ (readOne_lt hr2)
        · rw [if_neg hiw]
    rw [hg, hA q]
    simp [absStep, hq]

theorem lookupA_eraseA_sub {α β : Type} [DecidableEq α] {l : List (α × β)} {k q : α} {v : β}
    (hnodup : (l.map Prod.fst).Nodup) (h : lookupA (eraseA l k) q = some v) :
    lookupA l q = some v := by
  by_cases hq : k = q
  · subst hq
    rw [lookupA_eraseA_self l k hnodup] at h
    exact absurd h (by simp)
  · rw [lookupA_eraseA_ne l k q hq] at h
    exact h

theorem removeCore_err_eq (s : St) (k : Str) (h : lookupA s.map k = none) :
    removeCore s k = (Except.error Err.keyNotFound,
      appendItem s s.writer (Item.whole (Command.remove k))) := by
  have h2 : mapRemove (appendItem s s.writer (Item.whole (Command.remove k))).map k
      = Except.error Err.keyNotFound := mapRemove_error_of_lookup h
  simp only [removeCore, h2]

theorem removeCore_ok_eq (s : St) (k : Str) (old : LogEntry)
    (h : lookupA s.map k = some old) :
    removeCore s k = (Except.ok (),
      { appendItem s s.writer (Item.whole (Command.remove k)) with
          map := eraseA s.map k,
          wasted_bytes := s.wasted_bytes + old.estimated_bytes }) := by
  have h2 : mapRemove (appendItem s s.writer (Item.whole (Command.remove k))).map k
      = Except.ok (old.estimated_bytes, eraseA s.map k) := mapRemove_ok_of_lookup h
  simp only [removeCore, h2]
  rfl

theorem remove_shape_files (s : St) (it : Item) (M : InternalMap) (W : Nat) (j : Nat) :
    ({ appendItem s s.writer it with map := M, wasted_bytes := W } : St).files j
      = if j = s.writer then s.files j ++ [it] else s.files j := rfl

theorem remove_shape_inv {s : St} (hInv : Inv s) (k : Str) {M : InternalMap} {W : Nat}
    (hM : ∀ q e, lookupA M q = some e → lookupA s.map q = some e)
    (hnodup : (M.map Prod.fst).Nodup) :
    Inv { appendItem s s.writer (Item.whole (Command.remove k)) with
            map := M, wasted_bytes := W } := by
  constructor
  case read_ok =>
    intro k2 e2 he2
    obtain ⟨i, v2, hi, hr⟩ := hInv.read_ok k2 e2 (hM k2 e2 he2)
    refine ⟨i, v2, hi, ?_⟩
    rw [remove_shape_files]
    by_cases hiw : i = s.writer
    · rw [if_pos hiw]
      rw [readOne_append_lt _ _ (readOne_lt hr)]
      exact hr
    · rw [if_neg hiw]
      exact hr
  case writer_reader => exact hInv.writer_reader
  case current_log => exact hInv.current_log
  case log_le => exact hInv.log_le
  case gens_le =>
    intro k2 e2 he2
    exact hInv.gens_le k2 e2 (hM k2 e2 he2)
  case no_tmp => exact hInv.no_tmp
  case log_reader => exact hInv.log_reader
  case no_bad =>
    intro g i hgi hbad
    rw [remove_shape_files] at hbad
    by_cases hiw : i = s.writer
    · rw [if_pos hiw] at hbad
      rcases List.mem_append.mp hbad with hb | hb
      · exact hInv.no_bad g i hgi hb
      · simp at hb
    · rw [if_neg hiw] at hbad
      exact hInv.no_bad g i hgi hbad
  case log_inj => exact hInv.log_inj
  case names_nodup => exact hInv.names_nodup
  case readers_nodup => exact hInv.readers_nodup
  case map_nodup => exact hnodup
  case names_lt => exact hInv.names_lt
  case readers_lt => exact hInv.readers_lt
  case writer_lt => exact hInv.writer_lt
  case files_hi =>
    intro j hj
    have hjw : j ≠ s.writer := fun he => absurd (he ▸ hj) (Nat.not_le.mpr hInv.writer_lt)
    rw [remove_shape_files, if_neg hjw]
    exact hInv.files_hi j hj

theorem removeCore_inv {s : St} (hInv : Inv s) (k : Str) : Inv (removeCore s k).2 := by
  cases hl : lookupA s.map k with
  | none =>
      rw [removeCore_err_eq s k hl]
      have : (appendItem s s.writer (Item.whole (Command.remove k)))
          = { appendItem s s.writer (Item.whole (Command.remove k)) with
                map := s.map, wasted_bytes := s.wasted_bytes } := rfl
      rw [this]
      exact remove_shape_inv hInv k (fun q e he => he) hInv.map_nodup
  | some old =>
      rw [removeCore_ok_eq s k old hl]
      exact remove_shape_inv hInv k
        (fun q e he => lookupA_eraseA_sub hInv.map_nodup he)
        (eraseA_keys_nodup s.map k hInv.map_nodup)

theorem remove_shape_agrees {s : St} (hInv : Inv s) {A : Str → Option Str}
    (hA : Agrees s A) (k : Str) {M : InternalMap} {W : Nat}
    (hMk : lookupA M k = none)
    (hMq : ∀ q, k ≠ q → lookupA M q = lookupA s.map q) :
    Agrees { appendItem s s.writer (Item.whole (Command.remove k)) with
              map := M, wasted_bytes := W } (absStep A (Op.del k)) := by
  intro q
  by_cases hq : k = q
  · subst hq
    have h1 : getOp { appendItem s s.writer (Item.whole (Command.remove k)) with
        map := M, wasted_bytes := W } k = Except.ok none := getOp_none hMk
    rw [h1]
    simp [absStep]
  · have hg : getOp { appendItem s s.writer (Item.whole (Command.remove k)) with
        map := M, wasted_bytes := W } q = getOp s q := by
      apply getOp_congr
      · exact hMq q hq
      · intro e _
        rfl
      · intro e i he hi
        obtain ⟨i2, v2, hi2, hr2⟩ := hInv.read_ok q e he
        rw [hi] at hi2
        have hii : i2 = i := by simpa using hi2.symm
        subst hii
        rw [remove_shape_files]
        by_cases hiw : i2 = s.writer
        · rw [if_pos hiw]
          exact readOne_append_lt _ _ (readOne_lt hr2)
        · rw [if_neg hiw]
    rw [hg, hA q]
    simp [absStep, hq]

theorem removeCore_agrees {s : St} (hInv : Inv s) {A : Str → Option Str}
    (hA : Agrees s A) (k : Str) :
    Agrees (removeCore s k).2 (absStep A (Op.del k)) := by
  cases hl : lookupA s.map k with
  | none =>
      rw [removeCore_err_eq s k hl]
      have heq : (appendItem s s.writer (Item.whole (Command.remove k)))
          = { appendItem s s.writer (Item.whole (Command.remove k)) with
                map := s.map, wasted_bytes := s.wasted_bytes } := rfl
      rw [heq]
      exact remove_shape_agrees hInv hA k hl (fun q _ => rfl)
  | some old =>
      rw [removeCore_ok_eq s k old hl]
      exact remove_shape_agrees hInv hA k
        (lookupA_eraseA_self s.map k hInv.map_nodup)
        (fun q hq => lookupA_eraseA_ne s.map k q hq)

/-!
Step 2 of compaction: every record preserves the mid-compaction invariant,
never fails, and never changes observable get results.
-/

theorem compactRecord_mid {s : St} (hInv : Inv s) {c iC n iN : Nat}
    (hc : c = s.current_generation + 1) (hn : n = s.current_generation + 2)
    {t : St} (handled : List Str) (cmd : Command) (hMid : Mid s c iC n iN t) :
    (compactRecord c iC ((t, handled) : St × List Str) cmd).1 = Except.ok () ∧
    Mid s c iC n iN (compactRecord c iC ((t, handled) : St × List Str) cmd).2.1 := by
  have hcn : c ≠ n := by rw [hc, hn]; omega
  have hrc : lookupA t.readers c = some iC := by
    rw [hMid.readers_eq]
    rw [lookupA_insertA_ne _ n c iN (fun h => hcn h.symm)]
    exact lookupA_insertA_self _ _ _
  cases cmd with
  | remove key =>
      constructor
      · rfl
      · simpa [compactRecord] using hMid
  | set key value =>
      by_cases hh : key ∈ handled
      · constructor
        · simp [compactRecord, hh]
        · simpa [compactRecord, hh] using hMid
      · have hget : getOp t key = Except.ok (getFun s key) := by
          rw [hMid.get_eq key]
          exact getOp_isOk hInv key
        cases hfun : getFun s key with
        | none =>
            rw [hfun] at hget
            constructor
            · simp [compactRecord, hh, hget]
            · simpa [compactRecord, hh, hget] using hMid
        | some v2 =>
            rw [hfun] at hget
            simp only [compactRecord, if_neg hh, hget]
            refine ⟨by trivial, ?_⟩
            set pos := (t.files iC).length with hpos
            set it := Item.whole (Command.set key v2) with hit
            set est := key.length + v2.length with hest
            have hmapeq : ({ appendItem t iC it with
                map := (mapSet (appendItem t iC it).map key c pos est).2 } : St).map
                = (mapSet t.map key c pos est).2 := rfl
            have hfile : ∀ j, ({ appendItem t iC it with
                map := (mapSet (appendItem t iC it).map key c pos est).2 } : St).files j
                = if j = iC then t.files j ++ [it] else t.files j := fun j => rfl
            refine ⟨hMid.names_eq, hMid.readers_eq, hMid.current_eq, hMid.writer_eq,
              hMid.next_eq, ?_, ?_, ?_, ?_, ?_, ?_⟩
            · intro j hj
              rw [hfile j, if_neg hj]
              exact hMid.files_ne j hj
            · intro k2 e2 he2
              rw [hmapeq] at he2
              rcases mapSet_entry_cases he2 with ⟨hq, hev⟩ | hold
              · subst hq
                subst hev
                refine ⟨iC, v2, hrc, ?_⟩
                rw [hfile iC, if_pos rfl, hit, hpos]
                exact readOne_append_self _ _
              · obtain ⟨i, v3, hi, hr⟩ := hMid.read_ok k2 e2 hold
                refine ⟨i, v3, hi, ?_⟩
                rw [hfile i]
                by_cases hic : i = iC
                · rw [if_pos hic]
                  rw [hic] at hr ⊢
                  rw [readOne_append_lt _ _ (readOne_lt hr)]
                  exact hr
                · rw [if_neg hic]
                  exact hr
            · intro k2 e2 he2
              rw [hmapeq] at he2
              rcases mapSet_entry_cases he2 with ⟨_, hev⟩ | hold
              · subst hev
                exact le_refl _
              · exact hMid.gens_le_c k2 e2 hold
            · rw [hmapeq]
              exact mapSet_nodup _ _ _ _ _ hMid.map_nodup
            · intro hbad
              rw [hfile iC, if_pos rfl] at hbad
              rcases List.mem_append.mp hbad with hb | hb
              · exact hMid.tmp_whole hb
              · rw [hit] at hb
                simp at hb
            · intro q
              by_cases hq : key = q
              · subst hq
                have hself : lookupA (mapSet t.map key c pos est).2 key
                    = some ⟨c, pos, est⟩ :=
                  lookupA_mapSet_self (fun old hold => hMid.gens_le_c key old hold)
                have hread : readOne (({ appendItem t iC it with
                    map := (mapSet (appendItem t iC it).map key c pos est).2 } : St).files iC)
                    pos = Except.ok (Command.set key v2) := by
                  rw [hfile iC, if_pos rfl, hit, hpos]
                  exact readOne_append_self _ _
                have hget2 : getOp s key = Except.ok (some v2) := by
                  rw [getOp_isOk hInv key, hfun]
                rw [hget2]
                have hsome : lookupA ({ appendItem t iC it with
                    map := (mapSet (appendItem t iC it).map key c pos est).2 } : St).map key
                    = some ⟨c, pos, est⟩ := by
                  rw [hmapeq]
                  exact hself
                have hrc2 : lookupA (appendItem t iC it).readers c = some iC := hrc
                have hread2 : readOne ((appendItem t iC it).files iC) pos
                    = Except.ok (Command.set key v2) := hread
                simp only [getOp, hsome, hrc, hread, hrc2, hread2]
              · have hcongr : getOp ({ appendItem t iC it with
                    map := (mapSet (appendItem t iC it).map key c pos est).2 } : St) q
                    = getOp t q := by
                  apply getOp_congr
                  · rw [hmapeq]
                    exact lookupA_mapSet_ne _ _ _ _ _ hq
                  · intro e _
                    rfl
                  · intro e i he hi
                    obtain ⟨i2, v3, hi2, hr2⟩ := hMid.read_ok q e he
                    rw [hi] at hi2
                    have hii : i2 = i := by simpa using hi2.symm
                    subst hii
                    rw [hfile i2]
                    by_cases hic : i2 = iC
                    · rw [if_pos hic]
                      rw [hic] at hr2 ⊢
                      exact readOne_append_lt _ _ (readOne_lt hr2)
                    · rw [if_neg hic]
                rw [hcongr]
                exact hMid.get_eq q

theorem compactFold_mid {s : St} (hInv : Inv s) {c iC n iN : Nat}
    (hc : c = s.current_generation + 1) (hn : n = s.current_generation + 2) :
    ∀ (cmds : List Command) (t : St) (handled : List Str), Mid s c iC n iN t →
      (foldStopE (compactRecord c iC) (t, handled) cmds).1 = Except.ok () ∧
      Mid s c iC n iN (foldStopE (compactRecord c iC) (t, handled) cmds).2.1
  | [], t, handled, hMid => ⟨rfl, hMid⟩
  | cmd :: rest, t, handled, hMid => by
      obtain ⟨hok, hMid2⟩ := compactRecord_mid hInv hc hn handled cmd hMid
      rcases hr : compactRecord c iC ((t, handled) : St × List Str) cmd with ⟨r, acc2⟩
      rw [hr] at hok hMid2
      cases r with
      | error e => simp at hok
      | ok u =>
          rcases acc2 with ⟨t2, handled2⟩
          have hrec := compactFold_mid hInv hc hn rest t2 handled2 hMid2
          simpa [foldStopE, hr] using hrec

theorem compactGens_mid {s : St} (hInv : Inv s) {c iC n iN : Nat}
    (hc : c = s.current_generation + 1) (hn : n = s.current_generation + 2) :
    ∀ (gens : List Nat) (t : St) (handled : List Str), Mid s c iC n iN t →
      (∀ g ∈ gens, g ≤ s.current_generation ∧
        (lookupA s.names (g, Ext.log)).isSome = true) →
      (foldStopE (compactGen c iC) (t, handled) gens).1 = Except.ok () ∧
      Mid s c iC n iN (foldStopE (compactGen c iC) (t, handled) gens).2.1
  | [], t, handled, hMid, _ => ⟨rfl, hMid⟩
  | g :: gs, t, handled, hMid, hgens => by
      obtain ⟨hle, hsome⟩ := hgens g (List.mem_cons_self g gs)
      obtain ⟨i, hi⟩ := Option.isSome_iff_exists.mp hsome
      have hgn : (n, Ext.log) ≠ ((g, Ext.log) : Nat × Ext) := by
        simp only [ne_eq, Prod.mk.injEq, not_and]
        intro hng
        omega
      have hname : lookupA t.names (g, Ext.log) = some i := by
        rw [hMid.names_eq]
        rw [lookupA_insertA_ne _ (n, Ext.log) (g, Ext.log) iN hgn]
        rw [lookupA_insertA_ne _ (c, Ext.tmp) (g, Ext.log) iC (by simp)]
        exact hi
      have hopen : openRead t g Ext.log = Except.ok i := by
        simp [openRead, hname]
      obtain ⟨hok, hMid2⟩ :=
        compactFold_mid hInv hc hn (wholeRecs (t.files i)) t handled hMid
      rcases hf : foldStopE (compactRecord c iC) (t, handled) (wholeRecs (t.files i))
        with ⟨r, acc2⟩
      rw [hf] at hok hMid2
      cases r with
      | error e => simp at hok
      | ok u =>
          rcases acc2 with ⟨t2, handled2⟩
          have hrec := compactGens_mid hInv hc hn gs t2 handled2 hMid2
            (fun g2 hg2 => hgens g2 (List.mem_cons_of_mem g hg2))
          simpa [foldStopE, compactGen, hopen, hf] using hrec

theorem lookupA_insertA_same {α β : Type} [DecidableEq α] {l : List (α × β)} {k : α}
    {v : β} (h : lookupA l k = some v) (q : α) :
    lookupA (insertA l k v) q = lookupA l q := by
  by_cases hq : k = q
  · subst hq
    rw [lookupA_insertA_self, h]
  · exact lookupA_insertA_ne l k q v hq

theorem mem_sortedGens {s : St} {g : Nat} :
    g ∈ sortedGens s ↔ (lookupA s.names (g, Ext.log)).isSome = true := by
  unfold sortedGens
  rw [mem_sortNat]
  constructor
  · intro hm
    rcases List.mem_map.mp hm with ⟨p, hp, hg⟩
    rcases List.mem_filter.mp hp with ⟨hpn, hpe⟩
    rcases p with ⟨⟨g1, e1⟩, i⟩
    have he : e1 = Ext.log := by simpa using hpe
    have hgg : g1 = g := hg
    subst he
    subst hgg
    exact lookupA_isSome_of_mem hpn
  · intro hs
    obtain ⟨i, hi⟩ := Option.isSome_iff_exists.mp hs
    exact List.mem_map.mpr
      ⟨((g, Ext.log), i), List.mem_filter.mpr ⟨lookupA_mem hi, by simp⟩, rfl⟩

theorem sortedGens_bound {s : St} (hInv : Inv s) :
    ∀ g ∈ sortedGens s, g ≤ s.current_generation ∧
      (lookupA s.names (g, Ext.log)).isSome = true := by
  intro g hg
  have hs := mem_sortedGens.mp hg
  obtain ⟨i, hi⟩ := Option.isSome_iff_exists.mp hs
  exact ⟨hInv.log_le g i hi, hs⟩

theorem sortedGens_nodup {s : St} (h : (s.names.map Prod.fst).Nodup) :
    (sortedGens s).Nodup := by
  unfold sortedGens
  rw [(sortNat_perm _).nodup_iff]
  have hsub : ((s.names.filter fun p => p.1.2 == Ext.log).map Prod.fst).Sublist
      (s.names.map Prod.fst) :=
    (List.filter_sublist _).map Prod.fst
  have hkeys : ((s.names.filter fun p => p.1.2 == Ext.log).map Prod.fst).Nodup :=
    h.sublist hsub
  have heq : ((s.names.filter fun p => p.1.2 == Ext.log).map fun p => p.1.1)
      = ((s.names.filter fun p => p.1.2 == Ext.log).map Prod.fst).map Prod.fst := by
    rw [List.map_map]
    rfl
  rw [heq]
  apply hkeys.map_on
  intro x hx y hy hxy
  rcases List.mem_map.mp hx with ⟨px, hpx, hx2⟩
  rcases List.mem_map.mp hy with ⟨py, hpy, hy2⟩
  have hex : x.2 = Ext.log := by
    rcases List.mem_filter.mp hpx with ⟨_, hb⟩
    rw [← hx2]
    simpa using hb
  have hey : y.2 = Ext.log := by
    rcases List.mem_filter.mp hpy with ⟨_, hb⟩
    rw [← hy2]
    simpa using hb
  rcases x with ⟨gx, ex⟩
  rcases y with ⟨gy, ey⟩
  simp at hex hey hxy
  simp [hex, hey, hxy]

theorem removeLogFile_ok {t : St} {g : Nat} {i : Nat}
    (h : lookupA t.names (g, Ext.log) = some i) :
    removeLogFile t g
      = (Except.ok (), { t with names := eraseA t.names (g, Ext.log) }) := by
  simp [removeLogFile, h]

theorem removeFold_spec : ∀ (gens : List Nat) (t : St),
    gens.Nodup →
    (t.names.map Prod.fst).Nodup →
    (∀ g ∈ gens, (lookupA t.names (g, Ext.log)).isSome = true) →
    (foldStopE removeLogFile t gens).1 = Except.ok () ∧
    ((((foldStopE removeLogFile t gens).2.names.map Prod.fst).Nodup ∧
      (∀ g ∈ gens, lookupA (foldStopE removeLogFile t gens).2.names (g, Ext.log) = none) ∧
      (∀ p : Nat × Ext, p.2 = Ext.tmp ∨ p.1 ∉ gens →
        lookupA (foldStopE removeLogFile t gens).2.names p = lookupA t.names p) ∧
      (∀ pr : (Nat × Ext) × Nat, pr ∈ (foldStopE removeLogFile t gens).2.names →
        pr ∈ t.names)) ∧
     ((foldStopE removeLogFile t gens).2.files = t.files ∧
      (foldStopE removeLogFile t gens).2.readers = t.readers ∧
      (foldStopE removeLogFile t gens).2.map = t.map ∧
      (foldStopE removeLogFile t gens).2.current_generation = t.current_generation ∧
      (foldStopE removeLogFile t gens).2.writer = t.writer ∧
      (foldStopE removeLogFile t gens).2.nextInode = t.nextInode ∧
      (foldStopE removeLogFile t gens).2.wasted_bytes = t.wasted_bytes))
  | [], t, _, hnn, _ => by
      refine ⟨rfl, ⟨⟨hnn, ?_, ?_, ?_⟩, rfl, rfl, rfl, rfl, rfl, rfl, rfl⟩⟩
      · intro g hg
        simp at hg
      · intro p _
        rfl
      · intro pr hpr
        exact hpr
  | g :: gs, t, hnd, hnn, hsome => by
      obtain ⟨hg1, hgs⟩ := List.nodup_cons.mp hnd
      obtain ⟨i, hi⟩ := Option.isSome_iff_exists.mp (hsome g (List.mem_cons_self g gs))
      have hrm := removeLogFile_ok hi
      set t2 : St := { t with names := eraseA t.names (g, Ext.log) } with ht2
      have hnn2 : (t2.names.map Prod.fst).Nodup := eraseA_keys_nodup _ _ hnn
      have hsome2 : ∀ g2 ∈ gs, (lookupA t2.names (g2, Ext.log)).isSome = true := by
        intro g2 hg2
        have hne : ((g, Ext.log) : Nat × Ext) ≠ (g2, Ext.log) := by
          simp only [ne_eq, Prod.mk.injEq, not_and]
          intro he
          exact absurd (he ▸ hg2) hg1
        rw [show t2.names = eraseA t.names (g, Ext.log) from rfl]
        rw [lookupA_eraseA_ne _ _ _ hne]
        exact hsome g2 (List.mem_cons_of_mem g hg2)
      obtain ⟨hok, ⟨hnn3, hnone, hpres, hmem⟩, hfields⟩ :=
        removeFold_spec gs t2 hgs hnn2 hsome2
      have hfold : foldStopE removeLogFile t (g :: gs) = foldStopE removeLogFile t2 gs := by
        simp [foldStopE, hrm]
      rw [hfold]
      refine ⟨hok, ⟨⟨hnn3, ?_, ?_, ?_⟩, hfields⟩⟩
      · intro g2 hg2
        rcases List.mem_cons.mp hg2 with he | hm
        · subst he
          rw [hpres (g2, Ext.log) (Or.inr hg1)]
          exact lookupA_eraseA_self t.names (g2, Ext.log) hnn
        · exact hnone g2 hm
      · intro p hp
        have hp2 : p.2 = Ext.tmp ∨ p.1 ∉ gs := by
          rcases hp with ht | hnm
          · exact Or.inl ht
          · exact Or.inr (fun hm => hnm (List.mem_cons_of_mem g hm))
        rw [hpres p hp2]
        have hpg : ((g, Ext.log) : Nat × Ext) ≠ p := by
          rcases hp with ht | hnm
          · intro he
            rw [← he] at ht
            simp at ht
          · intro he
            exact hnm (by rw [← he]; exact List.mem_cons_self g gs)
        exact lookupA_eraseA_ne t.names (g, Ext.log) p hpg
      · intro pr hpr
        exact mem_eraseA (hmem pr hpr)

theorem runCompaction_spec {s : St} (hInv : Inv s) :
    (runCompaction s).1 = Except.ok () ∧
    Inv (runCompaction s).2 ∧
    (∀ k, getOp (runCompaction s).2 k = getOp s k) ∧
    noTmps (runCompaction s).2 ∧
    logsDisjoint (runCompaction s).2 s := by
  have hca1 : createAppend s (s.current_generation + 1) Ext.tmp
      = (s.nextInode,
        { s with files := fun j => if j = s.nextInode then [] else s.files j,
                 names := insertA s.names (s.current_generation + 1, Ext.tmp) s.nextInode,
                 nextInode := s.nextInode + 1 }) := by
    simp [createAppend, hInv.no_tmp]
  set SA : St :=
    { s with files := fun j => if j = s.nextInode then [] else s.files j,
             names := insertA s.names (s.current_generation + 1, Ext.tmp) s.nextInode,
             nextInode := s.nextInode + 1 } with hSA
  have hn_none : lookupA SA.names (s.current_generation + 2, Ext.log) = none := by
    rw [show SA.names
        = insertA s.names (s.current_generation + 1, Ext.tmp) s.nextInode from rfl]
    rw [lookupA_insertA_ne _ _ _ _ (by simp)]
    cases hl : lookupA s.names (s.current_generation + 2, Ext.log) with
    | none => rfl
    | some i => exact absurd (hInv.log_le _ i hl) (by omega)
  have hca2 : createAppend SA (s.current_generation + 2) Ext.log
      = (s.nextInode + 1,
        { SA with files := fun j => if j = s.nextInode + 1 then [] else SA.files j,
                  names := insertA SA.names (s.current_generation + 2, Ext.log)
                    (s.nextInode + 1),
                  nextInode := s.nextInode + 2 }) := by
    simp [createAppend, hn_none]
  set SB : St :=
    { SA with files := fun j => if j = s.nextInode + 1 then [] else SA.files j,
              names := insertA SA.names (s.current_generation + 2, Ext.log)
                (s.nextInode + 1),
              nextInode := s.nextInode + 2 } with hSB
  set S3 : St :=
    { SB with writer := s.nextInode + 1,
              readers := insertA (insertA SB.readers (s.current_generation + 1) s.nextInode)
                (s.current_generation + 2) (s.nextInode + 1),
              current_generation := s.current_generation + 2 } with hS3
  have hfiles3 : ∀ j, j < s.nextInode → S3.files j = s.files j := by
    intro j hj
    rw [show S3.files j = if j = s.nextInode + 1 then []
        else if j = s.nextInode then [] else s.files j from rfl]
    rw [if_neg (by omega), if_neg (by omega)]
  have hreaders3 : ∀ g, g ≤ s.current_generation →
      lookupA S3.readers g = lookupA s.readers g := by
    intro g hg
    rw [show S3.readers
        = insertA (insertA s.readers (s.current_generation + 1) s.nextInode)
            (s.current_generation + 2) (s.nextInode + 1) from rfl]
    rw [lookupA_insertA_ne _ _ _ _ (by omega), lookupA_insertA_ne _ _ _ _ (by omega)]
  have hMid3 : Mid s (s.current_generation + 1) s.nextInode (s.current_generation + 2)
      (s.nextInode + 1) S3 := by
    refine ⟨rfl, rfl, rfl, rfl, rfl, ?_, ?_, ?_, hInv.map_nodup, ?_, ?_⟩
    · intro j hj
      rw [show S3.files j = if j = s.nextInode + 1 then []
          else if j = s.nextInode then [] else s.files j from rfl]
      by_cases h1 : j = s.nextInode + 1
      · rw [if_pos h1, h1, hInv.files_hi (s.nextInode + 1) (by omega)]
      · rw [if_neg h1, if_neg hj]
    · intro k e he
      obtain ⟨i, v, hi, hr⟩ := hInv.read_ok k e he
      have hgen := hInv.gens_le k e he
      have hilt := hInv.readers_lt e.generation i (lookupA_mem hi)
      refine ⟨i, v, ?_, ?_⟩
      · rw [hreaders3 e.generation hgen]
        exact hi
      · rw [hfiles3 i hilt]
        exact hr
    · intro k e he
      exact le_trans (hInv.gens_le k e he) (by omega)
    · rw [show S3.files s.nextInode = if s.nextInode = s.nextInode + 1 then []
          else if s.nextInode = s.nextInode then [] else s.files s.nextInode from rfl]
      rw [if_neg (by omega), if_pos rfl]
      simp
    · intro k
      apply getOp_congr
      · rfl
      · intro e he
        exact hreaders3 e.generation (hInv.gens_le k e he)
      · intro e i he hi
        rw [hfiles3 i (hInv.readers_lt e.generation i (lookupA_mem hi))]
  obtain ⟨hfok, hMid4⟩ := compactGens_mid hInv rfl rfl (sortedGens s) S3 []
    hMid3 (sortedGens_bound hInv)
  rcases hfold : foldStopE (compactGen (s.current_generation + 1) s.nextInode)
      ((S3, []) : St × List Str) (sortedGens s) with ⟨r4, t4, handled4⟩
  rw [hfold] at hfok hMid4
  cases r4 with
  | error e => simp at hfok
  | ok u4 =>
  have htmpname : lookupA t4.names (s.current_generation + 1, Ext.tmp) = some s.nextInode := by
    rw [hMid4.names_eq]
    rw [lookupA_insertA_ne _ _ _ _ (by simp)]
    exact lookupA_insertA_self _ _ _
  have hrun : runCompaction s
      = foldStopE removeLogFile
          { t4 with
            names := insertA (eraseA t4.names (s.current_generation + 1, Ext.tmp))
              (s.current_generation + 1, Ext.log) s.nextInode,
            readers := insertA t4.readers (s.current_generation + 1) s.nextInode,
            wasted_bytes := 0 } (sortedGens s) := by
    simp only [runCompaction, hca1, hca2]
    rw [← hS3]
    rw [hfold]
    simp only [htmpname]
  set S5 : St :=
    { t4 with
      names := insertA (eraseA t4.names (s.current_generation + 1, Ext.tmp))
        (s.current_generation + 1, Ext.log) s.nextInode,
      readers := insertA t4.readers (s.current_generation + 1) s.nextInode,
      wasted_bytes := 0 } with hS5
  have ht4nodup : (t4.names.map Prod.fst).Nodup := by
    rw [hMid4.names_eq]
    exact insertA_keys_nodup _ _ _ (insertA_keys_nodup _ _ _ hInv.names_nodup)
  have hS5names : S5.names
      = insertA (eraseA t4.names (s.current_generation + 1, Ext.tmp))
          (s.current_generation + 1, Ext.log) s.nextInode := rfl
  have hS5nodup : (S5.names.map Prod.fst).Nodup := by
    rw [hS5names]
    exact insertA_keys_nodup _ _ _ (eraseA_keys_nodup _ _ ht4nodup)
  have hgname : ∀ g, g ≤ s.current_generation →
      lookupA S5.names (g, Ext.log) = lookupA s.names (g, Ext.log) := by
    intro g hg
    rw [hS5names]
    rw [lookupA_insertA_ne _ _ _ _ (by simp only [ne_eq, Prod.mk.injEq, not_and]; omega)]
    rw [lookupA_eraseA_ne _ _ _ (by simp)]
    rw [hMid4.names_eq]
    rw [lookupA_insertA_ne _ _ _ _ (by simp only [ne_eq, Prod.mk.injEq, not_and]; omega)]
    rw [lookupA_insertA_ne _ _ _ _ (by simp)]
  have hsome5 : ∀ g ∈ sortedGens s, (lookupA S5.names (g, Ext.log)).isSome = true := by
    intro g hg
    obtain ⟨hle, hs⟩ := sortedGens_bound hInv g hg
    rw [hgname g hle]
    exact hs
  obtain ⟨hok6, ⟨hnn6, hnone6, hpres6, hmem6⟩, hff, hfr, hfm, hfc, hfw, hfn, hfwa⟩ :=
    removeFold_spec (sortedGens s) S5 (sortedGens_nodup hInv.names_nodup) hS5nodup hsome5
  have hcnotin : s.current_generation + 1 ∉ sortedGens s := fun hm =>
    absurd (sortedGens_bound hInv _ hm).1 (by omega)
  have hnnotin : s.current_generation + 2 ∉ sortedGens s := fun hm =>
    absurd (sortedGens_bound hInv _ hm).1 (by omega)
  set S6 : St := (foldStopE removeLogFile S5 (sortedGens s)).2 with hS6
  have ht4rc : lookupA t4.readers (s.current_generation + 1) = some s.nextInode := by
    rw [hMid4.readers_eq]
    rw [lookupA_insertA_ne _ _ _ _ (by omega)]
    exact lookupA_insertA_self _ _ _
  have ht4rn : lookupA t4.readers (s.current_generation + 2) = some (s.nextInode + 1) := by
    rw [hMid4.readers_eq]
    exact lookupA_insertA_self _ _ _
  have hre : ∀ g, lookupA S6.readers g = lookupA t4.readers g := by
    intro g
    rw [hfr]
    exact lookupA_insertA_same ht4rc g
  have hS6c : lookupA S6.names (s.current_generation + 1, Ext.log) = some s.nextInode := by
    rw [hpres6 (s.current_generation + 1, Ext.log) (Or.inr hcnotin), hS5names]
    exact lookupA_insertA_self _ _ _
  have hS6n : lookupA S6.names (s.current_generation + 2, Ext.log)
      = some (s.nextInode + 1) := by
    rw [hpres6 (s.current_generation + 2, Ext.log) (Or.inr hnnotin), hS5names]
    rw [lookupA_insertA_ne _ _ _ _ (by simp only [ne_eq, Prod.mk.injEq, not_and]; omega)]
    rw [lookupA_eraseA_ne _ _ _ (by simp)]
    rw [hMid4.names_eq]
    exact lookupA_insertA_self _ _ _
  have hS6other : ∀ g i, lookupA S6.names (g, Ext.log) = some i →
      (g = s.current_generation + 1 ∧ i = s.nextInode) ∨
      (g = s.current_generation + 2 ∧ i = s.nextInode + 1) := by
    intro g i hgi
    by_cases hgin : g ∈ sortedGens s
    · rw [hnone6 g hgin] at hgi
      exact absurd hgi (by simp)
    · by_cases hgc : g = s.current_generation + 1
      · subst hgc
        rw [hS6c] at hgi
        exact Or.inl ⟨rfl, by simpa using hgi.symm⟩
      · by_cases hgn : g = s.current_generation + 2
        · subst hgn
          rw [hS6n] at hgi
          exact Or.inr ⟨rfl, by simpa using hgi.symm⟩
        · exfalso
          rw [hpres6 (g, Ext.log) (Or.inr hgin), hS5names] at hgi
          rw [lookupA_insertA_ne _ _ _ _
            (by simp only [ne_eq, Prod.mk.injEq, not_and]; omega)] at hgi
          rw [lookupA_eraseA_ne _ _ _ (by simp)] at hgi
          rw [hMid4.names_eq] at hgi
          rw [lookupA_insertA_ne _ _ _ _
            (by simp only [ne_eq, Prod.mk.injEq, not_and]; omega)] at hgi
          rw [lookupA_insertA_ne _ _ _ _ (by simp)] at hgi
          exact hgin (mem_sortedGens.mpr (by rw [hgi]; rfl))
  have hS6tmp : ∀ g, lookupA S6.names (g, Ext.tmp) = none := by
    intro g
    rw [hpres6 (g, Ext.tmp) (Or.inl rfl), hS5names]
    rw [lookupA_insertA_ne _ _ _ _ (by simp)]
    by_cases hgc : g = s.current_generation + 1
    · subst hgc
      exact lookupA_eraseA_self _ _ ht4nodup
    · rw [lookupA_eraseA_ne _ _ _ (by simp only [ne_eq, Prod.mk.injEq, not_and]; omega)]
      rw [hMid4.names_eq]
      rw [lookupA_insertA_ne _ _ _ _ (by simp)]
      rw [lookupA_insertA_ne _ _ _ _
        (by simp only [ne_eq, Prod.mk.injEq, not_and]; intro h; exact absurd h.symm hgc)]
      exact hInv.no_tmp g
  have hgeteq : ∀ k, getOp S6 k = getOp s k := by
    intro k
    have h1 : getOp S6 k = getOp t4 k := by
      apply getOp_congr
      · rw [hfm]
      · intro e _
        exact hre e.generation
      · intro e i _ _
        rw [hff]
    rw [h1]
    exact hMid4.get_eq k
  rw [hrun]
  refine ⟨hok6, ?_, hgeteq, hS6tmp, ?_⟩
  · constructor
    case read_ok =>
      intro k e he
      rw [hfm] at he
      obtain ⟨i, v, hi, hr⟩ := hMid4.read_ok k e he
      refine ⟨i, v, ?_, ?_⟩
      · rw [hre]
        exact hi
      · rw [hff]
        exact hr
    case writer_reader =>
      rw [hfc, hfw, hMid4.current_eq, hMid4.writer_eq, hre]
      exact ht4rn
    case current_log =>
      rw [hfc, hfw, hMid4.current_eq, hMid4.writer_eq]
      exact hS6n
    case log_le =>
      intro g i hgi
      rw [hfc, hMid4.current_eq]
      rcases hS6other g i hgi with ⟨hg, _⟩ | ⟨hg, _⟩ <;> omega
    case gens_le =>
      intro k e he
      rw [hfm] at he
      rw [hfc, hMid4.current_eq]
      exact le_trans (hMid4.gens_le_c k e he) (by omega)
    case no_tmp => exact hS6tmp
    case log_reader =>
      intro g i hgi
      rw [hre]
      rcases hS6other g i hgi with ⟨hg, hii⟩ | ⟨hg, hii⟩
      · subst hg
        subst hii
        exact ht4rc
      · subst hg
        subst hii
        exact ht4rn
    case no_bad =>
      intro g i hgi hbad
      rw [hff] at hbad
      rcases hS6other g i hgi with ⟨hg, hii⟩ | ⟨hg, hii⟩
      · subst hii
        exact hMid4.tmp_whole hbad
      · subst hii
        rw [hMid4.files_ne (s.nextInode + 1) (by omega)] at hbad
        rw [hInv.files_hi (s.nextInode + 1) (by omega)] at hbad
        simp at hbad
    case log_inj =>
      intro g g2 i h1 h2
      rcases hS6other g i h1 with ⟨hg, hii⟩ | ⟨hg, hii⟩ <;>
        rcases hS6other g2 i h2 with ⟨hg2, hii2⟩ | ⟨hg2, hii2⟩ <;> omega
    case names_nodup => exact hnn6
    case readers_nodup =>
      rw [hfr]
      apply insertA_keys_nodup
      rw [hMid4.readers_eq]
      exact insertA_keys_nodup _ _ _ (insertA_keys_nodup _ _ _ hInv.readers_nodup)
    case map_nodup =>
      rw [hfm]
      exact hMid4.map_nodup
    case names_lt =>
      intro p i hpi
      rw [hfn, hMid4.next_eq]
      have hp5 := hmem6 (p, i) hpi
      rw [hS5names] at hp5
      rcases mem_insertA hp5 with ⟨_, hii⟩ | hp4
      · omega
      · have hp4b := mem_eraseA hp4
        rw [hMid4.names_eq] at hp4b
        rcases mem_insertA hp4b with ⟨_, hii⟩ | hp3
        · omega
        · rcases mem_insertA hp3 with ⟨_, hii⟩ | hps
          · omega
          · have := hInv.names_lt p i hps
            omega
    case readers_lt =>
      intro g i hgi
      rw [hfn, hMid4.next_eq]
      rw [hfr] at hgi
      rcases mem_insertA hgi with ⟨_, hii⟩ | hg4
      · omega
      · rw [hMid4.readers_eq] at hg4
        rcases mem_insertA hg4 with ⟨_, hii⟩ | hg3
        · omega
        · rcases mem_insertA hg3 with ⟨_, hii⟩ | hgs
          · omega
          · have := hInv.readers_lt g i hgs
            omega
    case writer_lt =>
      rw [hfw, hfn, hMid4.writer_eq, hMid4.next_eq]
      omega
    case files_hi =>
      intro j hj
      rw [hff, hfn] at *
      rw [hMid4.next_eq] at hj
      rw [hMid4.files_ne j (by omega)]
      exact hInv.files_hi j (by omega)
  · intro g hg
    obtain ⟨i, hi⟩ := Option.isSome_iff_exists.mp hg
    rcases hS6other g i hi with ⟨hgc, _⟩ | ⟨hgc, _⟩ <;>
    · subst hgc
      cases hl : lookupA s.names (_, Ext.log) with
      | none => rfl
      | some i2 => exact absurd (hInv.log_le _ i2 hl) (by omega)

theorem maybeRunCompaction_spec {s : St} (hInv : Inv s) :
    (maybeRunCompaction s).1 = Except.ok () ∧
    Inv (maybeRunCompaction s).2 ∧
    (∀ k, getOp (maybeRunCompaction s).2 k = getOp s k) := by
  unfold maybeRunCompaction
  by_cases h : s.wasted_bytes < COMPACTION_BYTES_THRESHOLD
  · rw [if_pos h]
    exact ⟨rfl, hInv, fun k => rfl⟩
  · rw [if_neg h]
    obtain ⟨h1, h2, h3, _, _⟩ := runCompaction_spec hInv
    exact ⟨h1, h2, h3⟩

theorem removeOp_state (s : St) (k : Str) :
    (removeOp s k).2 = (removeCore s k).2 ∨
    (removeOp s k).2 = (maybeRunCompaction (removeCore s k).2).2 := by
  unfold removeOp
  rcases hr : removeCore s k with ⟨r, s1⟩
  cases r with
  | error e => exact Or.inl rfl
  | ok u => exact Or.inr rfl

theorem applyOp_inv {s : St} (hInv : Inv s) (op : Op) : Inv (applyOp s op) := by
  cases op with
  | set k v =>
      exact (maybeRunCompaction_spec (setCore_inv hInv k v)).2.1
  | del k =>
      show Inv (removeOp s k).2
      rcases removeOp_state s k with he | he <;> rw [he]
      · exact removeCore_inv hInv k
      · exact (maybeRunCompaction_spec (removeCore_inv hInv k)).2.1

theorem applyOp_agrees {s : St} (hInv : Inv s) {A : Str → Option Str}
    (hA : Agrees s A) (op : Op) : Agrees (applyOp s op) (absStep A op) := by
  cases op with
  | set k v =>
      intro q
      show getOp (maybeRunCompaction (setCore s k v)).2 q = _
      rw [(maybeRunCompaction_spec (setCore_inv hInv k v)).2.2 q]
      exact setCore_agrees hInv hA k v q
  | del k =>
      intro q
      show getOp (removeOp s k).2 q = _
      rcases removeOp_state s k with he | he <;> rw [he]
      · exact removeCore_agrees hInv hA k q
      · rw [(maybeRunCompaction_spec (removeCore_inv hInv k)).2.2 q]
        exact removeCore_agrees hInv hA k q

theorem lookupA_single {α β : Type} [DecidableEq α] {a : α} {b : β} {k : α} {v : β}
    (h : lookupA [(a, b)] k = some v) : k = a ∧ v = b := by
  by_cases ha : a = k
  · rw [show lookupA [(a, b)] k = some b from by simp [lookupA, ha]] at h
    exact ⟨ha.symm, by simpa using h.symm⟩
  · rw [show lookupA [(a, b)] k = none from by simp [lookupA, ha]] at h
    exact absurd h (by simp)

theorem freshSt_eq : freshSt =
    { files := fun j => if j = 0 then [] else [], nextInode := 1,
      names := [((1, Ext.log), 0)], map := [], current_generation := 1,
      writer := 0, readers := [(1, 0)], wasted_bytes := 0 } := rfl

theorem inv_freshSt : Inv freshSt := by
  rw [freshSt_eq]
  constructor
  case read_ok =>
    intro k e he
    simp [lookupA] at he
  case writer_reader => rfl
  case current_log => rfl
  case log_le =>
    intro g i h
    have := lookupA_single h
    have hg : g = 1 := by
      have := congrArg Prod.fst this.1
      simpa using this
    show g ≤ 1
    omega
  case gens_le =>
    intro k e he
    simp [lookupA] at he
  case no_tmp =>
    intro g
    apply keys_not_mem_lookupA
    intro hm
    simp at hm
  case log_reader =>
    intro g i h
    obtain ⟨h1, h2⟩ := lookupA_single h
    have hg : g = 1 := by
      have := congrArg Prod.fst h1
      simpa using this
    subst hg
    subst h2
    rfl
  case no_bad =>
    intro g i h hbad
    obtain ⟨h1, h2⟩ := lookupA_single h
    subst h2
    simp at hbad
  case log_inj =>
    intro g g2 i h1 h2
    obtain ⟨ha, _⟩ := lookupA_single h1
    obtain ⟨hb, _⟩ := lookupA_single h2
    have hg : g = 1 := by simpa using congrArg Prod.fst ha
    have hg2 : g2 = 1 := by simpa using congrArg Prod.fst hb
    omega
  case names_nodup => simp
  case readers_nodup => simp
  case map_nodup => simp
  case names_lt =>
    intro p i h
    simp at h
    show i < 1
    omega
  case readers_lt =>
    intro g i h
    simp at h
    show i < 1
    omega
  case writer_lt =>
    show (0 : Nat) < 1
    omega
  case files_hi =>
    intro j hj
    show (if j = 0 then ([] : List Item) else []) = []
    split <;> rfl

theorem agrees_freshSt : Agrees freshSt (fun _ => none) := fun _ => rfl

theorem runOps_invAgrees : ∀ (S : List Op) (s : St) (A : Str → Option Str),
    Inv s → Agrees s A → Inv (runOps s S) ∧ Agrees (runOps s S) (absRun A S)
  | [], _, _, hI, hA => ⟨hI, hA⟩
  | op :: rest, s, A, hI, hA =>
      runOps_invAgrees rest (applyOp s op) (absStep A op) (applyOp_inv hI op)
        (applyOp_agrees hI hA op)

theorem absRun_foldl : ∀ (S : List Op) (A : Str → Option Str) (k : Str),
    absRun A S k = S.foldl
      (fun acc op =>
        match op with
        | Op.set k2 v => if k2 = k then some v else acc
        | Op.del k2 => if k2 = k then none else acc) (A k)
  | [], _, _ => rfl
  | op :: rest, A, k => by
      cases op with
      | set k2 v => exact absRun_foldl rest _ k
      | del k2 => exact absRun_foldl rest _ k

/-- C1: for every sequence of set and remove operations applied to a store
opened on an empty directory (removes of absent keys fail but the store
object lives on), get of any key returns exactly the value of the last Set
of that key not followed by a later Remove of it, and None when there is no
such Set. This holds through every compaction the sequence triggers. -/
theorem c1_get_returns_last_unremoved_set (S : List Op) (k : Str) :
    getOp (runOps freshSt S) k = Except.ok (specLast S k) := by
  obtain ⟨hI, hA⟩ := runOps_invAgrees S freshSt (fun _ => none) inv_freshSt agrees_freshSt
  rw [hA k]
  rw [show specLast S k = absRun (fun _ => none) S k from (absRun_foldl S (fun _ => none) k).symm]

/-- C6: on any operation sequence from a fresh store, when a set or a
successful remove pushes the wasted-byte counter to the compaction threshold
and the resulting compaction completes, the directory afterwards holds no
tmp file and no generation that was on disk when the compaction started:
the old logs are fully replaced. -/
theorem c6_compaction_full_replacement (S : List Op) :
    (∀ k v, ¬ (setCore (runOps freshSt S) k v).wasted_bytes
        < COMPACTION_BYTES_THRESHOLD →
      (setOp (runOps freshSt S) k v).1 = Except.ok () →
      noTmps (setOp (runOps freshSt S) k v).2 ∧
      logsDisjoint (setOp (runOps freshSt S) k v).2 (setCore (runOps freshSt S) k v)) ∧
    (∀ k m, removeCore (runOps freshSt S) k = (Except.ok (), m) →
      ¬ m.wasted_bytes < COMPACTION_BYTES_THRESHOLD →
      (removeOp (runOps freshSt S) k).1 = Except.ok () →
      noTmps (removeOp (runOps freshSt S) k).2 ∧
      logsDisjoint (removeOp (runOps freshSt S) k).2 m) := by
  have hI := (runOps_invAgrees S freshSt (fun _ => none) inv_freshSt agrees_freshSt).1
  constructor
  · intro k v htr _
    have hred : setOp (runOps freshSt S) k v
        = runCompaction (setCore (runOps freshSt S) k v) := by
      unfold setOp maybeRunCompaction
      rw [if_neg htr]
    rw [hred]
    obtain ⟨_, _, _, h4, h5⟩ := runCompaction_spec (setCore_inv hI k v)
    exact ⟨h4, h5⟩
  · intro k m hm htr _
    have hInvM : Inv m := by
      have h := removeCore_inv hI k
      rw [hm] at h
      exact h
    have hred : removeOp (runOps freshSt S) k = runCompaction m := by
      unfold removeOp
      rw [hm]
      show (if m.wasted_bytes < COMPACTION_BYTES_THRESHOLD then (Except.ok (), m)
        else runCompaction m) = runCompaction m
      rw [if_neg htr]
    rw [hred]
    obtain ⟨_, _, _, h4, h5⟩ := runCompaction_spec hInvM
    exact ⟨h4, h5⟩

theorem lookupA_eq_of_mem_nodup {α β : Type} [DecidableEq α] :
    ∀ {l : List (α × β)} {k : α} {v : β}, (l.map Prod.fst).Nodup → (k, v) ∈ l →
      lookupA l k = some v
  | [], _, _, _, hm => by simp at hm
  | (a, b) :: rest, k, v, hnd, hm => by
      obtain ⟨hna, hrest⟩ := List.nodup_cons.mp hnd
      rcases List.mem_cons.mp hm with he | hmm
      · have hk : a = k := (congrArg Prod.fst he).symm
        have hv : b = v := (congrArg Prod.snd he).symm
        simp [lookupA, hk, hv]
      · have hak : a ≠ k := by
          intro hk
          subst hk
          exact hna (List.mem_map.mpr ⟨(a, v), hmm, rfl⟩)
        simp only [lookupA, if_neg hak]
        exact lookupA_eq_of_mem_nodup hrest hmm

theorem sortedGens_sorted (s : St) : List.Sorted (· ≤ ·) (sortedGens s) :=
  sortNat_sorted _

theorem current_mem_sortedGens {s : St} (hInv : Inv s) :
    s.current_generation ∈ sortedGens s :=
  mem_sortedGens.mpr (by rw [hInv.current_log]; rfl)

theorem sortedGens_getLast {s : St} (hInv : Inv s) {g : Nat} {gs : List Nat}
    (h : sortedGens s = g :: gs) :
    (g :: gs).getLast (List.cons_ne_nil g gs) = s.current_generation := by
  have hmem : (g :: gs).getLast (List.cons_ne_nil g gs) ∈ g :: gs :=
    List.getLast_mem _
  have hmem2 : (g :: gs).getLast (List.cons_ne_nil g gs) ∈ sortedGens s := by
    rw [h]
    exact hmem
  have h1 : (g :: gs).getLast (List.cons_ne_nil g gs) ≤ s.current_generation :=
    (sortedGens_bound hInv _ hmem2).1
  have hcur : s.current_generation ∈ g :: gs := by
    rw [← h]
    exact current_mem_sortedGens hInv
  have hsorted : List.Sorted (· ≤ ·) (g :: gs) := by
    rw [← h]
    exact sortedGens_sorted s
  have h2 := sorted_le_getLast (g :: gs) (List.cons_ne_nil g gs) hsorted
    s.current_generation hcur
  omega

theorem openStore_dir_eq {s : St} (hInv : Inv s) :
    openStore (some s.dir)
      = foldStopE loadGen
          { files := s.files, nextInode := s.nextInode, names := s.names, map := [],
            current_generation := s.current_generation, writer := s.writer, readers := [],
            wasted_bytes := 0 } (sortedGens s) := by
  unfold openStore
  simp only [Option.getD_some, St.dir]
  rcases hgl : sortedGens
      ({ files := s.files, nextInode := s.nextInode, names := s.names, map := [],
         current_generation := 0, writer := 0, readers := [],
         wasted_bytes := 0 } : St) with _ | ⟨g, gs⟩
  · exfalso
    have hcur : s.current_generation ∈ sortedGens s := current_mem_sortedGens hInv
    have hempty : sortedGens s = ([] : List Nat) := hgl
    rw [hempty] at hcur
    simp at hcur
  · have hgl2 : sortedGens s = g :: gs := hgl
    have hlast := sortedGens_getLast hInv hgl2
    have hl : lookupA s.names
        (((g :: gs).getLast (List.cons_ne_nil g gs)), Ext.log) = some s.writer := by
      rw [hlast]
      exact hInv.current_log
    have hca : createAppend
        ({ files := s.files, nextInode := s.nextInode, names := s.names, map := [],
           current_generation := 0, writer := 0, readers := [],
           wasted_bytes := 0 } : St)
        ((g :: gs).getLast (List.cons_ne_nil g gs)) Ext.log
        = (s.writer,
           { files := s.files, nextInode := s.nextInode, names := s.names, map := [],
             current_generation := 0, writer := 0, readers := [],
             wasted_bytes := 0 }) := by
      simp [createAppend, hl]
    simp only [hca]
    rw [hlast, ← hgl2]

theorem replayItems_frame (g : Nat) : ∀ (items : List Item) (t : St) (pos : Nat),
    (replayItems g t items pos).2.files = t.files ∧
    (replayItems g t items pos).2.names = t.names ∧
    (replayItems g t items pos).2.readers = t.readers ∧
    (replayItems g t items pos).2.current_generation = t.current_generation ∧
    (replayItems g t items pos).2.writer = t.writer ∧
    (replayItems g t items pos).2.nextInode = t.nextInode
  | [], _, _ => by exact ⟨rfl, rfl, rfl, rfl, rfl, rfl⟩
  | Item.bad :: _, _, _ => by exact ⟨rfl, rfl, rfl, rfl, rfl, rfl⟩
  | Item.whole cmd :: rest, t, pos => by
      cases cmd with
      | set key value =>
          simp only [replayItems]
          exact replayItems_frame g rest _ (pos + 1)
      | remove key =>
          rcases hm : mapRemove t.map key with e | r
          · simp [replayItems, hm]
          · simp only [replayItems, hm]
            exact replayItems_frame g rest _ (pos + 1)

theorem drop_cons_head {α : Type} {l : List α} {pos : Nat} {x : α} {rest : List α}
    (h : x :: rest = l.drop pos) : l[pos]? = some x ∧ rest = l.drop (pos + 1) := by
  constructor
  · have h0 : (l.drop pos)[0]? = some x := by rw [← h]; simp
    rw [List.getElem?_drop] at h0
    simpa using h0
  · have ht := congrArg List.tail h
    simpa [List.tail_drop] using ht

theorem replayItems_entries (g : Nat) (full : List Item) (P : Str → LogEntry → Prop)
    (hnew : ∀ k e, e.generation = g →
      (∃ v, readOne full e.file_pos = Except.ok (Command.set k v)) → P k e) :
    ∀ (items : List Item) (t : St) (pos : Nat),
      items = full.drop pos →
      (t.map.map Prod.fst).Nodup →
      (∀ k e, lookupA t.map k = some e → P k e) →
      ((replayItems g t items pos).2.map.map Prod.fst).Nodup ∧
      (∀ k e, lookupA (replayItems g t items pos).2.map k = some e → P k e)
  | [], _, _, _, hnd, hP => ⟨hnd, hP⟩
  | Item.bad :: _, _, _, _, hnd, hP => ⟨hnd, hP⟩
  | Item.whole cmd :: rest, t, pos, hdrop, hnd, hP => by
      obtain ⟨hhead, hrest⟩ := drop_cons_head hdrop
      cases cmd with
      | set key value =>
          simp only [replayItems]
          apply replayItems_entries g full P hnew rest _ (pos + 1) hrest
            (mapSet_nodup t.map key g pos _ hnd)
          intro k e he
          rcases mapSet_entry_cases he with ⟨hk, hev⟩ | hold
          · rw [hk, hev]
            apply hnew key ⟨g, pos, key.length + value.length⟩ rfl
            refine ⟨value, ?_⟩
            show readOne full pos = Except.ok (Command.set key value)
            unfold readOne
            rw [hhead]
          · exact hP k e hold
      | remove key =>
          rcases hm : mapRemove t.map key with e | r
          · simp only [replayItems, hm]
            exact ⟨hnd, hP⟩
          · simp only [replayItems, hm]
            obtain ⟨her, _⟩ := mapRemove_ok hm
            have hnd2 : ((eraseA t.map key).map Prod.fst).Nodup :=
              eraseA_keys_nodup t.map key hnd
            apply replayItems_entries g full P hnew rest _ (pos + 1) hrest
            · rw [her]
              exact hnd2
            · intro k e2 he2
              rw [her] at he2
              exact hP k e2 (lookupA_eraseA_sub hnd he2)

theorem loadGen_step {s : St} {done : List Nat} {t : St} (hLF : LoadInv s done t)
    (g : Nat) {t2 : St} (hok : loadGen t g = (Except.ok (), t2)) :
    LoadInv s (done ++ [g]) t2 := by
  rcases hn : lookupA t.names (g, Ext.log) with _ | i
  · have hres : loadGen t g = (Except.error Err.ioErr, t) := by
      unfold loadGen openRead
      simp [hn]
    rw [hres] at hok
    exact absurd (congrArg Prod.fst hok) (by simp)
  · have hopen : openRead t g Ext.log = Except.ok i := by
      unfold openRead
      rw [hn]
    rcases hr : replayItems g t (t.files i) 0 with ⟨e | u, t3⟩
    · have hres : loadGen t g = (Except.error e, t3) := by
        unfold loadGen
        rw [hopen]
        simp only [hr]
      rw [hres] at hok
      exact absurd (congrArg Prod.fst hok) (by simp)
    · have hres : loadGen t g
          = (Except.ok (), { t3 with readers := insertA t3.readers g i }) := by
        unfold loadGen
        rw [hopen]
        simp only [hr]
      rw [hres] at hok
      have ht2 : t2 = { t3 with readers := insertA t3.readers g i } :=
        (congrArg Prod.snd hok).symm
      have hfr := replayItems_frame g (t.files i) t 0
      rw [hr] at hfr
      obtain ⟨hfi, hna, hre, hcu, hwr, hni⟩ := hfr
      have hsn : lookupA s.names (g, Ext.log) = some i := by
        rw [← hLF.names_eq]
        exact hn
      have hent := replayItems_entries g (t.files i)
        (fun k e => e.generation ∈ done ++ [g] ∧
          ∃ j v, lookupA s.names (e.generation, Ext.log) = some j ∧
            readOne (s.files j) e.file_pos = Except.ok (Command.set k v))
        (by
          intro k e hg hv
          obtain ⟨v, hv⟩ := hv
          refine ⟨by rw [hg]; simp, i, v, by rw [hg]; exact hsn, ?_⟩
          rw [← hLF.files_eq]
          exact hv)
        (t.files i) t 0 (by rw [List.drop_zero]) hLF.map_nodup
        (by
          intro k e he
          obtain ⟨hd, j, v, hj, hrd⟩ := hLF.map_char k e he
          exact ⟨by simp [hd], j, v, hj, hrd⟩)
      rw [hr] at hent
      subst ht2
      refine ⟨?_, ?_, ?_, ?_, ?_, ?_, ?_, ?_, ?_⟩
      · show t3.files = s.files
        rw [hfi]; exact hLF.files_eq
      · show t3.names = s.names
        rw [hna]; exact hLF.names_eq
      · show t3.nextInode = s.nextInode
        rw [hni]; exact hLF.next_eq
      · show t3.current_generation = s.current_generation
        rw [hcu]; exact hLF.current_eq
      · show t3.writer = s.writer
        rw [hwr]; exact hLF.writer_eq
      · intro q
        show lookupA (insertA t3.readers g i) q
          = if q ∈ done ++ [g] then lookupA s.names (q, Ext.log) else none
        rw [hre]
        by_cases hq : q = g
        · subst hq
          rw [lookupA_insertA_self]
          rw [if_pos (by simp)]
          exact hsn.symm
        · rw [lookupA_insertA_ne t.readers g q i (fun h => hq h.symm)]
          rw [hLF.readers_char q]
          by_cases hd : q ∈ done
          · rw [if_pos hd, if_pos (by simp [hd])]
          · rw [if_neg hd, if_neg (by simp [hd, hq])]
      · show ((insertA t3.readers g i).map Prod.fst).Nodup
        rw [hre]
        exact insertA_keys_nodup t.readers g i hLF.readers_nodup
      · exact hent.2
      · exact hent.1

theorem loadFold_step (s : St) : ∀ (gens : List Nat) (done : List Nat) (t t2 : St),
    LoadInv s done t → foldStopE loadGen t gens = (Except.ok (), t2) →
    LoadInv s (done ++ gens) t2
  | [], done, t, t2, hLF, hok => by
      have h2 : t = t2 := congrArg Prod.snd hok
      subst h2
      simpa using hLF
  | g :: gs, done, t, t2, hLF, hok => by
      rcases hg : loadGen t g with ⟨e | u, t3⟩
      · have hres : foldStopE loadGen t (g :: gs) = (Except.error e, t3) := by
          simp only [foldStopE, hg]
        rw [hres] at hok
        exact absurd (congrArg Prod.fst hok) (by simp)
      · cases u
        have hres : foldStopE loadGen t (g :: gs) = foldStopE loadGen t3 gs := by
          simp only [foldStopE, hg]
        rw [hres] at hok
        have hrec := loadFold_step s gs (done ++ [g]) t3 t2 (loadGen_step hLF g hg) hok
        simpa [List.append_assoc, List.singleton_append] using hrec

theorem openStore_spec {s : St} (hInv : Inv s)
    (hok : (openStore (some s.dir)).1 = Except.ok ()) :
    Inv (openStore (some s.dir)).2 ∧
    (openStore (some s.dir)).2.files = s.files ∧
    (openStore (some s.dir)).2.names = s.names ∧
    (openStore (some s.dir)).2.current_generation = s.current_generation ∧
    (openStore (some s.dir)).2.writer = s.writer ∧
    (∀ g, lookupA (openStore (some s.dir)).2.readers g
      = if g ∈ sortedGens s then lookupA s.names (g, Ext.log) else none) := by
  have hbase : LoadInv s []
      { files := s.files, nextInode := s.nextInode, names := s.names, map := [],
        current_generation := s.current_generation, writer := s.writer, readers := [],
        wasted_bytes := 0 } := by
    refine ⟨rfl, rfl, rfl, rfl, rfl, ?_, ?_, ?_, ?_⟩
    · intro g
      simp [lookupA]
    · simp
    · intro k e he
      exact absurd he (by simp [lookupA])
    · simp
  rcases hfold : foldStopE loadGen
      { files := s.files, nextInode := s.nextInode, names := s.names, map := [],
        current_generation := s.current_generation, writer := s.writer, readers := [],
        wasted_bytes := 0 } (sortedGens s) with ⟨r, t2⟩
  have hres : openStore (some s.dir) = (r, t2) := by
    rw [openStore_dir_eq hInv, hfold]
  have hr : r = Except.ok () := by
    rw [hres] at hok
    exact hok
  subst hr
  have hLF := loadFold_step s (sortedGens s) [] _ t2 hbase hfold
  simp only [List.nil_append] at hLF
  have H : Inv t2 ∧ t2.files = s.files ∧ t2.names = s.names ∧
      t2.current_generation = s.current_generation ∧ t2.writer = s.writer ∧
      (∀ g, lookupA t2.readers g
        = if g ∈ sortedGens s then lookupA s.names (g, Ext.log) else none) := by
    refine ⟨?_, hLF.files_eq, hLF.names_eq, hLF.current_eq, hLF.writer_eq,
      hLF.readers_char⟩
    constructor
    case read_ok =>
      intro k e he
      obtain ⟨hgd, j, v, hj, hrd⟩ := hLF.map_char k e he
      have hrj : lookupA t2.readers e.generation = some j := by
        rw [hLF.readers_char e.generation, if_pos hgd]
        exact hj
      exact ⟨j, v, hrj, by rw [hLF.files_eq]; exact hrd⟩
    case writer_reader =>
      rw [hLF.current_eq, hLF.writer_eq, hLF.readers_char s.current_generation,
        if_pos (current_mem_sortedGens hInv)]
      exact hInv.current_log
    case current_log =>
      rw [hLF.names_eq, hLF.current_eq, hLF.writer_eq]
      exact hInv.current_log
    case log_le =>
      intro g i h
      rw [hLF.names_eq] at h
      rw [hLF.current_eq]
      exact hInv.log_le g i h
    case gens_le =>
      intro k e he
      obtain ⟨hgd, _⟩ := hLF.map_char k e he
      rw [hLF.current_eq]
      exact (sortedGens_bound hInv e.generation hgd).1
    case no_tmp =>
      intro g
      rw [hLF.names_eq]
      exact hInv.no_tmp g
    case log_reader =>
      intro g i h
      rw [hLF.names_eq] at h
      rw [hLF.readers_char g, if_pos (mem_sortedGens.mpr (by rw [h]; rfl))]
      exact h
    case no_bad =>
      intro g i h
      rw [hLF.names_eq] at h
      rw [hLF.files_eq]
      exact hInv.no_bad g i h
    case log_inj =>
      intro g g2 i h1 h2
      rw [hLF.names_eq] at h1 h2
      exact hInv.log_inj g g2 i h1 h2
    case names_nodup =>
      rw [hLF.names_eq]
      exact hInv.names_nodup
    case readers_nodup => exact hLF.readers_nodup
    case map_nodup => exact hLF.map_nodup
    case names_lt =>
      intro p i h
      rw [hLF.names_eq] at h
      rw [hLF.next_eq]
      exact hInv.names_lt p i h
    case readers_lt =>
      intro g i h
      have hl : lookupA t2.readers g = some i :=
        lookupA_eq_of_mem_nodup hLF.readers_nodup h
      rw [hLF.readers_char g] at hl
      by_cases hd : g ∈ sortedGens s
      · rw [if_pos hd] at hl
        rw [hLF.next_eq]
        exact hInv.names_lt (g, Ext.log) i (lookupA_mem hl)
      · rw [if_neg hd] at hl
        exact absurd hl (by simp)
    case writer_lt =>
      rw [hLF.writer_eq, hLF.next_eq]
      exact hInv.writer_lt
    case files_hi =>
      intro j hj
      rw [hLF.next_eq] at hj
      rw [hLF.files_eq]
      exact hInv.files_hi j hj
  rw [hres]
  exact H

theorem scenario_step1 :
    runOps freshSt [Op.set kKey bigVal] = setCore freshSt kKey bigVal := by
  show (maybeRunCompaction (setCore freshSt kKey bigVal)).2 = _
  have hw : (setCore freshSt kKey bigVal).wasted_bytes = 0 := rfl
  rw [maybeRunCompaction, if_pos (by rw [hw]; decide)]

theorem setCore_wasted (s : St) (k v : Str) :
    (setCore s k v).wasted_bytes
      = s.wasted_bytes
        + (mapSet s.map k s.current_generation ((s.files s.writer).length)
            (k.length + v.length)).1 := rfl

theorem mapSet_fst_of_le {m : InternalMap} {key : Str} {g p e : Nat} {old : LogEntry}
    (h : lookupA m key = some old) (hle : old.generation ≤ g) :
    (mapSet m key g p e).1 = old.estimated_bytes := by
  simp only [mapSet, h]
  rw [if_neg (Nat.not_lt.mpr hle)]

theorem scenarioMid_wasted : scenarioMid.wasted_bytes = 1048576 := by
  show (setCore (runOps freshSt [Op.set kKey bigVal]) kKey bigVal).wasted_bytes = _
  rw [scenario_step1, setCore_wasted]
  have hlk : lookupA (setCore freshSt kKey bigVal).map kKey
      = some ⟨1, 0, kKey.length + bigVal.length⟩ := rfl
  rw [mapSet_fst_of_le hlk (by decide)]
  rw [show (setCore freshSt kKey bigVal).wasted_bytes = 0 from rfl]
  have hbl : bigVal.length = 1048575 := by
    show (List.replicate 1048575 'a').length = 1048575
    simp only [List.length_replicate]
  rw [hbl]
  decide

theorem scenario_no_trigger :
    ¬ scenarioMid.wasted_bytes < COMPACTION_BYTES_THRESHOLD := by
  rw [scenarioMid_wasted]
  decide

theorem maybeRun_yes (s : St) (h : ¬ s.wasted_bytes < COMPACTION_BYTES_THRESHOLD) :
    maybeRunCompaction s = runCompaction s := by
  rw [maybeRunCompaction, if_neg h]

theorem applyOp_set_eq (s : St) (k v : Str) :
    applyOp s (Op.set k v) = (maybeRunCompaction (setCore s k v)).2 := by
  simp only [applyOp, setOp]

theorem scenario_two_steps : scenarioSt
    = applyOp (applyOp freshSt (Op.set kKey bigVal)) (Op.set kKey bigVal) := by
  rw [scenarioSt, scenarioOps, runOps]
  rw [List.foldl_cons, List.foldl_cons, List.foldl_nil]

theorem scenarioMid_one_step : scenarioMid
    = setCore (applyOp freshSt (Op.set kKey bigVal)) kKey bigVal := by
  rw [scenarioMid, runOps, List.foldl_cons, List.foldl_nil]

theorem scenario_h1 : scenarioSt = (maybeRunCompaction scenarioMid).2 :=
  scenario_two_steps.trans
    ((applyOp_set_eq (applyOp freshSt (Op.set kKey bigVal)) kKey bigVal).trans
      (congrArg (fun x => (maybeRunCompaction x).2) scenarioMid_one_step.symm))

theorem scenarioSt_runC : scenarioSt = (runCompaction scenarioMid).2 := by
  rw [scenario_h1, maybeRun_yes scenarioMid scenario_no_trigger]

theorem scenario_names :
    scenarioSt.names = [((3, Ext.log), 2), ((2, Ext.log), 1)] := by
  rw [scenarioSt_runC]
  rfl

theorem scenario_readers : scenarioSt.readers = [(1, 0), (2, 1), (3, 2)] := by
  rw [scenarioSt_runC]
  rfl

theorem scenario_setOp_ok :
    (setOp (runOps freshSt [Op.set kKey bigVal]) kKey bigVal).1 = Except.ok () := by
  have hI : Inv (runOps freshSt [Op.set kKey bigVal]) :=
    (runOps_invAgrees _ freshSt (fun _ => none) inv_freshSt agrees_freshSt).1
  have hIM : Inv scenarioMid := setCore_inv hI kKey bigVal
  have hok := (runCompaction_spec hIM).1
  rw [setOp]
  show (maybeRunCompaction scenarioMid).1 = Except.ok ()
  rw [maybeRun_yes scenarioMid scenario_no_trigger]
  exact hok

/-- C7: the claim that in every reachable state the number of blessed log
files equals the number of cached readers fails: two writes of a value one
byte short of a mebibyte trigger a compaction that deletes the generation-1
log but never evicts its cached reader, so the resulting reachable state
holds two log files (the compaction target and the new write generation)
against three cached readers. The retire step of the spec prescribes the
eviction the code lacks. -/
theorem c7_counterexample_reader_leak :
    Reach scenarioSt ∧ logCount scenarioSt = 2 ∧ scenarioSt.readers.length = 3 := by
  refine ⟨?_, ?_, ?_⟩
  · rw [show scenarioSt = applyOp (applyOp freshSt (Op.set kKey bigVal))
        (Op.set kKey bigVal) from scenario_two_steps]
    exact Reach.step _ _ (Reach.step _ _ Reach.fresh)
  · rw [logCount, scenario_names]
    rfl
  · rw [scenario_readers]
    rfl

theorem absCmds_append : ∀ (l1 l2 : List Command) (A : Str → Option Str),
    absCmds A (l1 ++ l2) = absCmds (absCmds A l1) l2
  | [], _, _ => rfl
  | c :: rest, l2, A => absCmds_append rest l2 (absCmd A c)

theorem replayOk_append : ∀ (l1 l2 : List Command) (A : Str → Option Str),
    replayOk A (l1 ++ l2) = (replayOk A l1 && replayOk (absCmds A l1) l2)
  | [], l2, A => by simp [replayOk, absCmds]
  | c :: rest, l2, A => by
      cases c with
      | set k v =>
          simp only [List.cons_append, replayOk, absCmds]
          exact replayOk_append rest l2 _
      | remove k =>
          simp only [List.cons_append, List.append_eq, replayOk, absCmds]
          rw [replayOk_append rest l2 _]
          rw [Bool.and_assoc]

theorem absCmds_of_not_key : ∀ (l : List Command) (A : Str → Option Str) (k : Str),
    (∀ c ∈ l, cmdKey c ≠ k) → absCmds A l k = A k
  | [], _, _, _ => rfl
  | c :: rest, A, k, h => by
      have hrest := absCmds_of_not_key rest (absCmd A c) k
        (fun c2 hc2 => h c2 (List.mem_cons_of_mem c hc2))
      show absCmds (absCmd A c) rest k = A k
      rw [hrest]
      have hck := h c (List.mem_cons_self c rest)
      cases c with
      | set k2 v =>
          have hck2 : k2 ≠ k := hck
          show (if k2 = k then some v else A k) = A k
          rw [if_neg hck2]
      | remove k2 =>
          have hck2 : k2 ≠ k := hck
          show (if k2 = k then none else A k) = A k
          rw [if_neg hck2]

theorem replayOk_allSets : ∀ (l : List Command) (A : Str → Option Str),
    (∀ c ∈ l, ∃ k v, c = Command.set k v) → replayOk A l = true
  | [], _, _ => rfl
  | c :: rest, A, h => by
      obtain ⟨k, v, hc⟩ := h c (List.mem_cons_self c rest)
      subst hc
      show replayOk (absCmd A (Command.set k v)) rest = true
      exact replayOk_allSets rest _ (fun c2 hc2 => h c2 (List.mem_cons_of_mem _ hc2))

theorem wholeRecs_append_whole : ∀ (l : List Item) (c : Command), Item.bad ∉ l →
    wholeRecs (l ++ [Item.whole c]) = wholeRecs l ++ [c]
  | [], c, _ => rfl
  | Item.whole d :: rest, c, h => by
      simp only [List.cons_append, List.append_eq, wholeRecs]
      rw [wholeRecs_append_whole rest c (fun hm => h (List.mem_cons_of_mem _ hm))]
  | Item.bad :: rest, c, h => absurd (List.mem_cons_self _ _) h

theorem dirGensCmds_nil (s : St) : dirGensCmds s [] = [] := rfl

theorem dirGensCmds_cons (s : St) (g : Nat) (gs : List Nat) :
    dirGensCmds s (g :: gs)
      = wholeRecs (s.files (logInode s g)) ++ dirGensCmds s gs := rfl

theorem dirGensCmds_append (s : St) (l1 l2 : List Nat) :
    dirGensCmds s (l1 ++ l2) = dirGensCmds s l1 ++ dirGensCmds s l2 := by
  simp [dirGensCmds, List.map_append, List.flatten_append]

theorem sorted_nodup_ext : ∀ (l1 l2 : List Nat), List.Sorted (· ≤ ·) l1 →
    List.Sorted (· ≤ ·) l2 → l1.Nodup → l2.Nodup → (∀ x, x ∈ l1 ↔ x ∈ l2) →
    l1 = l2
  | [], [], _, _, _, _, _ => rfl
  | [], b :: l2, _, _, _, _, h =>
      absurd ((h b).mpr (List.mem_cons_self b l2)) (by simp)
  | a :: l1, [], _, _, _, _, h =>
      absurd ((h a).mp (List.mem_cons_self a l1)) (by simp)
  | a :: l1, b :: l2, h1, h2, n1, n2, h => by
      have hab : a = b := by
        rcases List.mem_cons.mp ((h a).mp (List.mem_cons_self a l1)) with hab | ha2
        · exact hab
        · rcases List.mem_cons.mp ((h b).mpr (List.mem_cons_self b l2)) with hba | hb1
          · exact hba.symm
          · have h1b : a ≤ b := List.rel_of_sorted_cons h1 b hb1
            have h2a : b ≤ a := List.rel_of_sorted_cons h2 a ha2
            omega
      subst hab
      congr 1
      apply sorted_nodup_ext l1 l2 h1.of_cons h2.of_cons
        (List.nodup_cons.mp n1).2 (List.nodup_cons.mp n2).2
      intro x
      constructor
      · intro hx
        have hxa : x ≠ a := fun he => (List.nodup_cons.mp n1).1 (he ▸ hx)
        rcases List.mem_cons.mp ((h x).mp (List.mem_cons_of_mem a hx)) with he | h2x
        · exact absurd he hxa
        · exact h2x
      · intro hx
        have hxa : x ≠ a := fun he => (List.nodup_cons.mp n2).1 (he ▸ hx)
        rcases List.mem_cons.mp ((h x).mpr (List.mem_cons_of_mem a hx)) with he | h1x
        · exact absurd he hxa
        · exact h1x

theorem semRel_congr {s : St} {M : InternalMap} {B B2 : Str → Option Str} {k : Str}
    (he : B2 k = B k) (h : SemRel s M B k) : SemRel s M B2 k := by
  unfold SemRel at h ⊢
  cases hlk : lookupA M k with
  | none =>
      simp only [hlk] at h ⊢
      rw [he]
      exact h
  | some e =>
      simp only [hlk] at h ⊢
      obtain ⟨i, v, hv, hn, hr⟩ := h
      exact ⟨i, v, by rw [he]; exact hv, hn, hr⟩

theorem semRel_lookup_congr {s : St} {M M2 : InternalMap} {B : Str → Option Str}
    {k : Str} (he : lookupA M2 k = lookupA M k) (h : SemRel s M B k) :
    SemRel s M2 B k := by
  unfold SemRel at h ⊢
  rw [he]
  exact h

theorem replayItems_sem (g : Nat) (s : St) (i : Nat)
    (hin : lookupA s.names (g, Ext.log) = some i) :
    ∀ (items : List Item) (t : St) (pos : Nat) (B : Str → Option Str),
      items = (s.files i).drop pos →
      Item.bad ∉ items →
      (t.map.map Prod.fst).Nodup →
      (∀ k, SemRel s t.map B k) →
      (∀ k e, lookupA t.map k = some e → e.generation ≤ g) →
      replayOk B (wholeRecs items) = true →
      (replayItems g t items pos).1 = Except.ok () ∧
      ((replayItems g t items pos).2.map.map Prod.fst).Nodup ∧
      (∀ k, SemRel s (replayItems g t items pos).2.map
        (absCmds B (wholeRecs items)) k) ∧
      (∀ k e, lookupA (replayItems g t items pos).2.map k = some e →
        e.generation ≤ g)
  | [], _, _, _, _, _, hnd, hrel, hle, _ => ⟨rfl, hnd, hrel, hle⟩
  | Item.bad :: _, _, _, _, _, hb, _, _, _, _ =>
      absurd (List.mem_cons_self _ _) hb
  | Item.whole cmd :: rest, t, pos, B, hdrop, hb, hnd, hrel, hle, hro => by
      obtain ⟨hhead, hrest⟩ := drop_cons_head hdrop
      have hbrest : Item.bad ∉ rest := fun hm => hb (List.mem_cons_of_mem _ hm)
      cases cmd with
      | set key value =>
          simp only [wholeRecs, replayOk] at hro
          simp only [replayItems, wholeRecs, absCmds]
          apply replayItems_sem g s i hin rest _ (pos + 1)
            (absCmd B (Command.set key value)) hrest hbrest
            (mapSet_nodup t.map key g pos _ hnd) ?_ ?_ hro
          · intro k
            by_cases hk : key = k
            · subst hk
              have hself : lookupA
                  (mapSet t.map key g pos (key.length + value.length)).2 key
                  = some ⟨g, pos, key.length + value.length⟩ :=
                lookupA_mapSet_self (fun old hold => hle key old hold)
              simp only [SemRel, hself]
              refine ⟨i, value, ?_, ?_, ?_⟩
              · show (if key = key then some value else B key) = some value
                simp
              · exact hin
              · show readOne (s.files i) pos = Except.ok (Command.set key value)
                unfold readOne
                rw [hhead]
            · have heq : absCmd B (Command.set key value) k = B k := by
                show (if key = k then some value else B k) = B k
                rw [if_neg hk]
              exact semRel_lookup_congr (lookupA_mapSet_ne t.map key g pos _ hk)
                (semRel_congr heq (hrel k))
          · intro k e he
            rcases mapSet_entry_cases he with ⟨_, hev⟩ | hold
            · subst hev
              exact le_refl _
            · exact hle k e hold
      | remove key =>
          simp only [wholeRecs, replayOk, Bool.and_eq_true] at hro
          obtain ⟨hro1, hro2⟩ := hro
          cases hlk : lookupA t.map key with
          | none =>
              exfalso
              have h0 := hrel key
              unfold SemRel at h0
              rw [hlk] at h0
              rw [h0] at hro1
              simp at hro1
          | some old =>
              simp only [replayItems, mapRemove_ok_of_lookup hlk]
              simp only [wholeRecs, absCmds]
              apply replayItems_sem g s i hin rest _ (pos + 1)
                (absCmd B (Command.remove key)) hrest hbrest
                (eraseA_keys_nodup t.map key hnd) ?_ ?_ hro2
              · intro k
                by_cases hk : key = k
                · subst hk
                  simp only [SemRel, lookupA_eraseA_self t.map key hnd]
                  show (if key = key then none else B key) = none
                  simp
                · have heq : absCmd B (Command.remove key) k = B k := by
                    show (if key = k then none else B k) = B k
                    rw [if_neg hk]
                  exact semRel_lookup_congr (lookupA_eraseA_ne t.map key k hk)
                    (semRel_congr heq (hrel k))
              · intro k e he
                exact hle k e (lookupA_eraseA_sub hnd he)

theorem loadGen_sem {s : St} (hInv : Inv s) {done : List Nat} {t : St}
    (hLI : LoadInv s done t) {B : Str → Option Str}
    (hrel : ∀ k, SemRel s t.map B k) (g : Nat) (hg : g ∈ sortedGens s)
    (hgle : ∀ k e, lookupA t.map k = some e → e.generation ≤ g)
    (hro : replayOk B (wholeRecs (s.files (logInode s g))) = true) :
    (loadGen t g).1 = Except.ok () ∧
    LoadInv s (done ++ [g]) (loadGen t g).2 ∧
    (∀ k, SemRel s (loadGen t g).2.map
      (absCmds B (wholeRecs (s.files (logInode s g)))) k) ∧
    (∀ k e, lookupA (loadGen t g).2.map k = some e → e.generation ≤ g) := by
  obtain ⟨i, hi⟩ := Option.isSome_iff_exists.mp (mem_sortedGens.mp hg)
  have hlio : logInode s g = i := by rw [logInode, hi]; rfl
  have hti : lookupA t.names (g, Ext.log) = some i := by
    rw [hLI.names_eq]
    exact hi
  have hopen : openRead t g Ext.log = Except.ok i := by
    unfold openRead
    rw [hti]
  have htfiles : t.files i = s.files i := by rw [hLI.files_eq]
  rw [hlio] at hro
  have hsem := replayItems_sem g s i hi (t.files i) t 0 B
    (by rw [htfiles, List.drop_zero]) (by rw [htfiles]; exact hInv.no_bad g i hi)
    hLI.map_nodup hrel hgle (by rw [htfiles]; exact hro)
  rcases hr : replayItems g t (t.files i) 0 with ⟨r, t3⟩
  rw [hr] at hsem
  obtain ⟨hok1, hnd3, hrel3, hle3⟩ := hsem
  cases r with
  | error e => exact absurd hok1 (by simp)
  | ok u =>
      cases u
      have hres : loadGen t g
          = (Except.ok (), { t3 with readers := insertA t3.readers g i }) := by
        unfold loadGen
        rw [hopen]
        simp only [hr]
      have hstep := loadGen_step hLI g hres
      rw [htfiles] at hrel3
      refine ⟨by rw [hres], ?_, ?_, ?_⟩
      · rw [hres]
        exact hstep
      · rw [hres, hlio]
        exact hrel3
      · rw [hres]
        exact hle3

theorem loadFold_sem {s : St} (hInv : Inv s) :
    ∀ (gens done : List Nat) (t : St) (B : Str → Option Str),
      done ++ gens = sortedGens s →
      LoadInv s done t →
      (∀ k, SemRel s t.map B k) →
      (∀ k e, lookupA t.map k = some e → ∀ g2 ∈ gens, e.generation ≤ g2) →
      replayOk B (dirGensCmds s gens) = true →
      (foldStopE loadGen t gens).1 = Except.ok () ∧
      (∀ k, SemRel s (foldStopE loadGen t gens).2.map
        (absCmds B (dirGensCmds s gens)) k)
  | [], _, _, _, _, _, hrel, _, _ => ⟨rfl, hrel⟩
  | g :: gs, done, t, B, hpre, hLI, hrel, hgle, hro => by
      rw [dirGensCmds_cons, replayOk_append, Bool.and_eq_true] at hro
      obtain ⟨hro1, hro2⟩ := hro
      have hg : g ∈ sortedGens s := by
        rw [← hpre]
        exact List.mem_append_right done (List.mem_cons_self g gs)
      have hsorted : List.Sorted (· ≤ ·) (g :: gs) := by
        have h := sortedGens_sorted s
        rw [← hpre] at h
        exact h.sublist (List.sublist_append_right done (g :: gs))
      have hstep := loadGen_sem hInv hLI hrel g hg
        (fun k e he => hgle k e he g (List.mem_cons_self g gs)) hro1
      rcases hlg : loadGen t g with ⟨r, t2⟩
      rw [hlg] at hstep
      obtain ⟨hok1, hLI2, hrel2, hle2⟩ := hstep
      cases r with
      | error e => exact absurd hok1 (by simp)
      | ok u =>
          cases u
          have hfold : foldStopE loadGen t (g :: gs) = foldStopE loadGen t2 gs := by
            simp only [foldStopE, hlg]
          rw [hfold, dirGensCmds_cons, absCmds_append]
          apply loadFold_sem hInv gs (done ++ [g]) t2 _
            (by rw [List.append_assoc, List.singleton_append]; exact hpre)
            hLI2 hrel2 ?_ hro2
          intro k e he g2 hg2
          exact le_trans (hle2 k e he) (List.rel_of_sorted_cons hsorted g2 hg2)

theorem openStore_reopen_agrees {s : St} (hInv : Inv s) {A : Str → Option Str}
    (hAg : Agrees s A) (hsem : DirSem s A) (hrok : ROk s) :
    (openStore (some s.dir)).1 = Except.ok () ∧
    ∀ k, getOp (openStore (some s.dir)).2 k = getOp s k := by
  have hbase : LoadInv s []
      { files := s.files, nextInode := s.nextInode, names := s.names, map := [],
        current_generation := s.current_generation, writer := s.writer, readers := [],
        wasted_bytes := 0 } := by
    refine ⟨rfl, rfl, rfl, rfl, rfl, ?_, ?_, ?_, ?_⟩
    · intro g
      simp [lookupA]
    · simp
    · intro k e he
      exact absurd he (by simp [lookupA])
    · simp
  have hbrel : ∀ k, SemRel s ([] : InternalMap) (fun _ => none) k := by
    intro k
    simp only [SemRel, lookupA]
  have hfold := loadFold_sem hInv (sortedGens s) []
    { files := s.files, nextInode := s.nextInode, names := s.names, map := [],
      current_generation := s.current_generation, writer := s.writer, readers := [],
      wasted_bytes := 0 } (fun _ => none) rfl hbase hbrel
    (fun k e he => absurd he (by simp [lookupA])) hrok
  have hok2 : (openStore (some s.dir)).1 = Except.ok () := by
    rw [openStore_dir_eq hInv]
    exact hfold.1
  obtain ⟨hInv2, hfiles2, hnames2, _, _, hreaders2⟩ := openStore_spec hInv hok2
  have hT : (openStore (some s.dir)).2
      = (foldStopE loadGen
          { files := s.files, nextInode := s.nextInode, names := s.names, map := [],
            current_generation := s.current_generation, writer := s.writer,
            readers := [], wasted_bytes := 0 } (sortedGens s)).2 :=
    congrArg Prod.snd (openStore_dir_eq hInv)
  have hBA : ∀ q, absCmds (fun _ => none) (dirGensCmds s (sortedGens s)) q = A q :=
    hsem
  refine ⟨hok2, ?_⟩
  intro k
  have hrelk := hfold.2 k
  rw [← hT] at hrelk
  cases hlk : lookupA (openStore (some s.dir)).2.map k with
  | none =>
      unfold SemRel at hrelk
      rw [hlk] at hrelk
      have hAn : A k = none := by
        rw [← hBA k]
        exact hrelk
      rw [getOp_none hlk, hAg k, hAn]
  | some e =>
      unfold SemRel at hrelk
      rw [hlk] at hrelk
      obtain ⟨i, v, hv, hn, hr⟩ := hrelk
      have hAv : A k = some v := by
        rw [← hBA k]
        exact hv
      have hmem : e.generation ∈ sortedGens s :=
        mem_sortedGens.mpr (by rw [hn]; rfl)
      have hrd : lookupA (openStore (some s.dir)).2.readers e.generation = some i := by
        rw [hreaders2 e.generation, if_pos hmem]
        exact hn
      have hro : readOne ((openStore (some s.dir)).2.files i) e.file_pos
          = Except.ok (Command.set k v) := by
        rw [hfiles2]
        exact hr
      rw [hAg k, hAv]
      simp only [getOp, hlk, hrd, hro]

theorem dirCmds_append_writer {s t : St} (hInv : Inv s) (c : Command)
    (hnames : t.names = s.names)
    (hfiles : ∀ j, t.files j
      = if j = s.writer then s.files j ++ [Item.whole c] else s.files j) :
    dirCmds t = dirCmds s ++ [c] := by
  have hgl : sortedGens t = sortedGens s := by
    unfold sortedGens
    rw [hnames]
  have hli : ∀ g, logInode t g = logInode s g := by
    intro g
    unfold logInode
    rw [hnames]
  rcases hgl2 : sortedGens s with _ | ⟨g, gs⟩
  · exfalso
    have hc := current_mem_sortedGens hInv
    rw [hgl2] at hc
    simp at hc
  · have hlast := sortedGens_getLast hInv hgl2
    have hsplit : (g :: gs).dropLast ++ [s.current_generation] = g :: gs := by
      rw [← hlast]
      exact List.dropLast_append_getLast (List.cons_ne_nil g gs)
    have hnd : (g :: gs).Nodup := by
      rw [← hgl2]
      exact sortedGens_nodup hInv.names_nodup
    have hcn : s.current_generation ∉ (g :: gs).dropLast := by
      intro hm
      rw [← hsplit] at hnd
      rcases List.nodup_append.mp hnd with ⟨_, _, hdisj⟩
      exact hdisj hm (List.mem_cons_self _ _)
    have hwli : logInode s s.current_generation = s.writer := by
      unfold logInode
      rw [hInv.current_log]
      rfl
    have hdlmap : dirGensCmds t (g :: gs).dropLast
        = dirGensCmds s (g :: gs).dropLast := by
      unfold dirGensCmds
      congr 1
      apply List.map_congr_left
      intro g2 hg2
      have hg2m : g2 ∈ sortedGens s := by
        rw [hgl2]
        exact (List.dropLast_sublist (g :: gs)).subset hg2
      have hg2c : g2 ≠ s.current_generation := fun he => hcn (he ▸ hg2)
      obtain ⟨i2, hi2⟩ := Option.isSome_iff_exists.mp (mem_sortedGens.mp hg2m)
      have hli2 : logInode s g2 = i2 := by
        unfold logInode
        rw [hi2]
        rfl
      have hi2w : i2 ≠ s.writer := by
        intro he
        apply hg2c
        apply hInv.log_inj g2 s.current_generation i2 hi2
        rw [he]
        exact hInv.current_log
      rw [hli g2, hli2, hfiles i2, if_neg hi2w]
    have hcur : wholeRecs (t.files (logInode t s.current_generation))
        = wholeRecs (s.files (logInode s s.current_generation)) ++ [c] := by
      rw [hli, hwli, hfiles s.writer, if_pos rfl]
      exact wholeRecs_append_whole _ c
        (hInv.no_bad s.current_generation s.writer hInv.current_log)
    unfold dirCmds
    rw [hgl, hgl2, ← hsplit]
    rw [dirGensCmds_append, dirGensCmds_append, hdlmap]
    rw [show dirGensCmds t [s.current_generation]
        = wholeRecs (t.files (logInode t s.current_generation)) ++ [] from rfl]
    rw [show dirGensCmds s [s.current_generation]
        = wholeRecs (s.files (logInode s s.current_generation)) ++ [] from rfl]
    rw [hcur]
    simp

theorem dirOk_setCore {s : St} (hInv : Inv s) {A : Str → Option Str}
    (hsem : DirSem s A) (hrok : ROk s) (k v : Str) :
    DirSem (setCore s k v) (absStep A (Op.set k v)) ∧ ROk (setCore s k v) := by
  have hd : dirCmds (setCore s k v) = dirCmds s ++ [Command.set k v] :=
    dirCmds_append_writer hInv _ (setCore_names s k v) (setCore_files s k v)
  constructor
  · intro q
    rw [hd, absCmds_append]
    show (if k = q then some v else absCmds (fun _ => none) (dirCmds s) q)
      = absStep A (Op.set k v) q
    rw [hsem q]
    rfl
  · show replayOk (fun _ => none) (dirCmds (setCore s k v)) = true
    rw [hd, replayOk_append, hrok]
    simp [replayOk]

theorem dirOk_removeCore {s : St} (hInv : Inv s) {A : Str → Option Str}
    (hAg : Agrees s A) (hsem : DirSem s A) (hrok : ROk s) (k : Str) {old : LogEntry}
    (hlk : lookupA s.map k = some old) :
    DirSem (removeCore s k).2 (absStep A (Op.del k)) ∧ ROk (removeCore s k).2 := by
  obtain ⟨i, v, _, _, hget⟩ := getOp_entry hInv hlk
  have hAk : A k = some v := by
    have h2 := (hAg k).symm.trans hget
    exact Except.ok.inj h2
  have hshape := removeCore_ok_eq s k old hlk
  have hnames : (removeCore s k).2.names = s.names := by
    rw [hshape]
    rfl
  have hfiles : ∀ j, (removeCore s k).2.files j
      = if j = s.writer then s.files j ++ [Item.whole (Command.remove k)]
        else s.files j := by
    intro j
    rw [hshape]
    exact remove_shape_files s _ _ _ j
  have hd : dirCmds (removeCore s k).2 = dirCmds s ++ [Command.remove k] :=
    dirCmds_append_writer hInv _ hnames hfiles
  constructor
  · intro q
    rw [hd, absCmds_append]
    show (if k = q then none else absCmds (fun _ => none) (dirCmds s) q)
      = absStep A (Op.del k) q
    rw [hsem q]
    rfl
  · show replayOk (fun _ => none) (dirCmds (removeCore s k).2) = true
    rw [hd, replayOk_append, hrok]
    show (true && ((absCmds (fun _ => none) (dirCmds s) k).isSome
      && replayOk _ [])) = true
    rw [hsem k, hAk]
    rfl

theorem compactRecord_csem {s : St} (hInv : Inv s) {A : Str → Option Str}
    (hAg : Agrees s A) {c iC n iN : Nat}
    (hc : c = s.current_generation + 1) (hn : n = s.current_generation + 2)
    {t : St} {handled : List Str} {scanned : List Command}
    (hMid : Mid s c iC n iN t) (hCS : CSem s A iC scanned t handled)
    (cmd : Command) (after : List Command)
    (hro : replayOk (absCmds (fun _ => none) scanned) (cmd :: after) = true) :
    CSem s A iC (scanned ++ [cmd])
      (compactRecord c iC ((t, handled) : St × List Str) cmd).2.1
      (compactRecord c iC ((t, handled) : St × List Str) cmd).2.2 ∧
    replayOk (absCmds (fun _ => none) (scanned ++ [cmd])) after = true := by
  have hBapp : absCmds (fun _ => none) (scanned ++ [cmd])
      = absCmd (absCmds (fun _ => none) scanned) cmd := by
    rw [absCmds_append]
    rfl
  cases cmd with
  | remove key =>
      simp only [replayOk, Bool.and_eq_true] at hro
      obtain ⟨hkey, hafter⟩ := hro
      constructor
      · show CSem s A iC (scanned ++ [Command.remove key]) t (key :: handled)
        by_cases hh : key ∈ handled
        · refine ⟨?_, ?_, hCS.fsets⟩
          · intro k2
            rw [List.mem_cons]
            constructor
            · intro hk2
              rcases hk2 with he | hm
              · exact ⟨Command.remove key, List.mem_append_right _ (by simp), he.symm⟩
              · obtain ⟨c2, hc2, hck⟩ := (hCS.hand k2).mp hm
                exact ⟨c2, List.mem_append_left _ hc2, hck⟩
            · rintro ⟨c2, hc2, hck⟩
              rcases List.mem_append.mp hc2 with h1 | h2
              · exact Or.inr ((hCS.hand k2).mpr ⟨c2, h1, hck⟩)
              · have hc2e : c2 = Command.remove key := by simpa using h2
                subst hc2e
                exact Or.inl hck.symm
          · intro k2
            rw [hCS.fsem k2]
            by_cases hk2 : k2 ∈ handled
            · rw [if_pos hk2, if_pos (List.mem_cons_of_mem _ hk2)]
            · rw [if_neg hk2, if_neg ?_]
              intro hm
              rcases List.mem_cons.mp hm with he | hm2
              · subst he
                exact hk2 hh
              · exact hk2 hm2
        · exfalso
          have hnk : ∀ c2 ∈ scanned, cmdKey c2 ≠ key := by
            intro c2 hc2 he
            exact hh ((hCS.hand key).mpr ⟨c2, hc2, he⟩)
          have hnone : absCmds (fun _ => none) scanned key = none :=
            absCmds_of_not_key scanned _ key hnk
          rw [hnone] at hkey
          simp at hkey
      · rw [hBapp]
        exact hafter
  | set key value =>
      simp only [replayOk] at hro
      refine ⟨?_, by rw [hBapp]; exact hro⟩
      have hhand : ∀ (h2 : List Str), key ∈ h2 →
          (∀ k2, k2 ∈ h2 ↔ k2 ∈ handled ∨ k2 = key) →
          ∀ k2, k2 ∈ h2 ↔ ∃ c2, c2 ∈ scanned ++ [Command.set key value] ∧
            cmdKey c2 = k2 := by
        intro h2 hkh2 hch2 k2
        rw [hch2 k2]
        constructor
        · intro hk2
          rcases hk2 with hm | he
          · obtain ⟨c2, hc2, hck⟩ := (hCS.hand k2).mp hm
            exact ⟨c2, List.mem_append_left _ hc2, hck⟩
          · exact ⟨Command.set key value, List.mem_append_right _ (by simp), he.symm⟩
        · rintro ⟨c2, hc2, hck⟩
          rcases List.mem_append.mp hc2 with h1 | h2b
          · exact Or.inl ((hCS.hand k2).mpr ⟨c2, h1, hck⟩)
          · have hc2e : c2 = Command.set key value := by simpa using h2b
            subst hc2e
            exact Or.inr hck.symm
      by_cases hh : key ∈ handled
      · have hred : compactRecord c iC ((t, handled) : St × List Str)
            (Command.set key value) = (Except.ok (), t, handled) := by
          simp [compactRecord, hh]
        rw [hred]
        refine ⟨hhand handled hh (fun k2 => by
          constructor
          · exact Or.inl
          · intro hk2
            rcases hk2 with hm | he
            · exact hm
            · subst he
              exact hh), ?_, hCS.fsets⟩
        exact hCS.fsem
      · have hget : getOp t key = Except.ok (A key) := by
          rw [hMid.get_eq key]
          exact hAg key
        cases hA : A key with
        | none =>
            rw [hA] at hget
            have hred : compactRecord c iC ((t, handled) : St × List Str)
                (Command.set key value) = (Except.ok (), t, key :: handled) := by
              simp [compactRecord, hh, hget]
            rw [hred]
            refine ⟨hhand (key :: handled) (List.mem_cons_self _ _)
              (fun k2 => by rw [List.mem_cons, Or.comm]), ?_, hCS.fsets⟩
            intro k2
            rw [hCS.fsem k2]
            by_cases hk2 : k2 = key
            · subst hk2
              rw [if_neg hh, if_pos (List.mem_cons_self _ _), hA]
            · by_cases hk2h : k2 ∈ handled
              · rw [if_pos hk2h, if_pos (List.mem_cons_of_mem _ hk2h)]
              · rw [if_neg hk2h, if_neg ?_]
                intro hm
                rcases List.mem_cons.mp hm with he | hm2
                · exact hk2 he
                · exact hk2h hm2
        | some v2 =>
            rw [hA] at hget
            simp only [compactRecord, if_neg hh, hget]
            set pos := (t.files iC).length with hpos
            set it := Item.whole (Command.set key v2) with hit
            set est := key.length + v2.length with hest
            have hfile : ∀ j, ({ appendItem t iC it with
                map := (mapSet (appendItem t iC it).map key c pos est).2 } : St).files j
                = if j = iC then t.files j ++ [it] else t.files j := fun j => rfl
            refine ⟨hhand (key :: handled) (List.mem_cons_self _ _)
              (fun k2 => by rw [List.mem_cons, Or.comm]), ?_, ?_⟩
            · intro k2
              rw [hfile iC, if_pos rfl, hit,
                wholeRecs_append_whole _ _ hMid.tmp_whole, absCmds_append]
              show (if key = k2 then some v2
                else absCmds (fun _ => none) (wholeRecs (t.files iC)) k2)
                = if k2 ∈ key :: handled then A k2 else none
              rw [hCS.fsem k2]
              by_cases hk2 : key = k2
              · subst hk2
                rw [if_pos rfl, if_pos (List.mem_cons_self _ _), hA]
              · rw [if_neg hk2]
                by_cases hk2h : k2 ∈ handled
                · rw [if_pos hk2h, if_pos (List.mem_cons_of_mem _ hk2h)]
                · rw [if_neg hk2h, if_neg ?_]
                  intro hm
                  rcases List.mem_cons.mp hm with he | hm2
                  · exact hk2 he.symm
                  · exact hk2h hm2
            · intro c2 hc2
              rw [hfile iC, if_pos rfl, hit,
                wholeRecs_append_whole _ _ hMid.tmp_whole] at hc2
              rcases List.mem_append.mp hc2 with h1 | h2
              · exact hCS.fsets c2 h1
              · exact ⟨key, v2, by simpa using h2⟩

theorem compactFold_csem {s : St} (hInv : Inv s) {A : Str → Option Str}
    (hAg : Agrees s A) {c iC n iN : Nat}
    (hc : c = s.current_generation + 1) (hn : n = s.current_generation + 2) :
    ∀ (cmds after scanned : List Command) (t : St) (handled : List Str),
      Mid s c iC n iN t →
      CSem s A iC scanned t handled →
      replayOk (absCmds (fun _ => none) scanned) (cmds ++ after) = true →
      CSem s A iC (scanned ++ cmds)
        (foldStopE (compactRecord c iC) ((t, handled) : St × List Str) cmds).2.1
        (foldStopE (compactRecord c iC) ((t, handled) : St × List Str) cmds).2.2 ∧
      replayOk (absCmds (fun _ => none) (scanned ++ cmds)) after = true
  | [], after, scanned, t, handled, _, hCS, hro => by
      constructor
      · simpa [foldStopE] using hCS
      · simpa using hro
  | cmd :: rest, after, scanned, t, handled, hMid, hCS, hro => by
      rw [List.cons_append] at hro
      obtain ⟨hCS2, hro2⟩ :=
        compactRecord_csem hInv hAg hc hn hMid hCS cmd (rest ++ after) hro
      obtain ⟨hok, hMid2⟩ := compactRecord_mid hInv hc hn handled cmd hMid
      rcases hr : compactRecord c iC ((t, handled) : St × List Str) cmd
        with ⟨r, t2, handled2⟩
      rw [hr] at hok hMid2 hCS2
      cases r with
      | error e => simp at hok
      | ok u =>
          have hrec := compactFold_csem hInv hAg hc hn rest after
            (scanned ++ [cmd]) t2 handled2 hMid2 hCS2 hro2
          have hfold : foldStopE (compactRecord c iC)
              ((t, handled) : St × List Str) (cmd :: rest)
              = foldStopE (compactRecord c iC) ((t2, handled2) : St × List Str)
                  rest := by
            simp only [foldStopE, hr]
          rw [hfold, List.append_cons scanned cmd rest]
          exact hrec

theorem compactGens_csem {s : St} (hInv : Inv s) {A : Str → Option Str}
    (hAg : Agrees s A) {c iC n iN : Nat}
    (hc : c = s.current_generation + 1) (hn : n = s.current_generation + 2)
    (hiC : s.nextInode ≤ iC) :
    ∀ (gens scanned : List Nat) (t : St) (handled : List Str),
      (∀ g ∈ gens, g ≤ s.current_generation ∧
        (lookupA s.names (g, Ext.log)).isSome = true) →
      Mid s c iC n iN t →
      CSem s A iC (dirGensCmds s scanned) t handled →
      replayOk (absCmds (fun _ => none) (dirGensCmds s scanned))
        (dirGensCmds s gens) = true →
      CSem s A iC (dirGensCmds s (scanned ++ gens))
        (foldStopE (compactGen c iC) ((t, handled) : St × List Str) gens).2.1
        (foldStopE (compactGen c iC) ((t, handled) : St × List Str) gens).2.2
  | [], scanned, t, handled, _, _, hCS, _ => by
      simpa [foldStopE] using hCS
  | g :: gs, scanned, t, handled, hgens, hMid, hCS, hro => by
      obtain ⟨hle, hsome⟩ := hgens g (List.mem_cons_self g gs)
      obtain ⟨i, hi⟩ := Option.isSome_iff_exists.mp hsome
      have hgn : (n, Ext.log) ≠ ((g, Ext.log) : Nat × Ext) := by
        simp only [ne_eq, Prod.mk.injEq, not_and]
        intro hng
        omega
      have hname : lookupA t.names (g, Ext.log) = some i := by
        rw [hMid.names_eq]
        rw [lookupA_insertA_ne _ (n, Ext.log) (g, Ext.log) iN hgn]
        rw [lookupA_insertA_ne _ (c, Ext.tmp) (g, Ext.log) iC (by simp)]
        exact hi
      have hopen : openRead t g Ext.log = Except.ok i := by
        simp [openRead, hname]
      have hilt : i < s.nextInode := hInv.names_lt (g, Ext.log) i (lookupA_mem hi)
      have hfi : t.files i = s.files i := hMid.files_ne i (by omega)
      have hlio : logInode s g = i := by
        unfold logInode
        rw [hi]
        rfl
      rw [dirGensCmds_cons, hlio] at hro
      obtain ⟨hCS2, hro2⟩ := compactFold_csem hInv hAg hc hn
        (wholeRecs (s.files i)) (dirGensCmds s gs) (dirGensCmds s scanned)
        t handled hMid hCS hro
      obtain ⟨hok, hMid2⟩ :=
        compactFold_mid hInv hc hn (wholeRecs (t.files i)) t handled hMid
      rw [hfi] at hok hMid2
      rcases hf : foldStopE (compactRecord c iC) ((t, handled) : St × List Str)
        (wholeRecs (s.files i)) with ⟨r, t2, handled2⟩
      rw [hf] at hok hMid2 hCS2
      cases r with
      | error e => simp at hok
      | ok u =>
          have hglue : dirGensCmds s (scanned ++ [g])
              = dirGensCmds s scanned ++ wholeRecs (s.files i) := by
            rw [dirGensCmds_append, dirGensCmds_cons, hlio, dirGensCmds_nil,
              List.append_nil]
          have hrec := compactGens_csem hInv hAg hc hn hiC gs (scanned ++ [g])
            t2 handled2 (fun g2 hg2 => hgens g2 (List.mem_cons_of_mem g hg2))
            hMid2 (by rw [hglue]; exact hCS2) (by rw [hglue]; exact hro2)
          have hstep : foldStopE (compactGen c iC)
              ((t, handled) : St × List Str) (g :: gs)
              = foldStopE (compactGen c iC) ((t2, handled2) : St × List Str)
                  gs := by
            simp only [foldStopE, compactGen, hopen, hfi, hf]
          rw [hstep, List.append_cons scanned g gs]
          exact hrec

theorem runCompaction_dirOk {s : St} (hInv : Inv s) {A : Str → Option Str}
    (hAg : Agrees s A) (hsem : DirSem s A) (hrok : ROk s) :
    DirSem (runCompaction s).2 A ∧ ROk (runCompaction s).2 := by
  have hca1 : createAppend s (s.current_generation + 1) Ext.tmp
      = (s.nextInode,
        { s with files := fun j => if j = s.nextInode then [] else s.files j,
                 names := insertA s.names (s.current_generation + 1, Ext.tmp) s.nextInode,
                 nextInode := s.nextInode + 1 }) := by
    simp [createAppend, hInv.no_tmp]
  set SA : St :=
    { s with files := fun j => if j = s.nextInode then [] else s.files j,
             names := insertA s.names (s.current_generation + 1, Ext.tmp) s.nextInode,
             nextInode := s.nextInode + 1 } with hSA
  have hn_none : lookupA SA.names (s.current_generation + 2, Ext.log) = none := by
    rw [show SA.names
        = insertA s.names (s.current_generation + 1, Ext.tmp) s.nextInode from rfl]
    rw [lookupA_insertA_ne _ _ _ _ (by simp)]
    cases hl : lookupA s.names (s.current_generation + 2, Ext.log) with
    | none => rfl
    | some i => exact absurd (hInv.log_le _ i hl) (by omega)
  have hca2 : createAppend SA (s.current_generation + 2) Ext.log
      = (s.nextInode + 1,
        { SA with files := fun j => if j = s.nextInode + 1 then [] else SA.files j,
                  names := insertA SA.names (s.current_generation + 2, Ext.log)
                    (s.nextInode + 1),
                  nextInode := s.nextInode + 2 }) := by
    simp [createAppend, hn_none]
  set SB : St :=
    { SA with files := fun j => if j = s.nextInode + 1 then [] else SA.files j,
              names := insertA SA.names (s.current_generation + 2, Ext.log)
                (s.nextInode + 1),
              nextInode := s.nextInode + 2 } with hSB
  set S3 : St :=
    { SB with writer := s.nextInode + 1,
              readers := insertA (insertA SB.readers (s.current_generation + 1) s.nextInode)
                (s.current_generation + 2) (s.nextInode + 1),
              current_generation := s.current_generation + 2 } with hS3
  have hfiles3 : ∀ j, j < s.nextInode → S3.files j = s.files j := by
    intro j hj
    rw [show S3.files j = if j = s.nextInode + 1 then []
        else if j = s.nextInode then [] else s.files j from rfl]
    rw [if_neg (by omega), if_neg (by omega)]
  have hreaders3 : ∀ g, g ≤ s.current_generation →
      lookupA S3.readers g = lookupA s.readers g := by
    intro g hg
    rw [show S3.readers
        = insertA (insertA s.readers (s.current_generation + 1) s.nextInode)
            (s.current_generation + 2) (s.nextInode + 1) from rfl]
    rw [lookupA_insertA_ne _ _ _ _ (by omega), lookupA_insertA_ne _ _ _ _ (by omega)]
  have hMid3 : Mid s (s.current_generation + 1) s.nextInode (s.current_generation + 2)
      (s.nextInode + 1) S3 := by
    refine ⟨rfl, rfl, rfl, rfl, rfl, ?_, ?_, ?_, hInv.map_nodup, ?_, ?_⟩
    · intro j hj
      rw [show S3.files j = if j = s.nextInode + 1 then []
          else if j = s.nextInode then [] else s.files j from rfl]
      by_cases h1 : j = s.nextInode + 1
      · rw [if_pos h1, h1, hInv.files_hi (s.nextInode + 1) (by omega)]
      · rw [if_neg h1, if_neg hj]
    · intro k e he
      obtain ⟨i, v, hi, hr⟩ := hInv.read_ok k e he
      have hgen := hInv.gens_le k e he
      have hilt := hInv.readers_lt e.generation i (lookupA_mem hi)
      refine ⟨i, v, ?_, ?_⟩
      · rw [hreaders3 e.generation hgen]
        exact hi
      · rw [hfiles3 i hilt]
        exact hr
    · intro k e he
      exact le_trans (hInv.gens_le k e he) (by omega)
    · rw [show S3.files s.nextInode = if s.nextInode = s.nextInode + 1 then []
          else if s.nextInode = s.nextInode then [] else s.files s.nextInode from rfl]
      rw [if_neg (by omega), if_pos rfl]
      simp
    · intro k
      apply getOp_congr
      · rfl
      · intro e he
        exact hreaders3 e.generation (hInv.gens_le k e he)
      · intro e i he hi
        rw [hfiles3 i (hInv.readers_lt e.generation i (lookupA_mem hi))]
  have hficz : S3.files s.nextInode = [] := by
    rw [show S3.files s.nextInode = if s.nextInode = s.nextInode + 1 then []
        else if s.nextInode = s.nextInode then [] else s.files s.nextInode from rfl]
    rw [if_neg (by omega), if_pos rfl]
  have hCS3 : CSem s A s.nextInode (dirGensCmds s []) S3 [] := by
    refine ⟨?_, ?_, ?_⟩
    · intro k2
      constructor
      · intro h
        simp at h
      · rintro ⟨c2, hc2, _⟩
        rw [dirGensCmds_nil] at hc2
        simp at hc2
    · intro k2
      rw [hficz]
      simp [wholeRecs, absCmds]
    · intro c2 hc2
      rw [hficz] at hc2
      simp [wholeRecs] at hc2
  obtain ⟨hfok, hMid4⟩ := compactGens_mid hInv rfl rfl (sortedGens s) S3 []
    hMid3 (sortedGens_bound hInv)
  have hCS4 := compactGens_csem hInv hAg rfl rfl (le_refl s.nextInode)
    (sortedGens s) [] S3 [] (sortedGens_bound hInv) hMid3 hCS3
    (by rw [dirGensCmds_nil]; exact hrok)
  rcases hfold : foldStopE (compactGen (s.current_generation + 1) s.nextInode)
      ((S3, []) : St × List Str) (sortedGens s) with ⟨r4, t4, handled4⟩
  rw [hfold] at hfok hMid4 hCS4
  cases r4 with
  | error e => simp at hfok
  | ok u4 =>
  rw [List.nil_append] at hCS4
  have htmpname : lookupA t4.names (s.current_generation + 1, Ext.tmp)
      = some s.nextInode := by
    rw [hMid4.names_eq]
    rw [lookupA_insertA_ne _ _ _ _ (by simp)]
    exact lookupA_insertA_self _ _ _
  have hrun : runCompaction s
      = foldStopE removeLogFile
          { t4 with
            names := insertA (eraseA t4.names (s.current_generation + 1, Ext.tmp))
              (s.current_generation + 1, Ext.log) s.nextInode,
            readers := insertA t4.readers (s.current_generation + 1) s.nextInode,
            wasted_bytes := 0 } (sortedGens s) := by
    simp only [runCompaction, hca1, hca2]
    rw [← hS3]
    rw [hfold]
    simp only [htmpname]
  set S5 : St :=
    { t4 with
      names := insertA (eraseA t4.names (s.current_generation + 1, Ext.tmp))
        (s.current_generation + 1, Ext.log) s.nextInode,
      readers := insertA t4.readers (s.current_generation + 1) s.nextInode,
      wasted_bytes := 0 } with hS5
  have ht4nodup : (t4.names.map Prod.fst).Nodup := by
    rw [hMid4.names_eq]
    exact insertA_keys_nodup _ _ _ (insertA_keys_nodup _ _ _ hInv.names_nodup)
  have hS5names : S5.names
      = insertA (eraseA t4.names (s.current_generation + 1, Ext.tmp))
          (s.current_generation + 1, Ext.log) s.nextInode := rfl
  have hS5nodup : (S5.names.map Prod.fst).Nodup := by
    rw [hS5names]
    exact insertA_keys_nodup _ _ _ (eraseA_keys_nodup _ _ ht4nodup)
  have hgname : ∀ g, g ≤ s.current_generation →
      lookupA S5.names (g, Ext.log) = lookupA s.names (g, Ext.log) := by
    intro g hg
    rw [hS5names]
    rw [lookupA_insertA_ne _ _ _ _ (by simp only [ne_eq, Prod.mk.injEq, not_and]; omega)]
    rw [lookupA_eraseA_ne _ _ _ (by simp)]
    rw [hMid4.names_eq]
    rw [lookupA_insertA_ne _ _ _ _ (by simp only [ne_eq, Prod.mk.injEq, not_and]; omega)]
    rw [lookupA_insertA_ne _ _ _ _ (by simp)]
  have hsome5 : ∀ g ∈ sortedGens s, (lookupA S5.names (g, Ext.log)).isSome = true := by
    intro g hg
    obtain ⟨hle, hs⟩ := sortedGens_bound hInv g hg
    rw [hgname g hle]
    exact hs
  obtain ⟨hok6, ⟨hnn6, hnone6, hpres6, hmem6⟩, hff, hfr, hfm, hfc, hfw, hfn, hfwa⟩ :=
    removeFold_spec (sortedGens s) S5 (sortedGens_nodup hInv.names_nodup) hS5nodup hsome5
  have hcnotin : s.current_generation + 1 ∉ sortedGens s := fun hm =>
    absurd (sortedGens_bound hInv _ hm).1 (by omega)
  have hnnotin : s.current_generation + 2 ∉ sortedGens s := fun hm =>
    absurd (sortedGens_bound hInv _ hm).1 (by omega)
  set S6 : St := (foldStopE removeLogFile S5 (sortedGens s)).2 with hS6
  have hS6c : lookupA S6.names (s.current_generation + 1, Ext.log) = some s.nextInode := by
    rw [hpres6 (s.current_generation + 1, Ext.log) (Or.inr hcnotin), hS5names]
    exact lookupA_insertA_self _ _ _
  have hS6n : lookupA S6.names (s.current_generation + 2, Ext.log)
      = some (s.nextInode + 1) := by
    rw [hpres6 (s.current_generation + 2, Ext.log) (Or.inr hnnotin), hS5names]
    rw [lookupA_insertA_ne _ _ _ _ (by simp only [ne_eq, Prod.mk.injEq, not_and]; omega)]
    rw [lookupA_eraseA_ne _ _ _ (by simp)]
    rw [hMid4.names_eq]
    exact lookupA_insertA_self _ _ _
  have hS6other : ∀ g i, lookupA S6.names (g, Ext.log) = some i →
      g = s.current_generation + 1 ∨ g = s.current_generation + 2 := by
    intro g i hgi
    by_cases hgin : g ∈ sortedGens s
    · rw [hnone6 g hgin] at hgi
      exact absurd hgi (by simp)
    · by_cases hgc : g = s.current_generation + 1
      · exact Or.inl hgc
      · by_cases hgn : g = s.current_generation + 2
        · exact Or.inr hgn
        · exfalso
          rw [hpres6 (g, Ext.log) (Or.inr hgin), hS5names] at hgi
          rw [lookupA_insertA_ne _ _ _ _
            (by simp only [ne_eq, Prod.mk.injEq, not_and]; omega)] at hgi
          rw [lookupA_eraseA_ne _ _ _ (by simp)] at hgi
          rw [hMid4.names_eq] at hgi
          rw [lookupA_insertA_ne _ _ _ _
            (by simp only [ne_eq, Prod.mk.injEq, not_and]; omega)] at hgi
          rw [lookupA_insertA_ne _ _ _ _ (by simp)] at hgi
          exact hgin (mem_sortedGens.mpr (by rw [hgi]; rfl))
  have hsg6 : sortedGens S6
      = [s.current_generation + 1, s.current_generation + 2] := by
    apply sorted_nodup_ext _ _ (sortedGens_sorted S6) ?_ (sortedGens_nodup hnn6) ?_ ?_
    · apply List.sorted_cons.mpr
      constructor
      · intro b hb
        simp at hb
        omega
      · apply List.sorted_cons.mpr
        exact ⟨fun b hb => by simp at hb, List.sorted_nil⟩
    · refine List.nodup_cons.mpr ⟨?_, List.nodup_cons.mpr ⟨by simp, List.nodup_nil⟩⟩
      simp
    · intro x
      constructor
      · intro hx
        obtain ⟨i, hi⟩ := Option.isSome_iff_exists.mp (mem_sortedGens.mp hx)
        rcases hS6other x i hi with h1 | h2
        · simp [h1]
        · simp [h2]
      · intro hx
        rcases List.mem_cons.mp hx with h1 | hx2
        · subst h1
          exact mem_sortedGens.mpr (by rw [hS6c]; rfl)
        · have h2 : x = s.current_generation + 2 := by simpa using hx2
          subst h2
          exact mem_sortedGens.mpr (by rw [hS6n]; rfl)
  have hS6files : S6.files = t4.files := hff
  have hfiN : S6.files (s.nextInode + 1) = [] := by
    rw [hS6files, hMid4.files_ne (s.nextInode + 1) (by omega)]
    exact hInv.files_hi (s.nextInode + 1) (by omega)
  have hdir6 : dirCmds S6 = wholeRecs (t4.files s.nextInode) := by
    unfold dirCmds
    rw [hsg6, dirGensCmds_cons, dirGensCmds_cons, dirGensCmds_nil]
    have hl1 : logInode S6 (s.current_generation + 1) = s.nextInode := by
      unfold logInode
      rw [hS6c]
      rfl
    have hl2 : logInode S6 (s.current_generation + 2) = s.nextInode + 1 := by
      unfold logInode
      rw [hS6n]
      rfl
    rw [hl1, hl2, hfiN, hS6files]
    simp [wholeRecs]
  have hTsem : ∀ k, absCmds (fun _ => none) (wholeRecs (t4.files s.nextInode)) k
      = A k := by
    intro k
    rw [hCS4.fsem k]
    by_cases hk : k ∈ handled4
    · rw [if_pos hk]
    · rw [if_neg hk]
      have hnk : ∀ c2 ∈ dirCmds s, cmdKey c2 ≠ k := by
        intro c2 hc2 he
        exact hk ((hCS4.hand k).mpr ⟨c2, hc2, he⟩)
      have hnone : absCmds (fun _ => none) (dirCmds s) k = none :=
        absCmds_of_not_key (dirCmds s) _ k hnk
      rw [← hsem k, hnone]
  have hrun2 : (runCompaction s).2 = S6 := by
    rw [hrun]
  constructor
  · intro k
    rw [hrun2, hdir6]
    exact hTsem k
  · show replayOk (fun _ => none) (dirCmds (runCompaction s).2) = true
    rw [hrun2, hdir6]
    exact replayOk_allSets _ _ hCS4.fsets

theorem dirOk_applyOp_set {s : St} (hInv : Inv s) {A : Str → Option Str}
    (hAg : Agrees s A) (hsem : DirSem s A) (hrok : ROk s) (k v : Str) :
    DirSem (applyOp s (Op.set k v)) (absStep A (Op.set k v)) ∧
    ROk (applyOp s (Op.set k v)) := by
  obtain ⟨hsem1, hrok1⟩ := dirOk_setCore hInv hsem hrok k v
  have hInv1 : Inv (setCore s k v) := setCore_inv hInv k v
  have hAg1 : Agrees (setCore s k v) (absStep A (Op.set k v)) :=
    setCore_agrees hInv hAg k v
  rw [applyOp_set_eq]
  by_cases ht : (setCore s k v).wasted_bytes < COMPACTION_BYTES_THRESHOLD
  · rw [maybeRunCompaction, if_pos ht]
    exact ⟨hsem1, hrok1⟩
  · rw [maybeRun_yes _ ht]
    exact runCompaction_dirOk hInv1 hAg1 hsem1 hrok1

theorem dirOk_applyOp_del {s : St} (hInv : Inv s) {A : Str → Option Str}
    (hAg : Agrees s A) (hsem : DirSem s A) (hrok : ROk s) (k : Str)
    {old : LogEntry} (hlk : lookupA s.map k = some old) :
    (removeOp s k).1 = Except.ok () ∧
    DirSem (applyOp s (Op.del k)) (absStep A (Op.del k)) ∧
    ROk (applyOp s (Op.del k)) := by
  obtain ⟨hsem1, hrok1⟩ := dirOk_removeCore hInv hAg hsem hrok k hlk
  have hInv1 : Inv (removeCore s k).2 := removeCore_inv hInv k
  have hAg1 : Agrees (removeCore s k).2 (absStep A (Op.del k)) :=
    removeCore_agrees hInv hAg k
  have hco := removeCore_ok_eq s k old hlk
  have hrop : removeOp s k = maybeRunCompaction (removeCore s k).2 := by
    simp only [removeOp, hco]
  have happ : applyOp s (Op.del k) = (maybeRunCompaction (removeCore s k).2).2 := by
    show (removeOp s k).2 = _
    rw [hrop]
  refine ⟨?_, ?_⟩
  · rw [hrop]
    exact (maybeRunCompaction_spec hInv1).1
  · rw [happ]
    by_cases ht : (removeCore s k).2.wasted_bytes < COMPACTION_BYTES_THRESHOLD
    · rw [maybeRunCompaction, if_pos ht]
      exact ⟨hsem1, hrok1⟩
    · rw [maybeRun_yes _ ht]
      exact runCompaction_dirOk hInv1 hAg1 hsem1 hrok1

theorem runOps_dirOk : ∀ (S : List Op) (s : St) (A : Str → Option Str),
    Inv s → Agrees s A → DirSem s A → ROk s → removesSucceed s S = true →
    DirSem (runOps s S) (absRun A S) ∧ ROk (runOps s S)
  | [], _, _, _, _, hsem, hrok, _ => ⟨hsem, hrok⟩
  | Op.set k v :: rest, s, A, hInv, hAg, hsem, hrok, hrs => by
      obtain ⟨hsem2, hrok2⟩ := dirOk_applyOp_set hInv hAg hsem hrok k v
      exact runOps_dirOk rest (applyOp s (Op.set k v)) (absStep A (Op.set k v))
        (applyOp_inv hInv (Op.set k v)) (applyOp_agrees hInv hAg (Op.set k v))
        hsem2 hrok2 hrs
  | Op.del k :: rest, s, A, hInv, hAg, hsem, hrok, hrs => by
      cases hlk : lookupA s.map k with
      | none =>
          exfalso
          have herr : removeOp s k = (Except.error Err.keyNotFound,
              appendItem s s.writer (Item.whole (Command.remove k))) := by
            simp only [removeOp, removeCore_err_eq s k hlk]
          have hfalse : removesSucceed s (Op.del k :: rest) = false := by
            show (match removeOp s k with
              | (Except.ok _, s2) => removesSucceed s2 rest
              | (Except.error _, _) => false) = false
            rw [herr]
          rw [hfalse] at hrs
          exact absurd hrs (by simp)
      | some old =>
          obtain ⟨hok, hsem2, hrok2⟩ := dirOk_applyOp_del hInv hAg hsem hrok k hlk
          rcases hro : removeOp s k with ⟨r, s2⟩
          rw [hro] at hok
          cases r with
          | error e => exact absurd hok (by simp)
          | ok u =>
              cases u
              have happ : applyOp s (Op.del k) = s2 := by
                show (removeOp s k).2 = s2
                rw [hro]
              have hrs2 : removesSucceed s2 rest = true := by
                have h0 : removesSucceed s (Op.del k :: rest)
                    = removesSucceed s2 rest := by
                  show (match removeOp s k with
                    | (Except.ok _, t2) => removesSucceed t2 rest
                    | (Except.error _, _) => false) = _
                  rw [hro]
                rw [← h0]
                exact hrs
              rw [happ] at hsem2 hrok2
              have hInv2 : Inv s2 := by
                rw [← happ]
                exact applyOp_inv hInv (Op.del k)
              have hAg2 : Agrees s2 (absStep A (Op.del k)) := by
                rw [← happ]
                exact applyOp_agrees hInv hAg (Op.del k)
              have hrec := runOps_dirOk rest s2 (absStep A (Op.del k))
                hInv2 hAg2 hsem2 hrok2 hrs2
              show DirSem (runOps (applyOp s (Op.del k)) rest)
                  (absRun (absStep A (Op.del k)) rest) ∧
                ROk (runOps (applyOp s (Op.del k)) rest)
              rw [happ]
              exact hrec

theorem dirOk_freshSt : DirSem freshSt (fun _ => none) ∧ ROk freshSt :=
  ⟨fun _ => rfl, rfl⟩

/-- C3, amended: the unrestricted claim fails (a failed remove appends a
Remove record for an absent key and replaying it makes open fail), but for
every operation sequence from a fresh store in which every remove is of a
present key, dropping the store and reopening its directory succeeds, and
the reopened store's get agrees with the pre-close store on every key; this
holds through every compaction the sequence triggers. -/
theorem c3_amended_reopen_agrees (S : List Op)
    (hrs : removesSucceed freshSt S = true) :
    (openStore (some (runOps freshSt S).dir)).1 = Except.ok () ∧
    ∀ k, getOp (openStore (some (runOps freshSt S).dir)).2 k
      = getOp (runOps freshSt S) k := by
  obtain ⟨hI, hA⟩ :=
    runOps_invAgrees S freshSt (fun _ => none) inv_freshSt agrees_freshSt
  obtain ⟨hsem, hrok⟩ := runOps_dirOk S freshSt (fun _ => none) inv_freshSt
    agrees_freshSt dirOk_freshSt.1 dirOk_freshSt.2 hrs
  exact openStore_reopen_agrees hI hA hsem hrok

/-- Witness for c3_amended_reopen_agrees: a concrete sequence with a
successful remove; reopening succeeds and agrees on the key b. -/
theorem c3_amended_reopen_agrees_witness :
    removesSucceed freshSt [Op.set aKey val1, Op.del aKey, Op.set bKey val2]
      = true ∧
    (openStore (some (runOps freshSt
      [Op.set aKey val1, Op.del aKey, Op.set bKey val2]).dir)).1
      = Except.ok () ∧
    getOp (openStore (some (runOps freshSt
      [Op.set aKey val1, Op.del aKey, Op.set bKey val2]).dir)).2 bKey
      = getOp (runOps freshSt [Op.set aKey val1, Op.del aKey, Op.set bKey val2])
          bKey :=
  ⟨by decide,
   (c3_amended_reopen_agrees _ (by decide)).1,
   (c3_amended_reopen_agrees _ (by decide)).2 bKey⟩

/-- C6 witness: the concrete two-write sequence crosses the threshold at the
second write; the compaction it triggers completes, and the resulting
directory holds no tmp file and no generation that was present when the
compaction started. -/
theorem c6_compaction_full_replacement_witness :
    noTmps (setOp (runOps freshSt [Op.set kKey bigVal]) kKey bigVal).2 ∧
    logsDisjoint (setOp (runOps freshSt [Op.set kKey bigVal]) kKey bigVal).2
      (setCore (runOps freshSt [Op.set kKey bigVal]) kKey bigVal) :=
  (c6_compaction_full_replacement [Op.set kKey bigVal]).1 kKey bigVal
    scenario_no_trigger scenario_setOp_ok

end KvsModel
